import Mathlib

/-!
# JBFieldsSolver: dice outcome space, probabilities, scoring rules, EV table, solver
and input parsing

A shallow embedding of `internal/game` (berry.go, dice_prob.go, score.go, category.go),
`internal/ev` (ev.go), `internal/solver` (solver.go, theoretical_max.go, parse.go and
`FormatKeep` of display.go) and `internal/evloader` (evloader.go).

* Go's `uint8` and `uint16` values are natural numbers, with the wrap-around written out
  where the code can reach it; Go's `int` is `Int`, or `Nat` where only sums of counts
  flow into it.
* `float64` values are exact rationals.  The value minus infinity that a running maximum
  starts from is `none` inside the loop; a result left at minus infinity is outside the
  model.
* A Go panic is `Except.error` or `Option.none`; so is a run that does not return, and a
  result outside the rational model.
* A callback passed to `ForEach` or `EnumerateKeeps` is folded over the list of
  arguments it is called with, in call order.
* `sort.Slice` is Go's standard library: its insertion sort for short slices is
  transcribed, the rest is a parameter.
* File access and JSON coding are the standard library's: parameters of `SaveJSON`,
  `LoadJSON` and `Load`.  A returned `error` is `Option String`, `none` for `nil`.
* A string handed to a parser holds valid UTF-8 and is the list of its code points; its
  bytes are their UTF-8 encoding.  The functions of `strings`, `unicode` and `strconv`
  that the parsers call are written out from their documented behaviour; the Unicode
  tables of letters and of case beyond ASCII are parameters.  A parser returns
  `Except String`, the error text shortened to its fixed part.
-/

namespace JBFields

/-! ## berry.go -/

/-- Berry is a face index (`type Berry uint8`). -/
abbrev Berry := Nat

def Jumbleberry : Berry := 0
def Sugarberry : Berry := 1
def Pickleberry : Berry := 2
def Moonberry : Berry := 3
def Pest : Berry := 4
/-- NumBerryTypes is the sentinel closing the `iota` block. -/
def NumBerryTypes : Nat := 5

/-- BerryPoints is the table `[NumBerryTypes]int{2, 2, 4, 7, 0}`; it is only ever
indexed below `NumBerryTypes`. -/
def BerryPoints (b : Berry) : Int :=
  match b with
  | 0 => 2
  | 1 => 2
  | 2 => 4
  | 3 => 7
  | _ => 0

/-- NumDice is the number of dice rolled each turn. -/
def NumDice : Nat := 5

/-- Dice is `[NumBerryTypes]uint8`: one count per face, in the order
Jumbleberry, Sugarberry, Pickleberry, Moonberry, Pest. -/
structure Dice where
  J : Nat
  S : Nat
  P : Nat
  M : Nat
  X : Nat
deriving DecidableEq, Repr

namespace Dice

/-- The zero value `Dice{}`. -/
def zero : Dice := ⟨0, 0, 0, 0, 0⟩

/-- Array read `d[b]` (every read in the program has `b < NumBerryTypes`). -/
def get (d : Dice) (b : Berry) : Nat :=
  match b with
  | 0 => d.J
  | 1 => d.S
  | 2 => d.P
  | 3 => d.M
  | _ => d.X

/-- Array write `d[b] = v` on the local copy. -/
def set (d : Dice) (b : Berry) (v : Nat) : Dice :=
  match b with
  | 0 => { d with J := v }
  | 1 => { d with S := v }
  | 2 => { d with P := v }
  | 3 => { d with M := v }
  | _ => { d with X := v }

/-- The counts in array order, as `range d` visits them. -/
def toList (d : Dice) : List Nat := [d.J, d.S, d.P, d.M, d.X]

/-- Method `Dice.Total`: `sum := 0; for _, c := range d { sum += int(c) }`. -/
def Total (d : Dice) : Int :=
  d.toList.foldl (fun sum c => sum + (c : Int)) 0

/-- Method `Dice.Points`: `for b := 0; b < NumBerryTypes; b++ { sum += int(d[b]) * BerryPoints[b] }`. -/
def Points (d : Dice) : Int :=
  (List.range NumBerryTypes).foldl (fun sum b => sum + (d.get b : Int) * BerryPoints b) 0

end Dice

/-- The recursive closure `generate` of `EnumerateAllDice`, returning the outcomes it
appends, in order.  The first argument is `NumBerryTypes - 1 - berry`, the number of
faces after `berry`, so that the first equation is the source's base case
`berry == NumBerryTypes-1`.  The loop `for count := 0; count <= remaining; count++`
visits `0, 1, ..., remaining` (the `uint8` counter does not wrap for
`remaining < 255`; the callers pass at most 5). -/
def generate : Nat → Berry → Nat → Dice → List Dice
  | 0, berry, remaining, current => [current.set berry remaining]
  | left + 1, berry, remaining, current =>
    (List.range (remaining + 1)).flatMap fun count =>
      generate left (berry + 1) (remaining - count) (current.set berry count)

/-- EnumerateAllDice: `generate(0, NumDice, Dice{})`. -/
def EnumerateAllDice : List Dice :=
  generate (NumBerryTypes - 1) 0 NumDice Dice.zero

/-! ## dice_prob.go -/

/-- FaceProb is the table `[NumBerryTypes]float64{0.3, 0.3, 0.2, 0.1, 0.1}`, with the
decimal literals read as exact rationals. -/
def FaceProb (b : Berry) : ℚ :=
  match b with
  | 0 => 3 / 10
  | 1 => 3 / 10
  | 2 => 2 / 10
  | 3 => 1 / 10
  | _ => 1 / 10

/-- The table `factorials = [NumDice + 1]float64{1, 1, 2, 6, 24, 120}`; an index
outside `0..5` is a run-time panic, here `none`. -/
def factorials (n : Nat) : Option ℚ :=
  [1, 1, 2, 6, 24, 120][n]?

/-- DiceProb: `prob := factorials[n]`, then for each face `prob /= factorials[d[b]]`
and, when `d[b] > 0`, `prob *= math.Pow(FaceProb[b], float64(d[b]))`. -/
def DiceProb (d : Dice) (n : Nat) : Option ℚ := do
  let prob ← factorials n
  (List.range NumBerryTypes).foldlM
    (fun prob b => do
      let f ← factorials (d.get b)
      let prob := prob / f
      if d.get b > 0 then pure (prob * FaceProb b ^ d.get b) else pure prob)
    prob

/-- RerollOutcome pairs a dice count tuple with its probability. -/
structure RerollOutcome where
  Dice : Dice
  Prob : ℚ
deriving DecidableEq

/-- The cache `allDiceCache`, set by `init` to `EnumerateAllDice()`. -/
def allDiceCache : List Dice := EnumerateAllDice

/-- AllDice returns the cached slice of outcomes. -/
def AllDice : List Dice := allDiceCache

/-- NumAllDice is `len(allDiceCache)`. -/
def NumAllDice : Nat := allDiceCache.length

/-- packDice: the base-6 encoding
`int(d[0]) + int(d[1])*6 + int(d[2])*36 + int(d[3])*216 + int(d[4])*1296`
(all operands are non-negative and far below the `int` range). -/
def packDice (d : Dice) : Nat :=
  d.get 0 + d.get 1 * 6 + d.get 2 * 36 + d.get 3 * 216 + d.get 4 * 1296

/-- The size of the array `diceToIndex [7776]uint16`. -/
def diceToIndexSize : Nat := 7776

/-- The first loop of `init`: starting from the zeroed array, each
`diceToIndex[packDice(d)] = uint16(i)` overwrites one cell.  The array is a
function on its indices; a write outside `[0, 7776)` is a panic (`none`). -/
def initDiceToIndex : List Dice → Nat → (Nat → Nat) → Option (Nat → Nat)
  | [], _, tbl => some tbl
  | d :: rest, i, tbl =>
    if packDice d < diceToIndexSize then
      initDiceToIndex rest (i + 1) (fun p => if p = packDice d then i % 65536 else tbl p)
    else none

/-- The array `diceToIndex` as `init` leaves it. -/
def diceToIndex : Option (Nat → Nat) :=
  initDiceToIndex allDiceCache 0 (fun _ => 0)

/-- DiceIndex: `int(diceToIndex[packDice(d)])`; a read outside `[0, 7776)` is a panic. -/
def DiceIndex (d : Dice) : Option Nat := do
  let tbl ← diceToIndex
  if packDice d < diceToIndexSize then pure (tbl (packDice d)) else none

/-- The array `firstRollProb` as `init` leaves it:
`firstRollProb[i] = DiceProb(allDiceCache[i], NumDice)`. -/
def firstRollProb : Option (List ℚ) :=
  allDiceCache.mapM fun d => DiceProb d NumDice

/-- FirstRollProb: `firstRollProb[idx]`, an array of 126 cells. -/
def FirstRollProb (idx : Nat) : Option ℚ := do
  let tbl ← firstRollProb
  if idx < 126 then tbl[idx]? else none

/-- AddDice: the component-wise sum, each `a[i] + b[i]` in `uint8`. -/
def AddDice (a b : Dice) : Dice :=
  (List.range NumBerryTypes).foldl
    (fun result i => result.set i ((a.get i + b.get i) % 256)) Dice.zero

/-- The recursive closure `generate` of `enumerateRerolls`: as in `EnumerateAllDice`,
but each appended entry carries `DiceProb(current, n)`. -/
def generateRerolls (n : Nat) : Nat → Berry → Nat → Dice → Option (List RerollOutcome)
  | 0, berry, remaining, current => do
    let current := current.set berry remaining
    let prob ← DiceProb current n
    pure [⟨current, prob⟩]
  | left + 1, berry, remaining, current =>
    (List.range (remaining + 1)).foldlM
      (fun result count => do
        let more ← generateRerolls n left (berry + 1) (remaining - count)
          (current.set berry count)
        pure (result ++ more))
      []

/-- The function enumerateRerolls: one outcome of probability 1 for `n == 0`, otherwise
`generate(0, uint8(n), Dice{})`. -/
def enumerateRerolls (n : Nat) : Option (List RerollOutcome) :=
  if n = 0 then some [⟨Dice.zero, 1⟩]
  else generateRerolls n (NumBerryTypes - 1) 0 (n % 256) Dice.zero

/-- Rerolls: `rerollCache[n]`, where `init` stored `enumerateRerolls(n)` for
`0 <= n <= NumDice`; the array has `NumDice + 1` cells. -/
def Rerolls (n : Nat) : Option (List RerollOutcome) :=
  if n ≤ NumDice then enumerateRerolls n else none

/-! ## category.go -/

/-- Category is a scoring category tag (`type Category uint8`). -/
abbrev Category := Nat

def CatJumbleberry : Category := 0
def CatSugarberry : Category := 1
def CatPickleberry : Category := 2
def CatMoonberry : Category := 3
def CatBasketOfThree : Category := 4
def CatBasketOfFour : Category := 5
def CatBasketOfFive : Category := 6
def CatMixedBasket : Category := 7
def CatFreeRoll : Category := 8
/-- NumCategories is the sentinel closing the `iota` block. -/
def NumCategories : Nat := 9

/-! ## score.go -/

/-- hasNOfAKind: `for _, count := range d { if count >= n { return true } }; return false`. -/
def hasNOfAKind (d : Dice) (n : Nat) : Bool :=
  d.toList.any fun count => decide (count ≥ n)

/-- Score: the `switch` over the category, the first matching `case` wins; the
`default` branch panics. -/
def Score (d : Dice) (cat : Category) : Except String Int :=
  if cat = CatJumbleberry then
    pure ((d.get Jumbleberry : Int) * BerryPoints Jumbleberry)
  else if cat = CatSugarberry then
    pure ((d.get Sugarberry : Int) * BerryPoints Sugarberry)
  else if cat = CatPickleberry then
    pure ((d.get Pickleberry : Int) * BerryPoints Pickleberry)
  else if cat = CatMoonberry then
    pure ((d.get Moonberry : Int) * BerryPoints Moonberry)
  else if cat = CatBasketOfThree then
    if hasNOfAKind d 3 then pure d.Points else pure 0
  else if cat = CatBasketOfFour then
    if hasNOfAKind d 4 then pure d.Points else pure 0
  else if cat = CatBasketOfFive then
    if hasNOfAKind d 5 then pure d.Points else pure 0
  else if cat = CatMixedBasket then
    if d.get Jumbleberry ≥ 1 ∧ d.get Sugarberry ≥ 1 ∧
        d.get Pickleberry ≥ 1 ∧ d.get Moonberry ≥ 1 then pure d.Points
    else pure 0
  else if cat = CatFreeRoll then
    pure d.Points
  else
    throw "invalid category"

/-! ## category.go: CategorySet -/

/-- CategorySet is a bitmask of categories (`type CategorySet uint16`). -/
abbrev CategorySet := Nat

/-- AllCategories: `(1 << NumCategories) - 1`. -/
def AllCategories : CategorySet := (1 <<< NumCategories) - 1

/-- The operand `1 << c` of the set operations, a shift at type `uint16`: bits shifted
past position 15 are lost. -/
def categoryBit (c : Category) : Nat := (1 <<< c) % 65536

/-- Method `CategorySet.Has`: `cs&(1<<c) != 0`. -/
def CategorySet.Has (cs : CategorySet) (c : Category) : Bool :=
  cs &&& categoryBit c != 0

/-- Method `CategorySet.Remove`: `cs &^ (1 << c)`, and-not on 16 bits. -/
def CategorySet.Remove (cs : CategorySet) (c : Category) : CategorySet :=
  cs &&& (65535 ^^^ categoryBit c)

/-- Method `CategorySet.Add`: `cs | (1 << c)`. -/
def CategorySet.Add (cs : CategorySet) (c : Category) : CategorySet :=
  cs ||| categoryBit c

/-- The loop of `Count`: `for bits != 0 { n++; bits &= bits - 1 }`.  Each round clears
the lowest set bit, so the first argument, a bound on the rounds, is never exhausted
when it starts at the width of `bits`. -/
def CategorySet.countLoop : Nat → Nat → Nat → Nat
  | 0, _, n => n
  | rounds + 1, bits, n =>
    if bits ≠ 0 then CategorySet.countLoop rounds (bits &&& (bits - 1)) (n + 1) else n

/-- Method `CategorySet.Count`: the popcount of a `uint16`. -/
def CategorySet.Count (cs : CategorySet) : Nat :=
  CategorySet.countLoop 16 cs 0

/-- Method `CategorySet.ForEach`: the categories `fn` is called with, in call order:
`for c := 0; c < NumCategories; c++ { if cs.Has(c) { fn(c) } }`. -/
def CategorySet.ForEach (cs : CategorySet) : List Category :=
  (List.range NumCategories).filter fun c => CategorySet.Has cs c

/-! ## ev.go -/

/-- Table is `struct { ev [512]float64 }`: the cells as a function of the index, read
and written through the bounds-checked accessors below. -/
structure Table where
  ev : Nat → ℚ

/-- The number of cells of `Table.ev`. -/
def tableSize : Nat := 512

/-- NewTable, and the zero value `&Table{}`. -/
def NewTable : Table := ⟨fun _ => 0⟩

/-- Method `Table.EV`: `t.ev[cs]`; an index outside the array is a panic. -/
def Table.EV (t : Table) (cs : CategorySet) : Option ℚ :=
  if cs < tableSize then some (t.ev cs) else none

/-- Method `Table.SetEV`: `t.ev[cs] = val`; an index outside the array is a panic. -/
def Table.SetEV (t : Table) (cs : Nat) (val : ℚ) : Option Table :=
  if cs < tableSize then some ⟨fun i => if i = cs then val else t.ev i⟩ else none

/-- The loop header `for k := uint8(0); k <= bound; k++` run for at most `fuel` tests of
its condition, `k` being the current counter: the values the body is run with, or `none`
when the loop is still running after `fuel` tests.  The increment wraps at 256. -/
def uint8Loop : Nat → Nat → Nat → Option (List Nat)
  | 0, _, _ => none
  | fuel + 1, bound, k =>
    if k ≤ bound then (uint8Loop fuel bound ((k + 1) % 256)).map fun ks => k :: ks
    else some []

/-- The closure `rec` of `EnumerateKeeps`, returning the calls `fn(current, totalKept)`
it makes, in order.  The first argument is `NumBerryTypes - berry`, so that the first
equation is the base case `berry == NumBerryTypes`.  The counter `k` takes at most 256
values, so a loop that has not ended after 257 tests never ends: `none` is a run that
does not return. -/
def EnumerateKeeps_rec (d : Dice) : Nat → Berry → Dice → Nat → Option (List (Dice × Nat))
  | 0, _, current, totalKept => some [(current, totalKept)]
  | left + 1, berry, current, totalKept => do
    let ks ← uint8Loop 257 (d.get berry) 0
    ks.foldlM
      (fun calls k => do
        let more ← EnumerateKeeps_rec d left (berry + 1) (current.set berry k) (totalKept + k)
        pure (calls ++ more))
      []

/-- EnumerateKeeps: `rec(0, game.Dice{}, 0)`; the result lists the arguments
`(keep, numKept)` of the successive calls of `fn`. -/
def EnumerateKeeps (d : Dice) : Option (List (Dice × Nat)) :=
  EnumerateKeeps_rec d NumBerryTypes 0 Dice.zero 0

/-- The accumulation shared by `ComputeRerollLayer` and `solveReroll`:
`ev := 0.0; for _, ro := range game.Rerolls(numRerolled) { ev += ro.Prob *
prevLayer[game.DiceIndex(game.AddDice(keep, ro.Dice))] }`.  The argument `numKept` is
the callback's; `numRerolled := game.NumDice - numKept` is an `int`, and a negative
index into `rerollCache` is a panic. -/
def rerollEV (prevLayer : List ℚ) (keep : Dice) (numKept : Nat) : Option ℚ := do
  let rerolls ← if NumDice < numKept then none else Rerolls (NumDice - numKept)
  rerolls.foldlM
    (fun ev ro => do
      let resultIdx ← DiceIndex (AddDice keep ro.Dice)
      let v ← prevLayer[resultIdx]?
      pure (ev + ro.Prob * v))
    0

/-- The body of the outer loop of `ComputeRerollLayer` for outcome `d` at index `i`: the
value stored into `curLayer[i]`. -/
def rerollBest (prevLayer : List ℚ) (i : Nat) (d : Dice) : Option ℚ := do
  let bestEV ← prevLayer[i]?
  let keeps ← EnumerateKeeps d
  keeps.foldlM
    (fun bestEV call =>
      if call.2 = NumDice then pure bestEV
      else do
        let ev ← rerollEV prevLayer call.1 call.2
        if ev > bestEV then pure ev else pure bestEV)
    bestEV

/-- The loop `for i, d := range allDice` of `ComputeRerollLayer` from index `i` on, each
round ending with the write `curLayer[i] = bestEV`. -/
def ComputeRerollLayer_loop (prevLayer : List ℚ) : List Dice → Nat → List ℚ → Option (List ℚ)
  | [], _, curLayer => some curLayer
  | d :: rest, i, curLayer => do
    let bestEV ← rerollBest prevLayer i d
    if i < curLayer.length then
      ComputeRerollLayer_loop prevLayer rest (i + 1) (curLayer.set i bestEV)
    else none

/-- ComputeRerollLayer: returns the contents of `curLayer` after the call (`prevLayer`
and `curLayer` are distinct slices at every call site). -/
def ComputeRerollLayer (allDice : List Dice) (prevLayer curLayer : List ℚ) : Option (List ℚ) :=
  ComputeRerollLayer_loop prevLayer allDice 0 curLayer

/-- The update `if val > bestVal { bestVal = val }` of a running maximum that starts at
`math.Inf(-1)`: `none` is the value minus infinity, below every number. -/
def bestValStep (bestVal : Option ℚ) (val : ℚ) : Option ℚ :=
  match bestVal with
  | none => some val
  | some b => if val > b then some val else some b

/-- The conversion `float64(game.Score(d, cat))`; the panic of `Score` is `none`. -/
def scoreFloat (d : Dice) (cat : Category) : Option ℚ :=
  match Score d cat with
  | Except.ok v => some (v : ℚ)
  | Except.error _ => none

/-- The score table of `Compute`: `scoreTab[cat][i] = float64(game.Score(d, cat))` for
`cat < NumCategories` and `i, d := range allDice`. -/
def Compute_scoreTab (allDice : List Dice) : Option (List (List ℚ)) :=
  (List.range NumCategories).mapM fun cat => allDice.mapM fun d => scoreFloat d cat

/-- Layer 0 of `Compute`: for `i := range allDice`, `v0[i]` is the running maximum of
`scoreTab[cat][i] + t.ev[cs.Remove(cat)]` over `cs.ForEach`.  A maximum left at minus
infinity is outside the rational model (`none`). -/
def Compute_layer0 (scoreTab : List (List ℚ)) (t : Table) (cs : CategorySet)
    (numDice : Nat) : Option (List ℚ) :=
  (List.range numDice).mapM fun i => do
    let bestVal ← (CategorySet.ForEach cs).foldlM
      (fun bestVal cat => do
        let row ← scoreTab[cat]?
        let sc ← row[i]?
        let fut ← t.EV (CategorySet.Remove cs cat)
        pure (bestValStep bestVal (sc + fut)))
      none
    bestVal

/-- The value `ev` that the inner loop of `Compute` computes for one category set `cs`:
the three layers `v0`, `v1`, `v2` and the expectation of `v2` over the first roll. -/
def Compute_ev (allDice : List Dice) (scoreTab : List (List ℚ)) (t : Table)
    (cs : CategorySet) : Option ℚ := do
  let numDice := allDice.length
  let v0 ← Compute_layer0 scoreTab t cs numDice
  let v1 ← ComputeRerollLayer allDice v0 (List.replicate numDice 0)
  let v2 ← ComputeRerollLayer allDice v1 (List.replicate numDice 0)
  (List.range numDice).foldlM
    (fun ev i => do
      let p ← FirstRollProb i
      let v ← v2[i]?
      pure (ev + p * v))
    0

/-- The body of the inner loop of `Compute` for one category set `cs` of the current
size, ending with the write `t.ev[cs] = ev`. -/
def Compute_entry (allDice : List Dice) (scoreTab : List (List ℚ)) (t : Table)
    (cs : CategorySet) : Option Table := do
  let ev ← Compute_ev allDice scoreTab t cs
  t.SetEV cs ev

/-- The loop `for cs := CategorySet(1); cs <= AllCategories; cs++` of `Compute` for one
`size`, skipping the sets with `cs.Count() != size`. -/
def Compute_size (allDice : List Dice) (scoreTab : List (List ℚ)) (t : Table)
    (size : Nat) : Option Table :=
  (List.range' 1 AllCategories).foldlM
    (fun t cs =>
      if CategorySet.Count cs ≠ size then pure t else Compute_entry allDice scoreTab t cs)
    t

/-- Compute: the table after `for size := 1; size <= NumCategories; size++`, starting
from `&Table{}`.  The progress callback is an observer and is left out. -/
def Compute : Option Table := do
  let allDice := AllDice
  let scoreTab ← Compute_scoreTab allDice
  (List.range' 1 NumCategories).foldlM (fun t size => Compute_size allDice scoreTab t size)
    NewTable

/-! ## Go's package sort -/

/-- The inner loop of `insertionSortLessFunc` of Go's package `sort`,
`for j := i; j > a && less(data[j], data[j-1]); j-- { swap(j, j-1) }`, moving
`x = data[i]` down into the sorted prefix; the prefix is held last element first. -/
def insertionSortLessFunc_inner {α : Type} (less : α → α → Bool) (x : α) : List α → List α
  | [] => [x]
  | p :: ps => if less x p then p :: insertionSortLessFunc_inner less x ps else x :: p :: ps

/-- The function `insertionSortLessFunc` of Go's package `sort`, on the whole slice. -/
def insertionSortLessFunc {α : Type} (less : α → α → Bool) (data : List α) : List α :=
  (data.foldl (fun sortedRev x => insertionSortLessFunc_inner less x sortedRev) []).reverse

/-- Go's `sort.Slice` (standard library, `pdqsort_func`): a slice of at most 12 elements
(`maxInsertion`) is sorted by `insertionSortLessFunc`.  The pattern-defeating quicksort
run on longer slices is not modelled: it is the parameter `pdq`. -/
def sortSlice (pdq : (α : Type) → (α → α → Bool) → List α → List α) {α : Type}
    (less : α → α → Bool) (data : List α) : List α :=
  if data.length ≤ 12 then insertionSortLessFunc less data else pdq α less data

/-! ## theoretical_max.go -/

/-- The table `maxCategoryScore = [NumCategories]int{10, 10, 20, 35, 35, 35, 35, 22, 35}`;
an index outside it is a panic. -/
def maxCategoryScore (cat : Category) : Option Int :=
  [10, 10, 20, 35, 35, 35, 35, 22, 35][cat]?

/-- sumMaxScores: `sum += float64(maxCategoryScore[cat])` over `cs.ForEach`. -/
def sumMaxScores (cs : CategorySet) : Option ℚ :=
  (CategorySet.ForEach cs).foldlM
    (fun sum cat => do
      let m ← maxCategoryScore cat
      pure (sum + (m : ℚ)))
    0

/-- theoreticalMax: `sumMaxScores(cs)` with rerolls left, otherwise the running maximum,
from `0.0`, of `float64(Score(dice, cat)) + sumMaxScores(cs.Remove(cat))`. -/
def theoreticalMax (dice : Dice) (rollsLeft : Int) (cs : CategorySet) : Option ℚ :=
  if rollsLeft > 0 then sumMaxScores cs
  else
    (CategorySet.ForEach cs).foldlM
      (fun best cat => do
        let sc ← scoreFloat dice cat
        let rest ← sumMaxScores (CategorySet.Remove cs cat)
        let total := sc + rest
        if total > best then pure total else pure best)
      0

/-! ## solver.go -/

/-- ActionType indicates what kind of action the solver recommends. -/
inductive ActionType where
  | ScoreAction
  | RerollAction
deriving DecidableEq

/-- Action is the recommended move (the field `Type` is named `ActType`). -/
structure Action where
  ActType : ActionType
  Keep : Dice
  Category : Category
  EV : ℚ
deriving DecidableEq

/-- CategoryOption is one possible scoring choice when `rollsLeft == 0`. -/
structure CategoryOption where
  Category : Category
  ImmediateScore : Int
  FutureEV : ℚ
  TotalValue : ℚ
deriving DecidableEq

/-- RerollOption is one possible keep/reroll choice when `rollsLeft > 0`. -/
structure RerollOption where
  Keep : Dice
  NumRerolled : Int
  EV : ℚ
deriving DecidableEq

/-- Recommendation is the full solver output for a given game state. -/
structure Recommendation where
  BestAction : Action
  TheoreticalMax : ℚ
  CategoryOptions : List CategoryOption
  TopRerollOptions : List RerollOption
deriving DecidableEq

/-- The state of the `cs.ForEach` callback of `solveScoring`: `options`, `bestVal`
(`none` is minus infinity) and `bestCat`. -/
structure ScoringState where
  options : List CategoryOption
  bestVal : Option ℚ
  bestCat : Category

/-- The `cs.ForEach` callback of `solveScoring`. -/
def solveScoring_step (dice : Dice) (cs : CategorySet) (table : Table)
    (st : ScoringState) (cat : Category) : Option ScoringState := do
  let imm ← match Score dice cat with
    | Except.ok v => some v
    | Except.error _ => none
  let fut ← table.EV (CategorySet.Remove cs cat)
  let total := (imm : ℚ) + fut
  let options := st.options ++ [⟨cat, imm, fut, total⟩]
  match st.bestVal with
  | none => pure ⟨options, some total, cat⟩
  | some b =>
    if total > b then pure ⟨options, some total, cat⟩ else pure ⟨options, some b, st.bestCat⟩

/-- solveScoring: the case where the player must score.  A `bestVal` left at minus
infinity is outside the rational model (`none`). -/
def solveScoring (pdq : (α : Type) → (α → α → Bool) → List α → List α) (dice : Dice)
    (cs : CategorySet) (table : Table) : Option Recommendation := do
  let st ← (CategorySet.ForEach cs).foldlM (solveScoring_step dice cs table) ⟨[], none, 0⟩
  let options := sortSlice pdq (fun a b => decide (a.TotalValue > b.TotalValue)) st.options
  let bestVal ← st.bestVal
  let tmax ← theoreticalMax dice 0 cs
  pure ⟨⟨ActionType.ScoreAction, Dice.zero, st.bestCat, bestVal⟩, tmax, options, []⟩

/-- The scoring layer `v0` of `solveReroll`: for each outcome the running maximum of
`float64(game.Score(d, cat)) + table.EV(cs.Remove(cat))` over `cs.ForEach`. -/
def solveReroll_v0 (allDice : List Dice) (cs : CategorySet) (table : Table) :
    Option (List ℚ) :=
  allDice.mapM fun d => do
    let bestVal ← (CategorySet.ForEach cs).foldlM
      (fun bestVal cat => do
        let sc ← scoreFloat d cat
        let fut ← table.EV (CategorySet.Remove cs cat)
        pure (bestValStep bestVal (sc + fut)))
      none
    bestVal

/-- The slice `layers[r]` of `solveReroll`: `layers[0] = v0` and `layers[r]` is
`ComputeRerollLayer(allDice, layers[r-1], make([]float64, numDice))`. -/
def solveReroll_layers (allDice : List Dice) (v0 : List ℚ) : Nat → Option (List ℚ)
  | 0 => some v0
  | r + 1 => do
    let prev ← solveReroll_layers allDice v0 r
    ComputeRerollLayer allDice prev (List.replicate allDice.length 0)

/-- The state of the `EnumerateKeeps` callback of `solveReroll`: `allOptions`, `bestEV`
(`none` is minus infinity) and `bestKeep`. -/
structure RerollState where
  allOptions : List RerollOption
  bestEV : Option ℚ
  bestKeep : Dice

/-- The `EnumerateKeeps` callback of `solveReroll`. -/
def solveReroll_step (prevLayer : List ℚ) (st : RerollState) (call : Dice × Nat) :
    Option RerollState :=
  let numRerolled : Int := (NumDice : Int) - (call.2 : Int)
  if numRerolled = 0 then pure st
  else do
    let keepEV ← rerollEV prevLayer call.1 call.2
    let allOptions := st.allOptions ++ [⟨call.1, numRerolled, keepEV⟩]
    match st.bestEV with
    | none => pure ⟨allOptions, some keepEV, call.1⟩
    | some b =>
      if keepEV > b then pure ⟨allOptions, some keepEV, call.1⟩
      else pure ⟨allOptions, some b, st.bestKeep⟩

/-- solveReroll: the case where the player can reroll.  `make([][]float64, rollsLeft)`
panics for a negative `rollsLeft` and `layers[0] = v0` for `rollsLeft == 0`. -/
def solveReroll (pdq : (α : Type) → (α → α → Bool) → List α → List α) (dice : Dice)
    (rollsLeft : Int) (cs : CategorySet) (table : Table) : Option Recommendation := do
  let allDice := AllDice
  let v0 ← solveReroll_v0 allDice cs table
  if rollsLeft ≤ 0 then none
  let prevLayer ← solveReroll_layers allDice v0 (rollsLeft - 1).toNat
  let keeps ← EnumerateKeeps dice
  let st ← keeps.foldlM (solveReroll_step prevLayer) ⟨[], none, Dice.zero⟩
  let scoreRec ← solveScoring pdq dice cs table
  match st.bestEV with
  | none => pure scoreRec
  | some bestEV =>
    if scoreRec.BestAction.EV ≥ bestEV then pure scoreRec
    else do
      let sorted := sortSlice pdq (fun a b => decide (a.EV > b.EV)) st.allOptions
      let topN := if st.allOptions.length < 10 then st.allOptions.length else 10
      let tmax ← theoreticalMax dice rollsLeft cs
      pure ⟨⟨ActionType.RerollAction, st.bestKeep, 0, bestEV⟩, tmax, [], sorted.take topN⟩

/-- Solve: `solveScoring` when `rollsLeft == 0`, otherwise `solveReroll`. -/
def Solve (pdq : (α : Type) → (α → α → Bool) → List α → List α) (dice : Dice)
    (rollsLeft : Int) (cs : CategorySet) (table : Table) : Option Recommendation :=
  if rollsLeft = 0 then solveScoring pdq dice cs table
  else solveReroll pdq dice rollsLeft cs table

/-! ## ev.go: SaveJSON and LoadJSON -/

/-- The table `categoryNames` of category.go. -/
def categoryNames : List String :=
  ["Jumbleberry", "Sugarberry", "Pickleberry", "Moonberry", "Basket of Three",
    "Basket of Four", "Basket of Five", "Mixed Basket", "Free Roll"]

/-- Method `Category.String` of category.go: the name for a category below
`NumCategories`, otherwise the text `Category(c)` that `fmt.Sprintf` formats. -/
def Category.String (c : Category) : String :=
  if c < NumCategories then categoryNames.getD c "" else "Category(" ++ toString c ++ ")"

/-- The type `jsonEntry`: one entry of the JSON output (`CategorySet` is a `uint16`). -/
structure jsonEntry where
  CategorySet : Nat
  Categories : List String
  EV : ℚ
deriving DecidableEq

/-- The loop of `SaveJSON` that builds `entries`:
`for cs := CategorySet(1); cs <= AllCategories; cs++`, skipping `cs.Count() == 0`, with
`names` collected by `cs.ForEach` and the read `t.ev[cs]`. -/
def SaveJSON_entries (t : Table) : Option (List jsonEntry) :=
  (List.range' 1 AllCategories).foldlM
    (fun entries cs =>
      if CategorySet.Count cs = 0 then pure entries
      else do
        let names := (CategorySet.ForEach cs).map Category.String
        let ev ← t.EV cs
        pure (entries ++ [⟨cs, names, ev⟩]))
    []

/-- SaveJSON: writes the table to a JSON file.  The standard library calls are
parameters: `marshal` is `json.MarshalIndent` on `entries` and `writeFile` is
`os.WriteFile` on `path` and `data`.  The result is the returned `error`, `none` for
`nil`. -/
def SaveJSON (marshal : List jsonEntry → Except String String)
    (writeFile : String → String → Option String) (t : Table) (path : String) :
    Option (Option String) := do
  let entries ← SaveJSON_entries t
  match marshal entries with
  | Except.error err => pure (some err)
  | Except.ok data => pure (writeFile path data)

/-- The loop of `LoadJSON`: `t := &Table{}; for _, e := range entries
{ t.ev[e.CategorySet] = e.EV }`; an index outside the array is a panic. -/
def LoadJSON_entries (entries : List jsonEntry) : Option Table :=
  entries.foldlM (fun t e => t.SetEV e.CategorySet e.EV) NewTable

/-- LoadJSON: reads a table from a JSON file.  The standard library calls are
parameters: `readFile` is `os.ReadFile` and `unmarshal` is `json.Unmarshal` into
`[]jsonEntry`.  The result is the returned pair `(*Table, error)`, `none` for `nil`;
the outer `none` is a panic. -/
def LoadJSON (readFile : String → Except String String)
    (unmarshal : String → Except String (List jsonEntry)) (path : String) :
    Option (Option Table × Option String) :=
  match readFile path with
  | Except.error err => pure (none, some err)
  | Except.ok data =>
    match unmarshal data with
    | Except.error err => pure (none, some err)
    | Except.ok entries => do
      let t ← LoadJSON_entries entries
      pure (some t, none)

/-! ## evloader.go -/

/-- Load: the table from `path`, or else `Compute`, saved to `path`.  The progress
printing is left out; the error that `fmt.Errorf` wraps is the message with the cause
appended. -/
def Load (readFile : String → Except String String)
    (unmarshal : String → Except String (List jsonEntry))
    (marshal : List jsonEntry → Except String String)
    (writeFile : String → String → Option String) (path : String) :
    Option (Option Table × Option String) := do
  let (table, err) ← LoadJSON readFile unmarshal path
  match err with
  | none => pure (table, none)
  | some _ => do
    let table ← Compute
    match ← SaveJSON marshal writeFile table path with
    | some err => pure (none, some ("error saving EV table: " ++ err))
    | none => pure (some table, none)

/-! ## Go's packages unicode, strings and strconv

A Go string that holds valid UTF-8 is the list of its code points. -/

deriving instance DecidableEq for Except

/-- The UTF-8 encoding of a code point, as Go stores it in a `string`. -/
def utf8Bytes (c : Char) : List Nat :=
  if c.toNat < 128 then [c.toNat]
  else if c.toNat < 2048 then [192 + c.toNat / 64, 128 + c.toNat % 64]
  else if c.toNat < 65536 then
    [224 + c.toNat / 4096, 128 + c.toNat / 64 % 64, 128 + c.toNat % 64]
  else
    [240 + c.toNat / 262144, 128 + c.toNat / 4096 % 64, 128 + c.toNat / 64 % 64,
      128 + c.toNat % 64]

/-- The bytes `s[0], s[1], ...` of a string. -/
def bytes (s : List Char) : List Nat := s.flatMap utf8Bytes

/-- The builtin `len(s)` of a string: its number of bytes. -/
def len (s : List Char) : Nat := (bytes s).length

/-- The function `unicode.IsSpace`: the Latin-1 spaces
`'\t', '\n', '\v', '\f', '\r', ' ', U+0085, U+00A0` and beyond Latin-1 the range table
`White_Space`. -/
def unicode.IsSpace (r : Char) : Bool :=
  (9 ≤ r.toNat && r.toNat ≤ 13) || r.toNat == 32 || r.toNat == 133 || r.toNat == 160 ||
    r.toNat == 5760 || (8192 ≤ r.toNat && r.toNat ≤ 8202) || r.toNat == 8232 ||
    r.toNat == 8233 || r.toNat == 8239 || r.toNat == 8287 || r.toNat == 12288

/-- The function `unicode.IsLetter`: on ASCII the letters `A` to `Z` and `a` to `z`;
beyond ASCII the tables of category L, which are the parameter `letterTable`. -/
def unicode.IsLetter (letterTable : Char → Bool) (r : Char) : Bool :=
  if r.toNat < 128 then
    (65 ≤ r.toNat && r.toNat ≤ 90) || (97 ≤ r.toNat && r.toNat ≤ 122)
  else letterTable r

/-- The function `unicode.ToLower`: on ASCII `A` to `Z` move to `a` to `z` and nothing
else changes; beyond ASCII the case tables, which are the parameter `lowerTable`. -/
def unicode.ToLower (lowerTable : Char → Char) (r : Char) : Char :=
  if r.toNat < 128 then
    if 65 ≤ r.toNat ∧ r.toNat ≤ 90 then Char.ofNat (r.toNat + 32) else r
  else lowerTable r

/-- The function `strings.ToLower`: every code point mapped by `unicode.ToLower`. -/
def strings.ToLower (lowerTable : Char → Char) (s : List Char) : List Char :=
  s.map (unicode.ToLower lowerTable)

/-- The function `strings.TrimSpace`: the string without its leading and trailing code
points that satisfy `unicode.IsSpace`. -/
def strings.TrimSpace (s : List Char) : List Char :=
  (s.dropWhile unicode.IsSpace).rdropWhile unicode.IsSpace

/-- The scan of `strings.Fields`: `cur` holds the code points of the field being read,
last one first. -/
def strings.FieldsFrom : List Char → List Char → List (List Char)
  | [], cur => if cur = [] then [] else [cur.reverse]
  | r :: s, cur =>
    if unicode.IsSpace r then
      if cur = [] then strings.FieldsFrom s [] else cur.reverse :: strings.FieldsFrom s []
    else strings.FieldsFrom s (r :: cur)

/-- The function `strings.Fields`: the maximal runs of code points that do not satisfy
`unicode.IsSpace`, in order. -/
def strings.Fields (s : List Char) : List (List Char) := strings.FieldsFrom s []

/-- The function `strings.Split(s, sep)` for a separator of one ASCII character, which is
what the program passes: the pieces between the separators, empty ones included. -/
def strings.Split (s : List Char) (sep : Char) : List (List Char) := s.splitOn sep

/-- The function `strconv.Atoi` on the bytes of a string: an optional sign, then decimal
digits only, and a value that fits the 64-bit `int`. -/
def strconv.Atoi (s : List Nat) : Except String Int :=
  let digits := match s with
    | 43 :: rest => rest
    | 45 :: rest => rest
    | _ => s
  if digits = [] ∨ ¬ (digits.all fun b => 48 ≤ b && b ≤ 57) = true then
    Except.error "invalid syntax"
  else
    let n : Nat := digits.foldl (fun n b => 10 * n + (b - 48)) 0
    if s.head? = some 45 then
      if n ≤ 2 ^ 63 then Except.ok (-(n : Int)) else Except.error "value out of range"
    else
      if n < 2 ^ 63 then Except.ok (n : Int) else Except.error "value out of range"

/-! ## parse.go -/

/-- The map `berryLetters`, from a byte to the Berry it names; `none` where the map has
no entry. -/
def berryLetters (b : Nat) : Option Berry :=
  match b with
  | 74 => some Jumbleberry
  | 106 => some Jumbleberry
  | 83 => some Sugarberry
  | 115 => some Sugarberry
  | 80 => some Pickleberry
  | 112 => some Pickleberry
  | 77 => some Moonberry
  | 109 => some Moonberry
  | 88 => some Pest
  | 120 => some Pest
  | _ => none

/-- The function `isAllLetters`: `for _, r := range s { if !unicode.IsLetter(r)
{ return false } }; return true`. -/
def isAllLetters (letterTable : Char → Bool) (s : List Char) : Bool :=
  s.all (unicode.IsLetter letterTable)

/-- The function `parseDiceSequence`: the loop over the bytes `input[i]`, with
`d[b]++` on a `uint8`.  The error texts are shortened to their fixed part. -/
def parseDiceSequence (input : List Char) : Except String Dice :=
  (bytes input).foldlM
    (fun d byte =>
      match berryLetters byte with
      | none => Except.error "unknown die face"
      | some b => Except.ok (d.set b ((d.get b + 1) % 256)))
    Dice.zero

/-- The loop `for letterIdx < len(token) && (token[letterIdx] >= '0' &&
token[letterIdx] <= '9') { letterIdx++ }` of `parseDiceCounts`: the number of leading
digit bytes. -/
def letterIdx (token : List Nat) : Nat :=
  (token.takeWhile fun b => 48 ≤ b && b ≤ 57).length

/-- The body of the loop of `parseDiceCounts` for one token; `uint8(count)` keeps the low
8 bits and `d[b] += ...` wraps at 256. -/
def parseDiceCounts_token (d : Dice) (token : List Char) : Except String Dice :=
  let tb := bytes token
  if tb.length < 2 then Except.error "invalid token"
  else if letterIdx tb = 0 ∨ letterIdx tb ≥ tb.length then Except.error "invalid token"
  else
    match strconv.Atoi (tb.take (letterIdx tb)) with
    | Except.error _ => Except.error "invalid count"
    | Except.ok count =>
      let letter := tb.drop (letterIdx tb)
      if letter.length ≠ 1 then Except.error "invalid berry letter"
      else
        match berryLetters (letter.getD 0 0) with
        | none => Except.error "unknown berry"
        | some b => Except.ok (d.set b ((d.get b + (count % 256).toNat) % 256))

/-- The function `parseDiceCounts`: the tokens of `strings.Fields(input)` in turn, then
the check `d.Total() != game.NumDice`. -/
def parseDiceCounts (input : List Char) : Except String Dice :=
  match (strings.Fields input).foldlM parseDiceCounts_token Dice.zero with
  | Except.error err => Except.error err
  | Except.ok d =>
    if d.Total ≠ (NumDice : Int) then Except.error "dice must sum to 5" else Except.ok d

/-- ParseDice: a dice string into a Dice value, or an error. -/
def ParseDice (letterTable : Char → Bool) (input : String) : Except String Dice :=
  let input := strings.TrimSpace input.data
  if len input = 0 then Except.error "empty dice input"
  else if len input = NumDice ∧ isAllLetters letterTable input = true then
    parseDiceSequence input
  else parseDiceCounts input

/-- The map `categoryAliases`, from a name to the Category it stands for; `none` where
the map has no entry. -/
def categoryAliases (name : List Char) : Option Category :=
  match String.mk name with
  | "jumbleberry" => some CatJumbleberry
  | "j" => some CatJumbleberry
  | "jb" => some CatJumbleberry
  | "sugarberry" => some CatSugarberry
  | "s" => some CatSugarberry
  | "sb" => some CatSugarberry
  | "pickleberry" => some CatPickleberry
  | "p" => some CatPickleberry
  | "pb" => some CatPickleberry
  | "moonberry" => some CatMoonberry
  | "m" => some CatMoonberry
  | "mb" => some CatMoonberry
  | "basketofthree" => some CatBasketOfThree
  | "3k" => some CatBasketOfThree
  | "b3" => some CatBasketOfThree
  | "three" => some CatBasketOfThree
  | "basketoffour" => some CatBasketOfFour
  | "4k" => some CatBasketOfFour
  | "b4" => some CatBasketOfFour
  | "four" => some CatBasketOfFour
  | "basketoffive" => some CatBasketOfFive
  | "5k" => some CatBasketOfFive
  | "b5" => some CatBasketOfFive
  | "five" => some CatBasketOfFive
  | "mixedbasket" => some CatMixedBasket
  | "mix" => some CatMixedBasket
  | "mixed" => some CatMixedBasket
  | "freeroll" => some CatFreeRoll
  | "fr" => some CatFreeRoll
  | "free" => some CatFreeRoll
  | _ => none

/-- The two loops of `ParseCategories` over `parts`: each part trimmed, a blank one
skipped, an unknown one an error, a known one applied to the set by `op`, which is
`cs.Remove` in the first loop and `cs.Add` in the second. -/
def ParseCategories_parts (op : CategorySet → Category → CategorySet)
    (parts : List (List Char)) (cs : CategorySet) : Except String CategorySet :=
  parts.foldlM
    (fun cs part =>
      let part := strings.TrimSpace part
      if part = [] then Except.ok cs
      else
        match categoryAliases part with
        | none => Except.error "unknown category"
        | some cat => Except.ok (op cs cat))
    cs

/-- ParseCategories: a category set from user input, or an error.  The test
`strings.HasPrefix(input, "all")` and the slice `input[3:]` are on three ASCII
bytes, which are three code points. -/
def ParseCategories (lowerTable : Char → Char) (input : String) :
    Except String CategorySet :=
  let input := strings.TrimSpace (strings.ToLower lowerTable input.data)
  if input = [] then Except.error "empty categories input"
  else if ['a', 'l', 'l'].isPrefixOf input = true then
    let rest := input.drop 3
    if rest = [] then Except.ok AllCategories
    else ParseCategories_parts CategorySet.Remove (strings.Split rest '-') AllCategories
  else
    match ParseCategories_parts CategorySet.Add (strings.Split input ',') 0 with
    | Except.error err => Except.error err
    | Except.ok cs =>
      if cs = 0 then Except.error "no valid categories specified" else Except.ok cs

/-! ## display.go -/

/-- FormatKeep: a keep decision as text; the verb `%d` of `fmt.Sprintf` writes the count
in decimal. -/
def FormatKeep (keep : Dice) : String :=
  if keep.Total = 0 then "nothing"
  else
    let letters : List (String × Nat) :=
      [("J", keep.get Jumbleberry), ("S", keep.get Sugarberry), ("P", keep.get Pickleberry),
        ("M", keep.get Moonberry), ("X", keep.get Pest)]
    let parts := (letters.filter fun e => e.2 > 0).map fun e => toString e.2 ++ e.1
    " ".intercalate parts

/-! ## Definitions used to state the properties -/

/-- The calls `fn(current, totalKept)` of `EnumerateKeeps` when no loop counter wraps: for
each face in turn every count `0, ..., d[berry]`. -/
def keepCalls (d : Dice) : Nat → Berry → Dice → Nat → List (Dice × Nat)
  | 0, _, current, totalKept => [(current, totalKept)]
  | left + 1, berry, current, totalKept =>
    (List.range (d.get berry + 1)).flatMap fun k =>
      keepCalls d left (berry + 1) (current.set berry k) (totalKept + k)

/-- Spec: `k` is a sub-multiset of `d`. -/
def Dice.IsKeepOf (k d : Dice) : Prop :=
  k.J ≤ d.J ∧ k.S ≤ d.S ∧ k.P ≤ d.P ∧ k.M ≤ d.M ∧ k.X ≤ d.X

/-- Spec: the number of dice of `k`. -/
def Dice.size (k : Dice) : Nat := k.J + k.S + k.P + k.M + k.X

/-- Spec (4.2): one term `P(o) * prevLayer[index(k + o)]` of the value of keep `k`. -/
def keepTerm (prevLayer : List ℚ) (k : Dice) (o : RerollOutcome) : Option ℚ := do
  let idx ← DiceIndex (AddDice k o.Dice)
  let v ← prevLayer[idx]?
  pure (o.Prob * v)

/-- Spec (4.2): the value of keep decision `k` against `prevLayer`, the sum over the
outcomes `o` of rerolling `5 - |k|` dice of `P(o) * prevLayer[index(k + o)]`. -/
def keepValue (prevLayer : List ℚ) (k : Dice) : Option ℚ := do
  let outs ← Rerolls (NumDice - k.size)
  let terms ← outs.mapM (keepTerm prevLayer k)
  pure terms.sum

/-- Spec-side reading of a table lookup for keep `k` and outcome `o`. -/
def keepIndex (k : Dice) (o : RerollOutcome) : Nat := (DiceIndex (AddDice k o.Dice)).getD 0

/-- Spec (4.2): `v` is the value of `rerollLayer(prevLayer)` at outcome `d` of index `i`:
the greatest of `prevLayer[i]` (keep everything) and the values of the keep decisions
that are sub-multisets of `d` with fewer than 5 dice. -/
def IsRerollValue (prevLayer : List ℚ) (i : Nat) (d : Dice) (v : ℚ) : Prop :=
  IsGreatest ({x | prevLayer[i]? = some x} ∪
    {x | ∃ k : Dice, k.IsKeepOf d ∧ k.size < 5 ∧ keepValue prevLayer k = some x}) v

/-- Spec (4.2): `curLayer` holds `rerollLayer(prevLayer)` at every outcome index. -/
def IsRerollLayer (prevLayer curLayer : List ℚ) : Prop :=
  ∀ (i : Nat) (d : Dice), AllDice[i]? = some d →
    ∃ v, curLayer[i]? = some v ∧ IsRerollValue prevLayer i d v

/-- Spec-side: the score as a rational number, 0 where `Score` fails. -/
def scoreValue (d : Dice) (c : Category) : ℚ := (scoreFloat d c).getD 0

/-- Spec (4.4, step 1): `v` is the layer-0 value of outcome `d` for the category set `cs`:
the greatest of `score(d, c) + table[cs without c]` over the categories `c` in `cs`. -/
def IsLayer0Value (t : Table) (cs : CategorySet) (d : Dice) (v : ℚ) : Prop :=
  IsGreatest {x | ∃ c : Category, c < NumCategories ∧ CategorySet.Has cs c = true ∧
    ∃ s : Int, Score d c = Except.ok s ∧ x = (s : ℚ) + t.ev (CategorySet.Remove cs c)} v

/-- Spec (4.4, step 1): `v0` is layer 0 for `cs`, one value per outcome. -/
def IsLayer0 (t : Table) (cs : CategorySet) (v0 : List ℚ) : Prop :=
  ∀ (i : Nat) (d : Dice), AllDice[i]? = some d → ∃ v, v0[i]? = some v ∧ IsLayer0Value t cs d v

/-- Spec (4.4, step 4): the expectation of a layer over the first roll,
the sum over the 126 outcomes of `firstRollProb(d) * v2[d]`. -/
def firstRollExpectation (v2 : List ℚ) : ℚ :=
  ((List.range 126).map fun i => (FirstRollProb i).getD 0 * v2.getD i 0).sum

/-- The layer-0 value of outcome `d` as a function of the table. -/
def layer0Value (t : Table) (cs : CategorySet) (d : Dice) : ℚ :=
  ((CategorySet.ForEach cs).foldl
    (fun b c => bestValStep b (scoreValue d c + t.ev (CategorySet.Remove cs c))) none).getD 0

/-- Layer 0 as a function of the table. -/
def layer0Of (t : Table) (cs : CategorySet) : List ℚ :=
  (List.range 126).map fun i => layer0Value t cs (AllDice.getD i Dice.zero)

/-- The layer one reroll above `prevLayer`, as `ComputeRerollLayer` fills it. -/
def rerollLayerOf (prevLayer : List ℚ) : List ℚ :=
  (ComputeRerollLayer AllDice prevLayer (List.replicate 126 0)).getD []

/-- The value `Compute` stores for `cs` when the entries of the smaller sets are those
of `t`. -/
def evOf (t : Table) (cs : CategorySet) : ℚ :=
  firstRollExpectation (rerollLayerOf (rerollLayerOf (layer0Of t cs)))

/-- The invariant of the outer loop of `Compute` after the pass for size `s`: every entry
of a set of at most `s` categories satisfies the recurrence, entry 0 is 0. -/
def ComputeInv (s : Nat) (t : Table) : Prop :=
  t.ev 0 = 0 ∧
    ∀ cs, cs ≠ 0 → cs < 512 → CategorySet.Count cs ≤ s → t.ev cs = evOf t cs

/-- Spec-side: the score as an integer, 0 where `Score` fails. -/
def scoreInt (d : Dice) (c : Category) : Int :=
  match Score d c with
  | Except.ok v => v
  | Except.error _ => 0

/-- The entry `solveScoring` appends for category `c`. -/
def optionOf (dice : Dice) (cs : CategorySet) (table : Table) (c : Category) : CategoryOption :=
  ⟨c, scoreInt dice c, table.ev (CategorySet.Remove cs c),
    (scoreInt dice c : ℚ) + table.ev (CategorySet.Remove cs c)⟩

/-- Spec (4.5): the order of the returned options, descending by total value, ties in
ascending category order (the order of enumeration). -/
def optionBefore (a b : CategoryOption) : Prop :=
  a.TotalValue > b.TotalValue ∨ (a.TotalValue = b.TotalValue ∧ a.Category < b.Category)

/-- A table whose only non-zero entry is that of the set without Jumbleberry. -/
def tableWithoutJumbleberry : Table := ⟨fun cs => if cs = 510 then 100 else 0⟩

/-- Spec (4.5): `v` is the layer with `r` rerolls left for the category set `cs`: layer 0
is the scoring layer, each further layer is `rerollLayer` of the one below. -/
def IsLayer (t : Table) (cs : CategorySet) : Nat → List ℚ → Prop
  | 0, v => v.length = 126 ∧ IsLayer0 t cs v
  | r + 1, v => v.length = 126 ∧ ∃ p, IsLayer t cs r p ∧ IsRerollLayer p v

/-- The layer with `r` rerolls left, as `solveReroll` builds it. -/
def layerOf (t : Table) (cs : CategorySet) : Nat → List ℚ
  | 0 => layer0Of t cs
  | r + 1 => rerollLayerOf (layerOf t cs r)

/-- Spec (4.5): the sum of the maximum scores of the categories in `cs`. -/
def maxScoreSum (cs : CategorySet) : ℚ :=
  Finset.sum ((Finset.range NumCategories).filter fun c => CategorySet.Has cs c = true)
    fun c => (((maxCategoryScore c).getD 0 : Int) : ℚ)

/-- Spec-side: the value `theoreticalMax` weighs for category `c` with no rolls left. -/
def scoreThenMax (d : Dice) (cs : CategorySet) (c : Category) : ℚ :=
  scoreValue d c + maxScoreSum (CategorySet.Remove cs c)

/-- The entry `solveReroll` appends for the call `fn(keep, numKept)` of `EnumerateKeeps`. -/
def rerollOptionOf (prevLayer : List ℚ) (call : Dice × Nat) : RerollOption :=
  ⟨call.1, (NumDice : Int) - (call.2 : Int), (rerollEV prevLayer call.1 call.2).getD 0⟩

/-- The comparison `allOptions[i].EV > allOptions[j].EV` passed to `sort.Slice`. -/
def rerollLess (a b : RerollOption) : Bool := decide (a.EV > b.EV)

/-- The contract of Go's `sort.Slice` for the pattern-defeating quicksort it runs on the
reroll options: the result is a rearrangement of the slice in which no element comes
before one that the comparison puts first. -/
def SortsRerollOptions (pdq : (α : Type) → (α → α → Bool) → List α → List α) : Prop :=
  ∀ l : List RerollOption, 12 < l.length →
    (pdq RerollOption rerollLess l).Perm l ∧
      (pdq RerollOption rerollLess l).Pairwise fun a b => ¬ rerollLess b a = true

/-- The reroll options of the dice `d` against `layer`, in the order of enumeration. -/
def rerollOptions (d : Dice) (layer : List ℚ) : List RerollOption :=
  ((keepCalls d 5 0 Dice.zero 0).filter fun c => decide (c.2 ≠ 5)).map (rerollOptionOf layer)

/-- The entry `SaveJSON` writes for the category set `cs`. -/
def entryOf (t : Table) (cs : CategorySet) : jsonEntry :=
  ⟨cs, (CategorySet.ForEach cs).map Category.String, t.ev cs⟩

/-- The table `NewTable().SetEV(0, 1)`. -/
def tableEmptySetOne : Table := ⟨fun cs => if cs = 0 then 1 else 0⟩

/-- The elements named in a list written with the separator `sep`: the pieces between the
separators with the spaces around them taken off, the blank ones left out. -/
def namedElements (s : List Char) (sep : Char) : List (List Char) :=
  ((strings.Split s sep).map strings.TrimSpace).filter fun e => e ≠ []

/-! ## Shared lemmas -/

theorem Dice.eq_iff (a b : Dice) :
    a = b ↔ a.J = b.J ∧ a.S = b.S ∧ a.P = b.P ∧ a.M = b.M ∧ a.X = b.X := by
  cases a; cases b; simp

theorem Dice.Total_eq (d : Dice) :
    d.Total = ((d.J + d.S + d.P + d.M + d.X : Nat) : Int) := by
  simp [Dice.Total, Dice.toList]

theorem Dice.Points_eq (d : Dice) :
    d.Points = 2 * (d.J : Int) + 2 * d.S + 4 * d.P + 7 * d.M := by
  simp [Dice.Points, NumBerryTypes, List.range, List.range.loop, Dice.get, BerryPoints]
  ring

/-- Membership in a full run of `generate`: exactly the count tuples with the given sum. -/
theorem mem_generate_full (d c : Dice) (r : Nat) :
    d ∈ generate 4 0 r c ↔ d.J + d.S + d.P + d.M + d.X = r := by
  simp only [generate, List.mem_flatMap, List.mem_range, List.mem_singleton, Dice.set,
    Dice.eq_iff]
  constructor
  · rintro ⟨a, ha, b, hb, e, he, f, hf, h1, h2, h3, h4, h5⟩
    omega
  · intro h
    exact ⟨d.J, by omega, d.S, by omega, d.P, by omega, d.M, by omega,
      rfl, rfl, rfl, rfl, by omega⟩

theorem mem_EnumerateAllDice (d : Dice) :
    d ∈ EnumerateAllDice ↔ d.J + d.S + d.P + d.M + d.X = 5 :=
  mem_generate_full d Dice.zero 5

set_option maxRecDepth 100000 in
theorem generate_nodup :
    ∀ n : Fin 6, (generate 4 0 n.val Dice.zero).Nodup := by decide!

set_option maxRecDepth 100000 in
theorem DiceIndex_AllDice_fin :
    ∀ i : Fin 126, (AllDice[i.val]?).bind DiceIndex = some i.val := by decide!

/-! ## Dice outcome space -/

/-- C1: EnumerateAllDice returns exactly 126 outcomes, each with counts summing to 5,
none of them twice, and every tuple of five counts summing to 5 is among them. -/
theorem EnumerateAllDice_exact :
    EnumerateAllDice.length = 126 ∧
    (∀ d ∈ EnumerateAllDice, d.Total = 5) ∧
    EnumerateAllDice.Nodup ∧
    (∀ j s p m x : Nat, j + s + p + m + x = 5 → (⟨j, s, p, m, x⟩ : Dice) ∈ EnumerateAllDice) := by
  refine ⟨by rfl, ?_, generate_nodup 5, ?_⟩
  · intro d hd
    rw [Dice.Total_eq, (mem_EnumerateAllDice d).1 hd]
    rfl
  · intro j s p m x h
    exact (mem_EnumerateAllDice _).2 h

theorem EnumerateAllDice_exact_witness :
    (2 + 1 + 1 + 1 + 0 = 5) ∧ (⟨2, 1, 1, 1, 0⟩ : Dice) ∈ EnumerateAllDice :=
  ⟨by decide, EnumerateAllDice_exact.2.2.2 2 1 1 1 0 (by decide)⟩

/-- C2: the canonical index is a bijection between the outcomes and `[0, 126)`:
`DiceIndex(AllDice()[i]) = i` for every `i < 126`, and for every dice `d` with counts
summing to 5, `DiceIndex(d)` is below 126 and `AllDice()[DiceIndex(d)] = d`. -/
theorem DiceIndex_bijection :
    (∀ i, i < 126 → ∃ d, AllDice[i]? = some d ∧ DiceIndex d = some i) ∧
    (∀ d : Dice, d.Total = 5 →
      ∃ i, DiceIndex d = some i ∧ i < 126 ∧ AllDice[i]? = some d) := by
  have key : ∀ i, i < 126 → ∃ d, AllDice[i]? = some d ∧ DiceIndex d = some i := by
    intro i hi
    have h := DiceIndex_AllDice_fin ⟨i, hi⟩
    simp only [Option.bind_eq_some] at h
    exact h
  refine ⟨key, ?_⟩
  intro d hd
  rw [Dice.Total_eq] at hd
  have hmem : d ∈ AllDice := (mem_EnumerateAllDice d).2 (by exact_mod_cast hd)
  obtain ⟨i, hi, hget⟩ := List.getElem_of_mem hmem
  have hlen : AllDice.length = 126 := by rfl
  obtain ⟨d2, h1, h2⟩ := key i (by omega)
  have hd2 : AllDice[i]? = some d := by
    rw [List.getElem?_eq_getElem hi, hget]
  rw [hd2] at h1
  cases h1
  exact ⟨i, h2, by omega, hd2⟩

theorem DiceIndex_bijection_witness :
    (∃ d, AllDice[105]? = some d ∧ DiceIndex d = some 105) ∧
    (∃ i, DiceIndex ⟨2, 1, 1, 1, 0⟩ = some i ∧ i < 126 ∧
      AllDice[i]? = some (⟨2, 1, 1, 1, 0⟩ : Dice)) :=
  ⟨DiceIndex_bijection.1 105 (by decide), DiceIndex_bijection.2 ⟨2, 1, 1, 1, 0⟩ (by decide)⟩

/-! ## Probabilities -/

set_option maxRecDepth 100000 in
theorem firstRollProb_table :
    firstRollProb.isSome = true ∧
    ∀ l ∈ firstRollProb, l.length = 126 ∧ l.sum = 1 ∧
      ∀ i : Fin 126, (AllDice[i.val]?).bind (fun d => DiceProb d NumDice) = l[i.val]? := by
  decide!

set_option maxRecDepth 100000 in
theorem Rerolls_table :
    ∀ n : Fin 6, (Rerolls n.val).isSome = true ∧
      ∀ l ∈ Rerolls n.val,
        l.map RerollOutcome.Dice = generate 4 0 n.val Dice.zero ∧
        (l.map RerollOutcome.Prob).sum = 1 ∧
        ∀ o ∈ l, DiceProb o.Dice n.val = some o.Prob := by
  decide!

/-- C3: the first-roll probabilities sum to 1: the 126 cached values
`FirstRollProb(i) = DiceProb(AllDice()[i], 5)`, taken as exact rationals, add up to 1. -/
theorem FirstRollProb_sum_one :
    ∃ probs : List ℚ, probs.length = 126 ∧
      (∀ i, i < 126 →
        FirstRollProb i = probs[i]? ∧
        ∃ d, AllDice[i]? = some d ∧ DiceProb d 5 = probs[i]?) ∧
      probs.sum = 1 := by
  obtain ⟨hsome, hall⟩ := firstRollProb_table
  obtain ⟨probs, hp⟩ := Option.isSome_iff_exists.1 hsome
  obtain ⟨hlen, hsum, hidx⟩ := hall probs hp
  refine ⟨probs, hlen, ?_, hsum⟩
  intro i hi
  refine ⟨by simp [FirstRollProb, hp, hi], ?_⟩
  have h := hidx ⟨i, hi⟩
  have hlt : i < probs.length := by omega
  simp only [List.getElem?_eq_getElem hlt, Option.bind_eq_some] at h
  obtain ⟨d, h1, h2⟩ := h
  exact ⟨d, h1, by rw [List.getElem?_eq_getElem hlt]; exact h2⟩

theorem FirstRollProb_sum_one_witness :
    ∃ probs : List ℚ, probs.length = 126 ∧
      (FirstRollProb 105 = probs[105]? ∧
        ∃ d, AllDice[105]? = some d ∧ DiceProb d 5 = probs[105]?) ∧
      probs.sum = 1 := by
  obtain ⟨probs, h1, h2, h3⟩ := FirstRollProb_sum_one
  exact ⟨probs, h1, h2 105 (by decide), h3⟩

/-- C4: for every `n` in `0..5`, `Rerolls(n)` lists every multiset of `n` faces exactly
once, each listed outcome has counts summing to `n` and carries `DiceProb(outcome, n)`,
and the listed probabilities, taken as exact rationals, add up to 1. -/
theorem Rerolls_complete (n : Nat) (hn : n ≤ 5) :
    ∃ l : List RerollOutcome, Rerolls n = some l ∧
      (∀ o ∈ l, o.Dice.Total = n ∧ DiceProb o.Dice n = some o.Prob) ∧
      (l.map RerollOutcome.Dice).Nodup ∧
      (∀ j s p m x : Nat, j + s + p + m + x = n →
        (⟨j, s, p, m, x⟩ : Dice) ∈ l.map RerollOutcome.Dice) ∧
      (l.map RerollOutcome.Prob).sum = 1 := by
  obtain ⟨hsome, hall⟩ := Rerolls_table ⟨n, by omega⟩
  obtain ⟨l, hl⟩ := Option.isSome_iff_exists.1 hsome
  obtain ⟨hdice, hsum, hprob⟩ := hall l hl
  refine ⟨l, hl, ?_, ?_, ?_, hsum⟩
  · intro o ho
    refine ⟨?_, hprob o ho⟩
    have hmem : o.Dice ∈ l.map RerollOutcome.Dice := List.mem_map_of_mem _ ho
    rw [hdice] at hmem
    rw [Dice.Total_eq, (mem_generate_full _ _ _).1 hmem]
  · rw [hdice]
    exact generate_nodup ⟨n, by omega⟩
  · intro j s p m x h
    rw [hdice]
    exact (mem_generate_full _ _ _).2 h

theorem Rerolls_complete_witness :
    ∃ l : List RerollOutcome, Rerolls 2 = some l ∧
      (∀ o ∈ l, o.Dice.Total = (2 : Nat) ∧ DiceProb o.Dice 2 = some o.Prob) ∧
      (l.map RerollOutcome.Dice).Nodup ∧
      (∀ j s p m x : Nat, j + s + p + m + x = 2 →
        (⟨j, s, p, m, x⟩ : Dice) ∈ l.map RerollOutcome.Dice) ∧
      (l.map RerollOutcome.Prob).sum = 1 :=
  Rerolls_complete 2 (by decide)

/-! ## Scoring rules -/

theorem hasNOfAKind_iff (d : Dice) (n : Nat) :
    hasNOfAKind d n = true ↔ n ≤ d.J ∨ n ≤ d.S ∨ n ≤ d.P ∨ n ≤ d.M ∨ n ≤ d.X := by
  simp [hasNOfAKind, Dice.toList]

theorem ite_hasNOfAKind (d : Dice) (n : Nat) (a b : Int) :
    (if hasNOfAKind d n = true then (pure a : Except String Int) else pure b) =
      Except.ok (if n ≤ d.J ∨ n ≤ d.S ∨ n ≤ d.P ∨ n ≤ d.M ∨ n ≤ d.X then a else b) := by
  by_cases hk : n ≤ d.J ∨ n ≤ d.S ∨ n ≤ d.P ∨ n ≤ d.M ∨ n ≤ d.X
  · rw [if_pos hk, if_pos ((hasNOfAKind_iff d n).2 hk)]
    rfl
  · rw [if_neg hk, if_neg (fun h => hk ((hasNOfAKind_iff d n).1 h))]
    rfl

/-- C5: in each of the four single-face categories the score is the count of that face
times its point value (2, 2, 4, 7), whatever the other counts are. -/
theorem Score_single_face (j s p m x : Nat) :
    Score ⟨j, s, p, m, x⟩ CatJumbleberry = Except.ok ((j : Int) * 2) ∧
    Score ⟨j, s, p, m, x⟩ CatSugarberry = Except.ok ((s : Int) * 2) ∧
    Score ⟨j, s, p, m, x⟩ CatPickleberry = Except.ok ((p : Int) * 4) ∧
    Score ⟨j, s, p, m, x⟩ CatMoonberry = Except.ok ((m : Int) * 7) := by
  refine ⟨rfl, rfl, rfl, rfl⟩

/-- C6: for `N` in 3, 4, 5 the Basket-of-`N` score is `d.Points()`, that is
`2*J + 2*S + 4*P + 7*M`, when some face, Pest included, has count at least `N`, and 0
otherwise; five Pests qualify for every basket and score 0. -/
theorem Score_basket (d : Dice) (N : Nat) (cat : Category)
    (h : (N = 3 ∧ cat = CatBasketOfThree) ∨ (N = 4 ∧ cat = CatBasketOfFour) ∨
      (N = 5 ∧ cat = CatBasketOfFive)) :
    Score d cat = Except.ok
      (if N ≤ d.J ∨ N ≤ d.S ∨ N ≤ d.P ∨ N ≤ d.M ∨ N ≤ d.X then d.Points else 0) ∧
    d.Points = 2 * (d.J : Int) + 2 * d.S + 4 * d.P + 7 * d.M ∧
    hasNOfAKind ⟨0, 0, 0, 0, 5⟩ N = true ∧
    Score ⟨0, 0, 0, 0, 5⟩ cat = Except.ok 0 := by
  refine ⟨?_, Dice.Points_eq d, ?_, ?_⟩
  · rcases h with ⟨rfl, rfl⟩ | ⟨rfl, rfl⟩ | ⟨rfl, rfl⟩
    · exact (show Score d CatBasketOfThree = _ from rfl).trans (ite_hasNOfAKind d 3 _ _)
    · exact (show Score d CatBasketOfFour = _ from rfl).trans (ite_hasNOfAKind d 4 _ _)
    · exact (show Score d CatBasketOfFive = _ from rfl).trans (ite_hasNOfAKind d 5 _ _)
  · rcases h with ⟨rfl, _⟩ | ⟨rfl, _⟩ | ⟨rfl, _⟩ <;> rfl
  · rcases h with ⟨_, rfl⟩ | ⟨_, rfl⟩ | ⟨_, rfl⟩ <;> rfl

theorem Score_basket_witness :
    Score ⟨0, 1, 0, 4, 0⟩ CatBasketOfFour = Except.ok
      (if 4 ≤ 0 ∨ 4 ≤ 1 ∨ 4 ≤ 0 ∨ 4 ≤ 4 ∨ 4 ≤ 0 then (⟨0, 1, 0, 4, 0⟩ : Dice).Points else 0) ∧
    (⟨0, 1, 0, 4, 0⟩ : Dice).Points = 2 * ((0 : Nat) : Int) + 2 * (1 : Nat) + 4 * (0 : Nat)
      + 7 * (4 : Nat) ∧
    hasNOfAKind ⟨0, 0, 0, 0, 5⟩ 4 = true ∧
    Score ⟨0, 0, 0, 0, 5⟩ CatBasketOfFour = Except.ok 0 :=
  Score_basket ⟨0, 1, 0, 4, 0⟩ 4 CatBasketOfFour (Or.inr (Or.inl ⟨rfl, rfl⟩))

/-- C7: the Mixed Basket score is `d.Points()` when Jumbleberry, Sugarberry, Pickleberry
and Moonberry each have count at least 1, and 0 otherwise; the Pest count plays no part. -/
theorem Score_mixed_basket (j s p m x : Nat) :
    Score ⟨j, s, p, m, x⟩ CatMixedBasket = Except.ok
      (if 1 ≤ j ∧ 1 ≤ s ∧ 1 ≤ p ∧ 1 ≤ m then 2 * (j : Int) + 2 * s + 4 * p + 7 * m else 0) ∧
    (⟨j, s, p, m, x⟩ : Dice).Points = 2 * (j : Int) + 2 * s + 4 * p + 7 * m := by
  refine ⟨?_, Dice.Points_eq _⟩
  by_cases hk : 1 ≤ j ∧ 1 ≤ s ∧ 1 ≤ p ∧ 1 ≤ m
  · rw [if_pos hk, ← Dice.Points_eq ⟨j, s, p, m, x⟩]
    simp only [Score, CatJumbleberry, CatSugarberry, CatPickleberry, CatMoonberry,
      CatBasketOfThree, CatBasketOfFour, CatBasketOfFive, CatMixedBasket, Jumbleberry,
      Sugarberry, Pickleberry, Moonberry, Dice.get]
    simp only [ge_iff_le, hk, and_self]
    rfl
  · rw [if_neg hk]
    simp only [Score, CatJumbleberry, CatSugarberry, CatPickleberry, CatMoonberry,
      CatBasketOfThree, CatBasketOfFour, CatBasketOfFive, CatMixedBasket, Jumbleberry,
      Sugarberry, Pickleberry, Moonberry, Dice.get]
    simp only [ge_iff_le, hk]
    rfl

/-- C8: the Free Roll score is `d.Points() = 2*J + 2*S + 4*P + 7*M + 0*X`, with no
eligibility condition. -/
theorem Score_free_roll (d : Dice) :
    Score d CatFreeRoll = Except.ok d.Points ∧
    d.Points = 2 * (d.J : Int) + 2 * d.S + 4 * d.P + 7 * d.M + 0 * d.X := by
  refine ⟨rfl, ?_⟩
  rw [Dice.Points_eq]
  ring

/-- C9 as stated fails: the outcome `{J:2, S:1, P:1, M:1, X:0}` has Mixed Basket score
17, so the four scores are not 4, 0, 22 and 17. -/
theorem Score_example_not_22 :
    ¬ (Score ⟨2, 1, 1, 1, 0⟩ CatJumbleberry = Except.ok 4 ∧
      Score ⟨2, 1, 1, 1, 0⟩ CatBasketOfFour = Except.ok 0 ∧
      Score ⟨2, 1, 1, 1, 0⟩ CatMixedBasket = Except.ok 22 ∧
      Score ⟨2, 1, 1, 1, 0⟩ CatFreeRoll = Except.ok 17) := by
  rintro ⟨_, _, h, _⟩
  have h17 : Score ⟨2, 1, 1, 1, 0⟩ CatMixedBasket = Except.ok 17 := rfl
  rw [h17] at h
  exact absurd (Except.ok.inj h) (by decide)

/-- C9, amended: the outcome `{J:2, S:1, P:1, M:1, X:0}` scores 4 in the Jumbleberry
category, 0 in Basket of Four, 17 in Mixed Basket and 17 in Free Roll. -/
theorem Score_example :
    Score ⟨2, 1, 1, 1, 0⟩ CatJumbleberry = Except.ok 4 ∧
    Score ⟨2, 1, 1, 1, 0⟩ CatBasketOfFour = Except.ok 0 ∧
    Score ⟨2, 1, 1, 1, 0⟩ CatMixedBasket = Except.ok 17 ∧
    Score ⟨2, 1, 1, 1, 0⟩ CatFreeRoll = Except.ok 17 :=
  ⟨rfl, rfl, rfl, rfl⟩

theorem Dice.Points_nonneg (d : Dice) : 0 ≤ d.Points := by
  rw [Dice.Points_eq]
  positivity

theorem ite_pure_nonneg (c : Prop) [Decidable c] (a : Int) (ha : 0 ≤ a) :
    ∃ v : Int, (if c then (pure a : Except String Int) else pure 0) = Except.ok v ∧ 0 ≤ v := by
  by_cases h : c
  · exact ⟨a, by rw [if_pos h]; rfl, ha⟩
  · exact ⟨0, by rw [if_neg h]; rfl, le_refl 0⟩

/-- C10: for a category tag outside the 9 defined values `Score` panics and returns no
score; for each of the 9 defined tags it returns a non-negative integer. -/
theorem Score_total_on_categories (d : Dice) (c : Category) :
    (NumCategories ≤ c →
      Score d c = Except.error "invalid category" ∧ ∀ v, Score d c ≠ Except.ok v) ∧
    (c < NumCategories → ∃ v : Int, Score d c = Except.ok v ∧ 0 ≤ v) := by
  constructor
  · intro hc
    have hc9 : 9 ≤ c := hc
    have herr : Score d c = Except.error "invalid category" := by
      simp only [Score, CatJumbleberry, CatSugarberry, CatPickleberry, CatMoonberry,
        CatBasketOfThree, CatBasketOfFour, CatBasketOfFive, CatMixedBasket, CatFreeRoll]
      have hne : ∀ k : Nat, k < 9 → ¬ c = k := fun k hk =>
        Nat.ne_of_gt (Nat.lt_of_lt_of_le hk hc9)
      rw [if_neg (hne 0 (by decide)), if_neg (hne 1 (by decide)), if_neg (hne 2 (by decide)),
        if_neg (hne 3 (by decide)), if_neg (hne 4 (by decide)), if_neg (hne 5 (by decide)),
        if_neg (hne 6 (by decide)), if_neg (hne 7 (by decide)), if_neg (hne 8 (by decide))]
      rfl
    refine ⟨herr, ?_⟩
    intro v hv
    rw [herr] at hv
    cases hv
  · intro hc
    have hc9 : c < 9 := hc
    have hP := Dice.Points_nonneg d
    interval_cases c
    · exact ⟨_, rfl, by simp [BerryPoints, Jumbleberry]⟩
    · exact ⟨_, rfl, by simp [BerryPoints, Sugarberry]⟩
    · exact ⟨_, rfl, by simp [BerryPoints, Pickleberry]⟩
    · exact ⟨_, rfl, by simp [BerryPoints, Moonberry]⟩
    · exact ite_pure_nonneg _ _ hP
    · exact ite_pure_nonneg _ _ hP
    · exact ite_pure_nonneg _ _ hP
    · exact ite_pure_nonneg _ _ hP
    · exact ⟨_, rfl, hP⟩

theorem Score_total_on_categories_witness :
    (Score ⟨2, 1, 1, 1, 0⟩ 9 = Except.error "invalid category" ∧
      ∀ v, Score ⟨2, 1, 1, 1, 0⟩ 9 ≠ Except.ok v) ∧
    (∃ v : Int, Score ⟨2, 1, 1, 1, 0⟩ 7 = Except.ok v ∧ 0 ≤ v) :=
  ⟨(Score_total_on_categories ⟨2, 1, 1, 1, 0⟩ 9).1 (by decide),
    (Score_total_on_categories ⟨2, 1, 1, 1, 0⟩ 7).2 (by decide)⟩

/-! ## Keep decisions -/


theorem foldlM_append_some {α β : Type} (f : α → Option (List β)) (g : α → List β) :
    ∀ (l : List α) (init : List β), (∀ a ∈ l, f a = some (g a)) →
      l.foldlM (fun acc a => do
        let more ← f a
        pure (acc ++ more)) init = some (init ++ l.flatMap g)
  | [], init, _ => by simp
  | a :: l, init, h => by
    have ha := h a (List.mem_cons_self a l)
    have ih := foldlM_append_some f g l (init ++ g a) (fun b hb => h b (List.mem_cons_of_mem a hb))
    rw [List.foldlM_cons, ha]
    show List.foldlM _ (init ++ g a) l = _
    rw [ih]
    simp [List.flatMap_cons]

theorem uint8Loop_running (bound : Nat) (hb : 255 ≤ bound) :
    ∀ (fuel k : Nat), k < 256 → uint8Loop fuel bound k = none
  | 0, _, _ => rfl
  | fuel + 1, k, hk => by
    have hle : k ≤ bound := by omega
    simp only [uint8Loop, if_pos hle]
    rw [uint8Loop_running bound hb fuel ((k + 1) % 256) (Nat.mod_lt _ (by decide))]
    rfl

theorem uint8Loop_from (bound : Nat) (hb : bound < 255) :
    ∀ (n fuel k : Nat), k + n = bound + 1 → n < fuel →
      uint8Loop fuel bound k = some (List.range' k n)
  | 0, fuel + 1, k, hk, _ => by
    have : ¬ k ≤ bound := by omega
    simp [uint8Loop, this]
  | n + 1, fuel + 1, k, hk, hf => by
    have hle : k ≤ bound := by omega
    have hmod : (k + 1) % 256 = k + 1 := Nat.mod_eq_of_lt (by omega)
    simp only [uint8Loop, if_pos hle, hmod]
    rw [uint8Loop_from bound hb n fuel (k + 1) (by omega) (by omega)]
    simp [List.range'_succ]

theorem uint8Loop_done (bound : Nat) (hb : bound < 255) :
    uint8Loop 257 bound 0 = some (List.range (bound + 1)) := by
  rw [uint8Loop_from bound hb (bound + 1) 257 0 (by omega) (by omega), List.range_eq_range']

theorem Dice.get_set_self (c : Dice) (b v : Nat) : (c.set b v).get b = v := by
  rcases b with _ | _ | _ | _ | b <;> rfl

theorem Dice.get_set_of_lt (c : Dice) (b b2 v : Nat) (hb : b < 5) (h : b2 < b) :
    (c.set b v).get b2 = c.get b2 := by
  rcases b with _ | _ | _ | _ | _ | b
  · omega
  · rcases b2 with _ | b2
    · rfl
    · omega
  · rcases b2 with _ | _ | b2
    · rfl
    · rfl
    · omega
  · rcases b2 with _ | _ | _ | b2
    · rfl
    · rfl
    · rfl
    · omega
  · rcases b2 with _ | _ | _ | _ | b2
    · rfl
    · rfl
    · rfl
    · rfl
    · omega
  · omega

/-- Every call listed by `keepCalls` keeps the counts already fixed below `berry`. -/
theorem keepCalls_get (d : Dice) :
    ∀ (left berry : Nat) (current : Dice) (t : Nat), berry + left = 5 →
      ∀ p ∈ keepCalls d left berry current t, ∀ b2, b2 < berry → p.1.get b2 = current.get b2
  | 0, berry, current, t, _, p, hp, b2, _ => by
    simp only [keepCalls, List.mem_singleton] at hp
    subst hp
    rfl
  | left + 1, berry, current, t, hl, p, hp, b2, hb2 => by
    simp only [keepCalls, List.mem_flatMap, List.mem_range] at hp
    obtain ⟨k, _, hk⟩ := hp
    rw [keepCalls_get d left (berry + 1) _ _ (by omega) p hk b2 (by omega)]
    exact Dice.get_set_of_lt current berry b2 k (by omega) hb2

theorem keepCalls_nodup (d : Dice) :
    ∀ (left berry : Nat) (current : Dice) (t : Nat), berry + left = 5 →
      ((keepCalls d left berry current t).map Prod.fst).Nodup
  | 0, berry, current, t, _ => by simp [keepCalls]
  | left + 1, berry, current, t, hl => by
    simp only [keepCalls, List.map_flatMap]
    rw [List.nodup_flatMap]
    refine ⟨fun k _ => keepCalls_nodup d left (berry + 1) _ _ (by omega), ?_⟩
    refine (List.nodup_range _).pairwise_of_forall_ne ?_
    intro k1 _ k2 _ hne
    rw [Function.onFun, List.disjoint_left]
    intro x hx1 hx2
    obtain ⟨p1, hp1, rfl⟩ := List.mem_map.1 hx1
    obtain ⟨p2, hp2, he⟩ := List.mem_map.1 hx2
    have e1 := keepCalls_get d left (berry + 1) _ _ (by omega) p1 hp1 berry (by omega)
    have e2 := keepCalls_get d left (berry + 1) _ _ (by omega) p2 hp2 berry (by omega)
    rw [Dice.get_set_self] at e1 e2
    rw [he, e1] at e2
    exact hne e2

theorem EnumerateKeeps_rec_eq (d : Dice)
    (hd : d.J < 255 ∧ d.S < 255 ∧ d.P < 255 ∧ d.M < 255 ∧ d.X < 255) :
    ∀ (left berry : Nat) (current : Dice) (t : Nat),
      EnumerateKeeps_rec d left berry current t = some (keepCalls d left berry current t)
  | 0, _, _, _ => rfl
  | left + 1, berry, current, t => by
    have hb : d.get berry < 255 := by
      obtain ⟨h0, h1, h2, h3, h4⟩ := hd
      rcases berry with _ | _ | _ | _ | b <;> assumption
    simp only [EnumerateKeeps_rec, keepCalls, uint8Loop_done _ hb]
    exact (foldlM_append_some _ _ _ [] (fun k _ => EnumerateKeeps_rec_eq d hd left (berry + 1) _ _)).trans
      (by simp)

theorem keepCalls_length (d : Dice) (current : Dice) (t : Nat) :
    (keepCalls d 5 0 current t).length = (d.J + 1) * (d.S + 1) * (d.P + 1) * (d.M + 1) * (d.X + 1) := by
  simp only [keepCalls, List.length_flatMap, List.length_singleton, Dice.get, List.map_const', List.sum_replicate, List.length_range, List.length_replicate, smul_eq_mul, Function.comp_def]
  simp
  ring

theorem mem_keepCalls (d : Dice) (k : Dice) (n : Nat) :
    (k, n) ∈ keepCalls d 5 0 Dice.zero 0 ↔
      (k.J ≤ d.J ∧ k.S ≤ d.S ∧ k.P ≤ d.P ∧ k.M ≤ d.M ∧ k.X ≤ d.X) ∧ n = k.J + k.S + k.P + k.M + k.X := by
  simp only [keepCalls, List.mem_flatMap, List.mem_range, List.mem_singleton, Dice.set, Dice.get, Prod.mk.injEq,
    Dice.eq_iff, Dice.zero]
  constructor
  · rintro ⟨a, ha, b, hb, c, hc, e, he, f, hf, ⟨h1, h2, h3, h4, h5⟩, h6⟩
    subst h1 h2 h3 h4 h5
    exact ⟨⟨by omega, by omega, by omega, by omega, by omega⟩, by omega⟩
  · rintro ⟨⟨h1, h2, h3, h4, h5⟩, h6⟩
    exact ⟨k.J, by omega, k.S, by omega, k.P, by omega, k.M, by omega, k.X, by omega,
      ⟨rfl, rfl, rfl, rfl, rfl⟩, by omega⟩

/-- C13 as stated fails: for a dice whose Jumbleberry count is 255 the loop counter of
`EnumerateKeeps` wraps around and the enumeration never returns, so `fn` is not called
exactly 256 times. -/
theorem EnumerateKeeps_wraps :
    ¬ ∃ calls, EnumerateKeeps ⟨255, 0, 0, 0, 0⟩ = some calls ∧
      calls.length = (255 + 1) * (0 + 1) * (0 + 1) * (0 + 1) * (0 + 1) := by
  have h : EnumerateKeeps ⟨255, 0, 0, 0, 0⟩ = none := by
    simp only [EnumerateKeeps, EnumerateKeeps_rec, NumBerryTypes, Dice.get,
      uint8Loop_running 255 (le_refl 255) 257 0 (by decide)]
    rfl
  rintro ⟨calls, hc, _⟩
  rw [h] at hc
  cases hc

/-- C13, amended: for every dice `d` with each count below 255, `EnumerateKeeps(d, fn)`
calls `fn` exactly `prod (d[f] + 1)` times, once for each count vector `k` with
`k[f] <= d[f]` on every face (none missed, none repeated), and each call passes
`numKept` equal to the sum of the counts of `k`. -/
theorem EnumerateKeeps_product (d : Dice)
    (hd : d.J < 255 ∧ d.S < 255 ∧ d.P < 255 ∧ d.M < 255 ∧ d.X < 255) :
    ∃ calls, EnumerateKeeps d = some calls ∧
      calls.length = (d.J + 1) * (d.S + 1) * (d.P + 1) * (d.M + 1) * (d.X + 1) ∧
      (calls.map Prod.fst).Nodup ∧
      ∀ (k : Dice) (n : Nat), (k, n) ∈ calls ↔
        (k.J ≤ d.J ∧ k.S ≤ d.S ∧ k.P ≤ d.P ∧ k.M ≤ d.M ∧ k.X ≤ d.X) ∧
          n = k.J + k.S + k.P + k.M + k.X :=
  ⟨keepCalls d 5 0 Dice.zero 0, EnumerateKeeps_rec_eq d hd 5 0 Dice.zero 0,
    keepCalls_length d Dice.zero 0, keepCalls_nodup d 5 0 Dice.zero 0 rfl, mem_keepCalls d⟩

theorem EnumerateKeeps_product_witness :
    ∃ calls, EnumerateKeeps ⟨2, 1, 1, 1, 0⟩ = some calls ∧
      calls.length = (2 + 1) * (1 + 1) * (1 + 1) * (1 + 1) * (0 + 1) ∧
      (calls.map Prod.fst).Nodup ∧
      ∀ (k : Dice) (n : Nat), (k, n) ∈ calls ↔
        (k.J ≤ 2 ∧ k.S ≤ 1 ∧ k.P ≤ 1 ∧ k.M ≤ 1 ∧ k.X ≤ 0) ∧
          n = k.J + k.S + k.P + k.M + k.X :=
  EnumerateKeeps_product ⟨2, 1, 1, 1, 0⟩ (by decide)

/-! ## Reroll layers -/



theorem AddDice_eq (a b : Dice) :
    AddDice a b = ⟨(a.J + b.J) % 256, (a.S + b.S) % 256, (a.P + b.P) % 256, (a.M + b.M) % 256,
      (a.X + b.X) % 256⟩ := rfl

theorem DiceIndex_of_size (d : Dice) (hd : d.size = 5) :
    ∃ i, DiceIndex d = some i ∧ i < 126 ∧ AllDice[i]? = some d := by
  have hmem : d ∈ AllDice := (mem_EnumerateAllDice d).2 hd
  obtain ⟨i, hi, hget⟩ := List.getElem_of_mem hmem
  have hlen : AllDice.length = 126 := by rfl
  have h := DiceIndex_AllDice_fin ⟨i, by omega⟩
  have hd2 : AllDice[i]? = some d := by rw [List.getElem?_eq_getElem hi, hget]
  simp only [hd2, Option.some_bind] at h
  exact ⟨i, h, by omega, hd2⟩

set_option maxRecDepth 100000 in
theorem Rerolls_prob_nonneg :
    ∀ n : Fin 6, ∀ l ∈ Rerolls n.val, ∀ o ∈ l, 0 ≤ o.Prob := by decide!

/-- What `Rerolls n` holds for `n ≤ 5`. -/
theorem Rerolls_some (n : Nat) (hn : n ≤ 5) :
    ∃ outs, Rerolls n = some outs ∧ (outs.map RerollOutcome.Prob).sum = 1 ∧
      ∀ o ∈ outs, o.Dice.size = n ∧ 0 ≤ o.Prob := by
  obtain ⟨hsome, hall⟩ := Rerolls_table ⟨n, by omega⟩
  obtain ⟨l, hl⟩ := Option.isSome_iff_exists.1 hsome
  obtain ⟨hdice, hsum, _⟩ := hall l hl
  refine ⟨l, hl, hsum, fun o ho => ⟨?_, Rerolls_prob_nonneg ⟨n, by omega⟩ l hl o ho⟩⟩
  have hmem : o.Dice ∈ l.map RerollOutcome.Dice := List.mem_map_of_mem _ ho
  rw [hdice] at hmem
  exact (mem_generate_full _ _ _).1 hmem

/-- The table lookup made for keep `k` and reroll outcome `o` is in range. -/
theorem keep_index (k o : Dice) (hk : k.size + o.size = 5) :
    ∃ i, DiceIndex (AddDice k o) = some i ∧ i < 126 ∧ AllDice[i]? = some (AddDice k o) := by
  apply DiceIndex_of_size
  simp only [Dice.size] at hk
  simp only [AddDice_eq, Dice.size]
  omega

/-- The loop of `rerollEV` over a list of outcomes is the sum of its terms. -/
theorem rerollEV_fold (prev : List ℚ) (k : Dice) :
    ∀ (outs : List RerollOutcome) (init : ℚ),
      outs.foldlM (fun ev ro => do
        let resultIdx ← DiceIndex (AddDice k ro.Dice)
        let v ← prev[resultIdx]?
        pure (ev + ro.Prob * v)) init =
      (outs.mapM (keepTerm prev k)).map fun terms => init + terms.sum
  | [], init => by
    show some init = some (init + 0)
    rw [add_zero]
  | o :: outs, init => by
    rw [List.foldlM_cons, List.mapM_cons]
    cases h1 : DiceIndex (AddDice k o.Dice) with
    | none => simp [keepTerm, h1]
    | some idx =>
      cases h2 : prev[idx]? with
      | none => simp [keepTerm, h1, h2]
      | some v =>
        have ih := rerollEV_fold prev k outs (init + o.Prob * v)
        have hk : keepTerm prev k o = some (o.Prob * v) := by simp [keepTerm, h1, h2]
        rw [hk]
        simp only [Option.bind_eq_bind, Option.some_bind, h2, Option.pure_def] at ih ⊢
        rw [ih]
        cases hm : outs.mapM (keepTerm prev k) with
        | none => simp
        | some ts => simp [add_assoc]

theorem rerollEV_eq_keepValue (prev : List ℚ) (k : Dice) (hk : k.size ≤ 5) :
    rerollEV prev k k.size = keepValue prev k := by
  have h : ¬ NumDice < k.size := by simp only [NumDice]; omega
  unfold rerollEV keepValue
  rw [if_neg h]
  cases hr : Rerolls (NumDice - k.size) with
  | none => simp
  | some outs =>
    simp only [Option.bind_eq_bind, Option.some_bind]
    have hf := rerollEV_fold prev k outs 0
    simp only [Option.bind_eq_bind] at hf
    rw [hf]
    cases hm : outs.mapM (keepTerm prev k) with
    | none => simp
    | some ts => simp

theorem mapM_eq_some_map {α β : Type} (f : α → Option β) (g : α → β) :
    ∀ (l : List α), (∀ a ∈ l, f a = some (g a)) → l.mapM f = some (l.map g)
  | [], _ => rfl
  | a :: l, h => by
    rw [List.mapM_cons, h a (List.mem_cons_self a l),
      mapM_eq_some_map f g l (fun b hb => h b (List.mem_cons_of_mem a hb))]
    rfl

theorem keepTerm_some (prev : List ℚ) (hp : 126 ≤ prev.length) (k : Dice) (o : RerollOutcome)
    (h : k.size + o.Dice.size = 5) :
    keepIndex k o < 126 ∧ keepTerm prev k o = some (o.Prob * prev.getD (keepIndex k o) 0) := by
  obtain ⟨i, hi, hlt, _⟩ := keep_index k o.Dice h
  have hget : prev[i]? = some (prev.getD i 0) := by
    rw [List.getD_eq_getElem?_getD, List.getElem?_eq_getElem (by omega)]
    rfl
  have hidx : keepIndex k o = i := by
    unfold keepIndex
    rw [hi]
    rfl
  rw [hidx]
  refine ⟨hlt, ?_⟩
  unfold keepTerm
  rw [hi]
  show (prev[i]?.bind fun v => some (o.Prob * v)) = _
  rw [hget]
  rfl

theorem keepValue_some (prev : List ℚ) (hp : 126 ≤ prev.length) (k : Dice) (hk : k.size ≤ 5) :
    ∃ outs, Rerolls (5 - k.size) = some outs ∧
      (outs.map RerollOutcome.Prob).sum = 1 ∧
      (∀ o ∈ outs, 0 ≤ o.Prob ∧ keepIndex k o < 126) ∧
      keepValue prev k =
        some ((outs.map fun o => o.Prob * prev.getD (keepIndex k o) 0).sum) := by
  obtain ⟨outs, ho, hsum, hall⟩ := Rerolls_some (5 - k.size) (by omega)
  have hterm : ∀ o ∈ outs, keepIndex k o < 126 ∧
      keepTerm prev k o = some (o.Prob * prev.getD (keepIndex k o) 0) := fun o hmem =>
    keepTerm_some prev hp k o (by have := (hall o hmem).1; omega)
  refine ⟨outs, ho, hsum, fun o hmem => ⟨(hall o hmem).2, (hterm o hmem).1⟩, ?_⟩
  have hm := mapM_eq_some_map (keepTerm prev k) _ outs (fun o hmem => (hterm o hmem).2)
  simp only [keepValue, NumDice, ho, hm, Option.bind_eq_bind, Option.some_bind, Option.pure_def]

/-- The value of a keep decision is monotone in the layer it is taken against. -/
theorem keepValue_mono (prev prev2 : List ℚ) (hp : 126 ≤ prev.length) (hp2 : 126 ≤ prev2.length)
    (hle : ∀ i, i < 126 → prev.getD i 0 ≤ prev2.getD i 0) (k : Dice) (hk : k.size ≤ 5)
    (e e2 : ℚ) (he : keepValue prev k = some e) (he2 : keepValue prev2 k = some e2) : e ≤ e2 := by
  obtain ⟨outs, ho, _, hall, hv⟩ := keepValue_some prev hp k hk
  obtain ⟨outs2, ho2, _, _, hv2⟩ := keepValue_some prev2 hp2 k hk
  rw [ho] at ho2
  cases ho2
  rw [hv] at he
  rw [hv2] at he2
  cases he
  cases he2
  apply List.sum_le_sum
  intro o hmem
  exact mul_le_mul_of_nonneg_left (hle _ (hall o hmem).2) (hall o hmem).1

/-- The running maximum kept by the callback of `ComputeRerollLayer`. -/
theorem rerollBest_fold (prev : List ℚ) :
    ∀ (keeps : List (Dice × Nat)) (base : ℚ),
      (∀ c ∈ keeps, c.2 ≠ NumDice → ∃ e, rerollEV prev c.1 c.2 = some e) →
      ∃ v, keeps.foldlM
          (fun bestEV call =>
            if call.2 = NumDice then pure bestEV
            else do
              let ev ← rerollEV prev call.1 call.2
              if ev > bestEV then pure ev else pure bestEV) base = some v ∧
        base ≤ v ∧
        (∀ c ∈ keeps, c.2 ≠ NumDice → ∀ e, rerollEV prev c.1 c.2 = some e → e ≤ v) ∧
        (v = base ∨ ∃ c ∈ keeps, c.2 ≠ NumDice ∧ rerollEV prev c.1 c.2 = some v)
  | [], base, _ => ⟨base, rfl, le_refl _, by simp, Or.inl rfl⟩
  | c :: keeps, base, h => by
    have hrest : ∀ c2 ∈ keeps, c2.2 ≠ NumDice → ∃ e, rerollEV prev c2.1 c2.2 = some e :=
      fun c2 hc2 => h c2 (List.mem_cons_of_mem c hc2)
    rw [List.foldlM_cons]
    by_cases hc : c.2 = NumDice
    · obtain ⟨v, hv, hb, hall, hex⟩ := rerollBest_fold prev keeps base hrest
      refine ⟨v, by simpa [hc] using hv, hb, ?_, ?_⟩
      · intro c2 hc2 hne e he
        rcases List.mem_cons.1 hc2 with rfl | hmem
        · exact absurd hc hne
        · exact hall c2 hmem hne e he
      · rcases hex with rfl | ⟨c2, hc2, hne, he⟩
        · exact Or.inl rfl
        · exact Or.inr ⟨c2, List.mem_cons_of_mem c hc2, hne, he⟩
    · obtain ⟨e, he⟩ := h c (List.mem_cons_self c keeps) hc
      by_cases hgt : e > base
      · obtain ⟨v, hv, hb, hall, hex⟩ := rerollBest_fold prev keeps e hrest
        refine ⟨v, by simpa [hc, he, hgt] using hv, le_trans (le_of_lt hgt) hb, ?_, ?_⟩
        · intro c2 hc2 hne e2 he2
          rcases List.mem_cons.1 hc2 with rfl | hmem
          · rw [he] at he2
            cases he2
            exact hb
          · exact hall c2 hmem hne e2 he2
        · rcases hex with rfl | ⟨c2, hc2, hne, he2⟩
          · exact Or.inr ⟨c, List.mem_cons_self c keeps, hc, he⟩
          · exact Or.inr ⟨c2, List.mem_cons_of_mem c hc2, hne, he2⟩
      · obtain ⟨v, hv, hb, hall, hex⟩ := rerollBest_fold prev keeps base hrest
        refine ⟨v, by simpa [hc, he, hgt] using hv, hb, ?_, ?_⟩
        · intro c2 hc2 hne e2 he2
          rcases List.mem_cons.1 hc2 with rfl | hmem
          · rw [he] at he2
            cases he2
            exact le_trans (not_lt.1 hgt) hb
          · exact hall c2 hmem hne e2 he2
        · rcases hex with rfl | ⟨c2, hc2, hne, he2⟩
          · exact Or.inl rfl
          · exact Or.inr ⟨c2, List.mem_cons_of_mem c hc2, hne, he2⟩

theorem rerollBest_spec (prev : List ℚ) (hp : 126 ≤ prev.length) (i : Nat) (hi : i < 126)
    (d : Dice) (hd : d.size = 5) :
    ∃ v, rerollBest prev i d = some v ∧ IsRerollValue prev i d v := by
  have hsz : d.J + d.S + d.P + d.M + d.X = 5 := hd
  have hkeeps : EnumerateKeeps d = some (keepCalls d 5 0 Dice.zero 0) :=
    EnumerateKeeps_rec_eq d (by omega) 5 0 Dice.zero 0
  have hbase : prev[i]? = some (prev.getD i 0) := by
    rw [List.getD_eq_getElem?_getD, List.getElem?_eq_getElem (by omega)]
    rfl
  have hcall : ∀ c ∈ keepCalls d 5 0 Dice.zero 0,
      c.1.IsKeepOf d ∧ c.2 = c.1.size ∧ c.1.size ≤ 5 := by
    intro c hc
    obtain ⟨h1, h2⟩ := (mem_keepCalls d c.1 c.2).1 hc
    refine ⟨h1, h2, ?_⟩
    obtain ⟨a1, a2, a3, a4, a5⟩ := h1
    simp only [Dice.size]
    omega
  have hev : ∀ c ∈ keepCalls d 5 0 Dice.zero 0, rerollEV prev c.1 c.2 = keepValue prev c.1 := by
    intro c hc
    obtain ⟨_, h2, h3⟩ := hcall c hc
    rw [h2]
    exact rerollEV_eq_keepValue prev c.1 h3
  have htot : ∀ c ∈ keepCalls d 5 0 Dice.zero 0, c.2 ≠ NumDice →
      ∃ e, rerollEV prev c.1 c.2 = some e := by
    intro c hc _
    obtain ⟨_, _, h3⟩ := hcall c hc
    obtain ⟨outs, _, _, _, hv⟩ := keepValue_some prev hp c.1 h3
    exact ⟨_, (hev c hc).trans hv⟩
  obtain ⟨v, hv, hb, hall, hex⟩ := rerollBest_fold prev _ (prev.getD i 0) htot
  refine ⟨v, ?_, ?_, ?_⟩
  · simp only [rerollBest, hbase, hkeeps, Option.bind_eq_bind, Option.some_bind]
    exact hv
  · rcases hex with rfl | ⟨c, hc, hne, he⟩
    · exact Or.inl hbase
    · obtain ⟨h1, h2, h3⟩ := hcall c hc
      refine Or.inr ⟨c.1, h1, ?_, (hev c hc).symm.trans he⟩
      have : c.2 ≠ 5 := hne
      omega
  · rintro x (hx | ⟨k, hk1, hk2, hk3⟩)
    · have hx2 : prev[i]? = some x := hx
      rw [hbase] at hx2
      cases hx2
      exact hb
    · have hmem : (k, k.size) ∈ keepCalls d 5 0 Dice.zero 0 := (mem_keepCalls d k k.size).2 ⟨hk1, rfl⟩
      have hne : (k, k.size).2 ≠ NumDice := by
        show k.size ≠ 5
        omega
      exact hall _ hmem hne x ((hev _ hmem).trans hk3)

theorem ComputeRerollLayer_loop_spec (prev : List ℚ) (g : Nat → ℚ) :
    ∀ (l : List Dice) (i : Nat) (cur : List ℚ), i + l.length ≤ cur.length →
      (∀ j d, l[j]? = some d → rerollBest prev (i + j) d = some (g (i + j))) →
      ∃ out, ComputeRerollLayer_loop prev l i cur = some out ∧ out.length = cur.length ∧
        (∀ j, j < i → out[j]? = cur[j]?) ∧
        (∀ j, j < l.length → out[i + j]? = some (g (i + j)))
  | [], i, cur, _, _ => ⟨cur, rfl, rfl, fun _ _ => rfl, fun j hj => absurd hj (by simp)⟩
  | d :: l, i, cur, hlen, hbest => by
    have hlen2 : i + 1 + l.length ≤ cur.length := by
      simp only [List.length_cons] at hlen
      omega
    have h0 : rerollBest prev i d = some (g i) := by
      have := hbest 0 d (by simp)
      simpa using this
    have hlt : i < cur.length := by omega
    obtain ⟨out, ho, hl, hpre, hpost⟩ := ComputeRerollLayer_loop_spec prev g l (i + 1)
      (cur.set i (g i)) (by rw [List.length_set]; exact hlen2)
      (fun j d2 hj => by
        have := hbest (j + 1) d2 (by simpa using hj)
        rw [show i + 1 + j = i + (j + 1) by omega]
        exact this)
    refine ⟨out, ?_, by rw [hl, List.length_set], ?_, ?_⟩
    · simp only [ComputeRerollLayer_loop, h0, Option.bind_eq_bind, Option.some_bind, if_pos hlt]
      exact ho
    · intro j hj
      rw [hpre j (by omega), List.getElem?_set_ne (by omega)]
    · intro j hj
      rcases j with _ | j
      · rw [Nat.add_zero, hpre i (by omega), List.getElem?_set_self hlt]
      · have := hpost j (by simpa using hj)
        rw [show i + (j + 1) = i + 1 + j by omega]
        exact this

theorem AllDice_getElem (i : Nat) (d : Dice) (h : AllDice[i]? = some d) :
    i < 126 ∧ d.size = 5 := by
  have hlen : AllDice.length = 126 := by rfl
  obtain ⟨hi, hget⟩ := List.getElem?_eq_some.1 h
  refine ⟨by omega, ?_⟩
  have hmem : d ∈ AllDice := hget ▸ List.getElem_mem hi
  exact (mem_EnumerateAllDice d).1 hmem

theorem ComputeRerollLayer_some (prev cur : List ℚ) (hp : 126 ≤ prev.length)
    (hc : 126 ≤ cur.length) :
    ∃ out, ComputeRerollLayer AllDice prev cur = some out ∧ out.length = cur.length ∧
      IsRerollLayer prev out := by
  have hlen : AllDice.length = 126 := by rfl
  have hbest : ∀ j d, AllDice[j]? = some d →
      rerollBest prev (0 + j) d =
        some ((fun i => (rerollBest prev i (AllDice.getD i Dice.zero)).getD 0) (0 + j)) := by
    intro j d hj
    obtain ⟨hi, hd⟩ := AllDice_getElem j d hj
    obtain ⟨v, hv, _⟩ := rerollBest_spec prev hp j hi d hd
    have hgd : AllDice.getD j Dice.zero = d := by
      rw [List.getD_eq_getElem?_getD, hj]
      rfl
    simp only [Nat.zero_add, hgd, hv, Option.getD_some]
  obtain ⟨out, ho, hl, _, hpost⟩ := ComputeRerollLayer_loop_spec prev
    (fun i => (rerollBest prev i (AllDice.getD i Dice.zero)).getD 0) AllDice 0 cur
    (by rw [hlen]; omega) hbest
  refine ⟨out, ho, hl, ?_⟩
  intro i d hi
  obtain ⟨hlt, hd⟩ := AllDice_getElem i d hi
  obtain ⟨v, hv, hspec⟩ := rerollBest_spec prev hp i hlt d hd
  refine ⟨v, ?_, hspec⟩
  have := hpost i (by omega)
  have hgd : AllDice.getD i Dice.zero = d := by
    rw [List.getD_eq_getElem?_getD, hi]
    rfl
  simp only [Nat.zero_add, hgd, hv, Option.getD_some] at this
  exact this

/-- C11: for every layer `prevLayer` of length 126, `ComputeRerollLayer(AllDice(),
prevLayer, curLayer)` returns, and sets `curLayer[i]`, for every outcome index `i` with
`d = AllDice()[i]`, to the maximum of `prevLayer[i]` and, over every keep decision `k` that
is a sub-multiset of `d` with fewer than 5 dice, the sum over `o` in `Rerolls(5 - |k|)` of
`P(o) * prevLayer[DiceIndex(k + o)]`. -/
theorem ComputeRerollLayer_max (prevLayer curLayer : List ℚ) (hp : prevLayer.length = 126)
    (hc : 126 ≤ curLayer.length) :
    ∃ out, ComputeRerollLayer AllDice prevLayer curLayer = some out ∧
      out.length = curLayer.length ∧
      ∀ (i : Nat) (d : Dice), AllDice[i]? = some d →
        ∃ v, out[i]? = some v ∧
          IsGreatest ({x | prevLayer[i]? = some x} ∪
            {x | ∃ k : Dice, k.IsKeepOf d ∧ k.size < 5 ∧ keepValue prevLayer k = some x}) v :=
  ComputeRerollLayer_some prevLayer curLayer (by omega) hc

theorem ComputeRerollLayer_max_witness :
    ∃ out, ComputeRerollLayer AllDice (List.replicate 126 1) (List.replicate 126 0) = some out ∧
      out.length = (List.replicate 126 (0 : ℚ)).length ∧
      ∀ (i : Nat) (d : Dice), AllDice[i]? = some d →
        ∃ v, out[i]? = some v ∧
          IsGreatest ({x | (List.replicate 126 (1 : ℚ))[i]? = some x} ∪
            {x | ∃ k : Dice, k.IsKeepOf d ∧ k.size < 5 ∧
              keepValue (List.replicate 126 1) k = some x}) v :=
  ComputeRerollLayer_max (List.replicate 126 1) (List.replicate 126 0) (by simp) (by simp)

/-- C12: for every input layer `prevLayer` of length 126 and every outcome index `i` below
126, the layer produced by `ComputeRerollLayer` has `curLayer[i] >= prevLayer[i]`; hence a
non-negative input layer yields a non-negative output layer. -/
theorem ComputeRerollLayer_ge (prevLayer curLayer : List ℚ) (hp : prevLayer.length = 126)
    (hc : 126 ≤ curLayer.length) :
    ∃ out, ComputeRerollLayer AllDice prevLayer curLayer = some out ∧
      (∀ i, i < 126 → ∃ p v, prevLayer[i]? = some p ∧ out[i]? = some v ∧ p ≤ v) ∧
      ((∀ p ∈ prevLayer, 0 ≤ p) → ∀ i, i < 126 → ∃ v, out[i]? = some v ∧ 0 ≤ v) := by
  obtain ⟨out, ho, _, hspec⟩ := ComputeRerollLayer_some prevLayer curLayer (by omega) hc
  have hlen : AllDice.length = 126 := by rfl
  have key : ∀ i, i < 126 → ∃ p v, prevLayer[i]? = some p ∧ out[i]? = some v ∧ p ≤ v := by
    intro i hi
    have hia : i < AllDice.length := by rw [hlen]; exact hi
    have hip : i < prevLayer.length := by rw [hp]; exact hi
    obtain ⟨v, hv, hg⟩ := hspec i (AllDice.get ⟨i, hia⟩) (List.getElem?_eq_getElem hia)
    have hpi : prevLayer[i]? = some (prevLayer.get ⟨i, hip⟩) := List.getElem?_eq_getElem hip
    exact ⟨_, v, hpi, hv, hg.2 (Or.inl hpi)⟩
  refine ⟨out, ho, key, ?_⟩
  intro hnn i hi
  obtain ⟨p, v, h1, h2, h3⟩ := key i hi
  obtain ⟨hip, hget⟩ := List.getElem?_eq_some.1 h1
  exact ⟨v, h2, le_trans (hnn p (hget ▸ List.getElem_mem hip)) h3⟩

theorem ComputeRerollLayer_ge_witness :
    ∃ out, ComputeRerollLayer AllDice (List.replicate 126 1) (List.replicate 126 0) = some out ∧
      (∀ i, i < 126 →
        ∃ p v, (List.replicate 126 (1 : ℚ))[i]? = some p ∧ out[i]? = some v ∧ p ≤ v) ∧
      (∀ i, i < 126 → ∃ v, out[i]? = some v ∧ 0 ≤ v) := by
  obtain ⟨out, h1, h2, h3⟩ :=
    ComputeRerollLayer_ge (List.replicate 126 1) (List.replicate 126 0) (by simp) (by simp)
  exact ⟨out, h1, h2, h3 (fun p hp => by rw [(List.mem_replicate.1 hp).2]; exact zero_le_one)⟩

/-! ## The EV table -/

set_option maxRecDepth 100000 in
theorem CategorySet_facts :
    ∀ cs : Fin 512, (cs.val ≠ 0 → CategorySet.ForEach cs.val ≠ [] ∧ 1 ≤ CategorySet.Count cs.val) ∧
      CategorySet.Count cs.val ≤ 9 ∧
      ∀ c ∈ CategorySet.ForEach cs.val, CategorySet.Remove cs.val c < 512 ∧
        CategorySet.Count (CategorySet.Remove cs.val c) + 1 = CategorySet.Count cs.val := by
  decide!

theorem mem_ForEach (cs : CategorySet) (c : Category) :
    c ∈ CategorySet.ForEach cs ↔ c < NumCategories ∧ CategorySet.Has cs c = true := by
  simp [CategorySet.ForEach]

/-- The score of a valid category as a number: `Score` does not fail below `NumCategories`. -/
theorem Score_ok (d : Dice) (c : Category) (hc : c < NumCategories) :
    ∃ v : Int, Score d c = Except.ok v ∧ 0 ≤ v := by
  have hc9 : c < 9 := hc
  have hP := Dice.Points_nonneg d
  interval_cases c
  · exact ⟨_, rfl, by simp [BerryPoints, Jumbleberry]⟩
  · exact ⟨_, rfl, by simp [BerryPoints, Sugarberry]⟩
  · exact ⟨_, rfl, by simp [BerryPoints, Pickleberry]⟩
  · exact ⟨_, rfl, by simp [BerryPoints, Moonberry]⟩
  · exact ite_pure_nonneg _ _ hP
  · exact ite_pure_nonneg _ _ hP
  · exact ite_pure_nonneg _ _ hP
  · exact ite_pure_nonneg _ _ hP
  · exact ⟨_, rfl, hP⟩

theorem scoreFloat_eq (d : Dice) (c : Category) (hc : c < NumCategories) :
    scoreFloat d c = some (scoreValue d c) ∧ 0 ≤ scoreValue d c ∧
      ∃ s : Int, Score d c = Except.ok s ∧ scoreValue d c = (s : ℚ) := by
  obtain ⟨v, hv, hnn⟩ := Score_ok d c hc
  have h : scoreFloat d c = some (v : ℚ) := by simp [scoreFloat, hv]
  have h2 : scoreValue d c = (v : ℚ) := by simp [scoreValue, h]
  rw [h2]
  exact ⟨h, by exact_mod_cast hnn, v, hv, rfl⟩

/-- A fold of `bestValStep` whose steps do not fail is the pure fold. -/
theorem foldlM_bestVal (step : Option ℚ → Category → Option (Option ℚ)) (g : Category → ℚ) :
    ∀ (l : List Category) (init : Option ℚ),
      (∀ b, ∀ c ∈ l, step b c = some (bestValStep b (g c))) →
      l.foldlM step init = some (l.foldl (fun b c => bestValStep b (g c)) init)
  | [], _, _ => rfl
  | c :: l, init, h => by
    rw [List.foldlM_cons, h init c (List.mem_cons_self c l)]
    exact foldlM_bestVal step g l _ (fun b c2 hc2 => h b c2 (List.mem_cons_of_mem c hc2))

theorem foldl_bestVal_some (g : Category → ℚ) :
    ∀ (l : List Category) (b : ℚ),
      ∃ v, l.foldl (fun b c => bestValStep b (g c)) (some b) = some v ∧ b ≤ v ∧
        (∀ c ∈ l, g c ≤ v) ∧ (v = b ∨ ∃ c ∈ l, v = g c)
  | [], b => ⟨b, rfl, le_refl _, by simp, Or.inl rfl⟩
  | c :: l, b => by
    rw [List.foldl_cons]
    by_cases hgt : g c > b
    · obtain ⟨v, hv, hb, hall, hex⟩ := foldl_bestVal_some g l (g c)
      refine ⟨v, by simpa [bestValStep, hgt] using hv, le_trans (le_of_lt hgt) hb, ?_, ?_⟩
      · intro c2 hc2
        rcases List.mem_cons.1 hc2 with rfl | hmem
        · exact hb
        · exact hall c2 hmem
      · rcases hex with rfl | ⟨c2, hc2, he⟩
        · exact Or.inr ⟨c, List.mem_cons_self c l, rfl⟩
        · exact Or.inr ⟨c2, List.mem_cons_of_mem c hc2, he⟩
    · obtain ⟨v, hv, hb, hall, hex⟩ := foldl_bestVal_some g l b
      refine ⟨v, by simpa [bestValStep, hgt] using hv, hb, ?_, ?_⟩
      · intro c2 hc2
        rcases List.mem_cons.1 hc2 with rfl | hmem
        · exact le_trans (not_lt.1 hgt) hb
        · exact hall c2 hmem
      · rcases hex with rfl | ⟨c2, hc2, he⟩
        · exact Or.inl rfl
        · exact Or.inr ⟨c2, List.mem_cons_of_mem c hc2, he⟩

theorem foldl_bestVal_none (g : Category → ℚ) (l : List Category) (hl : l ≠ []) :
    ∃ v, l.foldl (fun b c => bestValStep b (g c)) none = some v ∧
      (∀ c ∈ l, g c ≤ v) ∧ ∃ c ∈ l, v = g c := by
  rcases l with _ | ⟨c, l⟩
  · exact absurd rfl hl
  · obtain ⟨v, hv, hb, hall, hex⟩ := foldl_bestVal_some g l (g c)
    refine ⟨v, hv, ?_, ?_⟩
    · intro c2 hc2
      rcases List.mem_cons.1 hc2 with rfl | hmem
      · exact hb
      · exact hall c2 hmem
    · rcases hex with rfl | ⟨c2, hc2, he⟩
      · exact ⟨c, List.mem_cons_self c l, rfl⟩
      · exact ⟨c2, List.mem_cons_of_mem c hc2, he⟩

theorem layer0Value_some (t : Table) (cs : CategorySet) (h0 : cs ≠ 0) (h1 : cs < 512) (d : Dice) :
    (CategorySet.ForEach cs).foldl
      (fun b c => bestValStep b (scoreValue d c + t.ev (CategorySet.Remove cs c))) none =
      some (layer0Value t cs d) ∧ IsLayer0Value t cs d (layer0Value t cs d) := by
  obtain ⟨hne, _, _⟩ := CategorySet_facts ⟨cs, h1⟩
  obtain ⟨v, hv, hall, c, hc, he⟩ := foldl_bestVal_none
    (fun c => scoreValue d c + t.ev (CategorySet.Remove cs c)) _ (hne h0).1
  have hlv : layer0Value t cs d = v := by
    unfold layer0Value
    rw [hv]
    rfl
  rw [hlv]
  refine ⟨hv, ?_, ?_⟩
  · obtain ⟨hc9, hhas⟩ := (mem_ForEach cs c).1 hc
    obtain ⟨_, _, s, hs, hs2⟩ := scoreFloat_eq d c hc9
    exact ⟨c, hc9, hhas, s, hs, by rw [he, hs2]⟩
  · rintro x ⟨c2, hc9, hhas, s, hs, rfl⟩
    obtain ⟨_, _, s2, hs2, hs3⟩ := scoreFloat_eq d c2 hc9
    rw [hs] at hs2
    cases hs2
    rw [← hs3]
    exact hall c2 ((mem_ForEach cs c2).2 ⟨hc9, hhas⟩)

theorem Compute_scoreTab_eq :
    Compute_scoreTab AllDice =
      some ((List.range NumCategories).map fun cat => AllDice.map fun d => scoreValue d cat) := by
  unfold Compute_scoreTab
  apply mapM_eq_some_map
  intro cat hcat
  apply mapM_eq_some_map
  intro d _
  exact (scoreFloat_eq d cat (List.mem_range.1 hcat)).1

theorem AllDice_getD (i : Nat) (hi : i < 126) :
    AllDice[i]? = some (AllDice.getD i Dice.zero) := by
  have hlen : AllDice.length = 126 := by rfl
  rw [List.getD_eq_getElem?_getD, List.getElem?_eq_getElem (by rw [hlen]; exact hi)]
  rfl

theorem Compute_layer0_eq (t : Table) (cs : CategorySet) (h0 : cs ≠ 0) (h1 : cs < 512) :
    Compute_layer0 ((List.range NumCategories).map fun cat => AllDice.map fun d => scoreValue d cat)
      t cs 126 = some (layer0Of t cs) := by
  unfold Compute_layer0 layer0Of
  apply mapM_eq_some_map
  intro i hi
  have hi2 : i < 126 := List.mem_range.1 hi
  have hfold := foldlM_bestVal
    (fun bestVal cat => do
      let row ← ((List.range NumCategories).map fun cat => AllDice.map fun d => scoreValue d cat)[cat]?
      let sc ← row[i]?
      let fut ← t.EV (CategorySet.Remove cs cat)
      pure (bestValStep bestVal (sc + fut)))
    (fun c => scoreValue (AllDice.getD i Dice.zero) c + t.ev (CategorySet.Remove cs c))
    (CategorySet.ForEach cs) none
    (by
      intro b c hc
      obtain ⟨hc9, _⟩ := (mem_ForEach cs c).1 hc
      obtain ⟨_, _, hrem⟩ := CategorySet_facts ⟨cs, h1⟩
      have hlt : CategorySet.Remove cs c < tableSize := (hrem c hc).1
      have hrow : ((List.range NumCategories).map fun cat =>
          AllDice.map fun d => scoreValue d cat)[c]? =
          some (AllDice.map fun d => scoreValue d c) := by
        rw [List.getElem?_map, List.getElem?_range hc9]
        rfl
      have hsc : (AllDice.map fun d => scoreValue d c)[i]? =
          some (scoreValue (AllDice.getD i Dice.zero) c) := by
        rw [List.getElem?_map, AllDice_getD i hi2]
        rfl
      simp only [hrow, hsc, Table.EV, if_pos hlt, Option.bind_eq_bind, Option.some_bind,
        Option.pure_def])
  simp only [Option.bind_eq_bind] at hfold ⊢
  rw [hfold, (layer0Value_some t cs h0 h1 _).1]
  rfl

theorem layer0Of_spec (t : Table) (cs : CategorySet) (h0 : cs ≠ 0) (h1 : cs < 512) :
    (layer0Of t cs).length = 126 ∧ IsLayer0 t cs (layer0Of t cs) := by
  refine ⟨by simp [layer0Of], ?_⟩
  intro i d hd
  obtain ⟨hi, _⟩ := AllDice_getElem i d hd
  have hgd : AllDice.getD i Dice.zero = d := by
    rw [List.getD_eq_getElem?_getD, hd]
    rfl
  refine ⟨layer0Value t cs d, ?_, (layer0Value_some t cs h0 h1 d).2⟩
  unfold layer0Of
  rw [List.getElem?_map, List.getElem?_range hi]
  simp only [Option.map_some', hgd]

theorem rerollLayerOf_spec (prev : List ℚ) (hp : prev.length = 126) :
    ComputeRerollLayer AllDice prev (List.replicate 126 0) = some (rerollLayerOf prev) ∧
      (rerollLayerOf prev).length = 126 ∧ IsRerollLayer prev (rerollLayerOf prev) := by
  obtain ⟨out, ho, hl, hspec⟩ := ComputeRerollLayer_some prev (List.replicate 126 0)
    (by omega) (by simp)
  have h : rerollLayerOf prev = out := by
    unfold rerollLayerOf
    rw [ho]
    rfl
  rw [h]
  exact ⟨ho, by simpa using hl, hspec⟩

/-- A fold adding one term per element is the sum of the terms. -/
theorem foldlM_add (step : ℚ → Nat → Option ℚ) (h : Nat → ℚ) :
    ∀ (l : List Nat) (init : ℚ), (∀ ev, ∀ a ∈ l, step ev a = some (ev + h a)) →
      l.foldlM step init = some (init + (l.map h).sum)
  | [], init, _ => by
    show some init = some (init + 0)
    rw [add_zero]
  | a :: l, init, hs => by
    rw [List.foldlM_cons, hs init a (List.mem_cons_self a l)]
    show List.foldlM step (init + h a) l = _
    rw [foldlM_add step h l _ (fun ev b hb => hs ev b (List.mem_cons_of_mem a hb)),
      List.map_cons, List.sum_cons, add_assoc]

theorem FirstRollProb_some (i : Nat) (hi : i < 126) :
    FirstRollProb i = some ((FirstRollProb i).getD 0) := by
  obtain ⟨hsome, hall⟩ := firstRollProb_table
  obtain ⟨probs, hp⟩ := Option.isSome_iff_exists.1 hsome
  obtain ⟨hlen, _, _⟩ := hall probs hp
  have h : FirstRollProb i = some (probs.get ⟨i, by omega⟩) := by
    simp only [FirstRollProb, hp, Option.bind_eq_bind, Option.some_bind, if_pos hi]
    exact List.getElem?_eq_getElem (by omega)
  rw [h]
  rfl

theorem Compute_ev_eq (t : Table) (cs : CategorySet) (h0 : cs ≠ 0) (h1 : cs < 512) :
    Compute_ev AllDice
      ((List.range NumCategories).map fun cat => AllDice.map fun d => scoreValue d cat) t cs =
      some (evOf t cs) := by
  have hlen : AllDice.length = 126 := by rfl
  obtain ⟨hl0, _⟩ := layer0Of_spec t cs h0 h1
  obtain ⟨hr1, hl1, _⟩ := rerollLayerOf_spec (layer0Of t cs) hl0
  obtain ⟨hr2, hl2, _⟩ := rerollLayerOf_spec (rerollLayerOf (layer0Of t cs)) hl1
  unfold Compute_ev
  simp only [hlen, Compute_layer0_eq t cs h0 h1, hr1, hr2, Option.bind_eq_bind, Option.some_bind]
  rw [foldlM_add _ (fun i => (FirstRollProb i).getD 0 *
    (rerollLayerOf (rerollLayerOf (layer0Of t cs))).getD i 0)]
  · rw [zero_add]
    rfl
  · intro ev i hi
    have hi2 : i < 126 := List.mem_range.1 hi
    have hv : (rerollLayerOf (rerollLayerOf (layer0Of t cs)))[i]? =
        some ((rerollLayerOf (rerollLayerOf (layer0Of t cs))).getD i 0) := by
      rw [List.getD_eq_getElem?_getD, List.getElem?_eq_getElem (by omega)]
      rfl
    rw [FirstRollProb_some i hi2, hv]
    rfl

theorem foldl_congr_mem {α β : Type} (f g : β → α → β) :
    ∀ (l : List α) (init : β), (∀ b, ∀ a ∈ l, f b a = g b a) → l.foldl f init = l.foldl g init
  | [], _, _ => rfl
  | a :: l, init, h => by
    rw [List.foldl_cons, List.foldl_cons, h init a (List.mem_cons_self a l)]
    exact foldl_congr_mem f g l _ (fun b c hc => h b c (List.mem_cons_of_mem a hc))

/-- The value stored for `cs` reads the table only at the sets `cs.Remove(c)`, `c` in `cs`. -/
theorem evOf_congr (t t2 : Table) (cs : CategorySet)
    (h : ∀ c ∈ CategorySet.ForEach cs,
      t.ev (CategorySet.Remove cs c) = t2.ev (CategorySet.Remove cs c)) :
    evOf t cs = evOf t2 cs := by
  have hl : layer0Of t cs = layer0Of t2 cs := by
    unfold layer0Of
    apply List.map_congr_left
    intro i _
    unfold layer0Value
    rw [foldl_congr_mem _ (fun b c => bestValStep b
      (scoreValue (AllDice.getD i Dice.zero) c + t2.ev (CategorySet.Remove cs c)))]
    intro b c hc
    show bestValStep b _ = bestValStep b _
    rw [h c hc]
  unfold evOf
  rw [hl]

theorem Compute_entry_eq (t : Table) (cs : CategorySet) (h0 : cs ≠ 0) (h1 : cs < 512) :
    ∃ t1, Compute_entry AllDice
      ((List.range NumCategories).map fun cat => AllDice.map fun d => scoreValue d cat) t cs =
        some t1 ∧ ∀ i, t1.ev i = if i = cs then evOf t cs else t.ev i := by
  have hlt : cs < tableSize := h1
  refine ⟨⟨fun i => if i = cs then evOf t cs else t.ev i⟩, ?_, fun i => rfl⟩
  unfold Compute_entry
  rw [Compute_ev_eq t cs h0 h1]
  simp only [Option.bind_eq_bind, Option.some_bind, Table.SetEV, if_pos hlt]

theorem Compute_size_list (s : Nat) (t0 : Table) :
    ∀ (L : List Nat) (t : Table), L.Nodup → (∀ cs ∈ L, cs ≠ 0 ∧ cs < 512) →
      (∀ cs, CategorySet.Count cs ≠ s → t.ev cs = t0.ev cs) →
      ∃ t1, L.foldlM
          (fun t cs =>
            if CategorySet.Count cs ≠ s then pure t
            else Compute_entry AllDice
              ((List.range NumCategories).map fun cat => AllDice.map fun d => scoreValue d cat)
              t cs) t = some t1 ∧
        ∀ cs, t1.ev cs = if cs ∈ L ∧ CategorySet.Count cs = s then evOf t0 cs else t.ev cs
  | [], t, _, _, _ => ⟨t, rfl, fun cs => by simp⟩
  | c :: L, t, hnd, hrange, hagree => by
    obtain ⟨hc0, hc1⟩ := hrange c (List.mem_cons_self c L)
    have hnd2 : L.Nodup := (List.nodup_cons.1 hnd).2
    have hcL : c ∉ L := (List.nodup_cons.1 hnd).1
    have hrange2 : ∀ cs ∈ L, cs ≠ 0 ∧ cs < 512 := fun cs hcs =>
      hrange cs (List.mem_cons_of_mem c hcs)
    rw [List.foldlM_cons]
    by_cases hcount : CategorySet.Count c ≠ s
    · obtain ⟨t1, ht1, hev⟩ := Compute_size_list s t0 L t hnd2 hrange2 hagree
      refine ⟨t1, by simpa [hcount] using ht1, ?_⟩
      intro cs
      rw [hev cs]
      by_cases hm : cs ∈ L ∧ CategorySet.Count cs = s
      · rw [if_pos hm, if_pos ⟨List.mem_cons_of_mem c hm.1, hm.2⟩]
      · rw [if_neg hm, if_neg]
        rintro ⟨hmem, hcnt⟩
        rcases List.mem_cons.1 hmem with rfl | hmem2
        · exact hcount hcnt
        · exact hm ⟨hmem2, hcnt⟩
    · have hcs : CategorySet.Count c = s := not_not.1 hcount
      obtain ⟨t2, ht2, hev2⟩ := Compute_entry_eq t c hc0 hc1
      have hloc : evOf t c = evOf t0 c := by
        apply evOf_congr
        intro cat hcat
        obtain ⟨_, _, hrem⟩ := CategorySet_facts ⟨c, hc1⟩
        apply hagree
        have := (hrem cat hcat).2
        simp only at this
        omega
      have hagree2 : ∀ cs, CategorySet.Count cs ≠ s → t2.ev cs = t0.ev cs := by
        intro cs hne
        rw [hev2 cs, if_neg (by rintro rfl; exact hne hcs)]
        exact hagree cs hne
      obtain ⟨t1, ht1, hev⟩ := Compute_size_list s t0 L t2 hnd2 hrange2 hagree2
      refine ⟨t1, ?_, ?_⟩
      · simp only [hcount, if_false, ht2, Option.bind_eq_bind, Option.some_bind]
        exact ht1
      · intro cs
        rw [hev cs]
        by_cases hm : cs ∈ L ∧ CategorySet.Count cs = s
        · rw [if_pos hm, if_pos ⟨List.mem_cons_of_mem c hm.1, hm.2⟩]
        · rw [if_neg hm, hev2 cs]
          by_cases hcc : cs = c
          · subst hcc
            rw [if_pos rfl, if_pos ⟨List.mem_cons_self _ _, hcs⟩, hloc]
          · rw [if_neg hcc, if_neg]
            rintro ⟨hmem, hcnt⟩
            rcases List.mem_cons.1 hmem with rfl | hmem2
            · exact hcc rfl
            · exact hm ⟨hmem2, hcnt⟩

theorem Compute_size_eq (t0 : Table) (s : Nat) :
    ∃ t1, Compute_size AllDice
        ((List.range NumCategories).map fun cat => AllDice.map fun d => scoreValue d cat) t0 s =
        some t1 ∧
      ∀ cs, t1.ev cs =
        if (cs ≠ 0 ∧ cs < 512) ∧ CategorySet.Count cs = s then evOf t0 cs else t0.ev cs := by
  have hmem : ∀ cs, cs ∈ List.range' 1 AllCategories ↔ (cs ≠ 0 ∧ cs < 512) := by
    intro cs
    rw [List.mem_range'_1, show AllCategories = (511 : Nat) from rfl]
    omega
  obtain ⟨t1, ht1, hev⟩ := Compute_size_list s t0 (List.range' 1 AllCategories) t0
    (List.nodup_range' 1 AllCategories) (fun cs hcs => (hmem cs).1 hcs) (fun _ _ => rfl)
  refine ⟨t1, ht1, fun cs => ?_⟩
  rw [hev cs]
  by_cases h : (cs ≠ 0 ∧ cs < 512) ∧ CategorySet.Count cs = s
  · rw [if_pos h, if_pos ⟨(hmem cs).2 h.1, h.2⟩]
  · rw [if_neg h, if_neg (fun h2 => h ⟨(hmem cs).1 h2.1, h2.2⟩)]

theorem ComputeInv_step (s : Nat) (t t1 : Table) (hinv : ComputeInv s t)
    (hev : ∀ cs, t1.ev cs =
      if (cs ≠ 0 ∧ cs < 512) ∧ CategorySet.Count cs = s + 1 then evOf t cs else t.ev cs) :
    ComputeInv (s + 1) t1 := by
  have hkeep : ∀ cs, CategorySet.Count cs ≠ s + 1 → t1.ev cs = t.ev cs := by
    intro cs hne
    rw [hev cs, if_neg (fun h => hne h.2)]
  have hloc : ∀ cs, cs < 512 → CategorySet.Count cs ≤ s + 1 → evOf t1 cs = evOf t cs := by
    intro cs h1 hle
    apply evOf_congr
    intro cat hcat
    obtain ⟨_, _, hrem⟩ := CategorySet_facts ⟨cs, h1⟩
    apply hkeep
    have := (hrem cat hcat).2
    simp only at this
    omega
  refine ⟨?_, ?_⟩
  · rw [hev 0, if_neg (fun h => h.1.1 rfl)]
    exact hinv.1
  · intro cs h0 h1 hle
    rw [hloc cs h1 hle, hev cs]
    by_cases hc : CategorySet.Count cs = s + 1
    · rw [if_pos ⟨⟨h0, h1⟩, hc⟩]
    · rw [if_neg (fun h => hc h.2)]
      exact hinv.2 cs h0 h1 (by omega)

theorem Compute_sizes :
    ∀ (n s : Nat) (t : Table), ComputeInv s t →
      ∃ t1, (List.range' (s + 1) n).foldlM
          (fun t size => Compute_size AllDice
            ((List.range NumCategories).map fun cat => AllDice.map fun d => scoreValue d cat)
            t size) t = some t1 ∧ ComputeInv (s + n) t1
  | 0, s, t, h => ⟨t, rfl, h⟩
  | n + 1, s, t, h => by
    obtain ⟨t1, ht1, hev⟩ := Compute_size_eq t (s + 1)
    obtain ⟨t2, ht2, hinv⟩ := Compute_sizes n (s + 1) t1 (ComputeInv_step s t t1 h hev)
    refine ⟨t2, ?_, by rw [show s + (n + 1) = s + 1 + n by omega]; exact hinv⟩
    rw [List.range'_succ, List.foldlM_cons, ht1]
    exact ht2

/-- The table `Compute` returns: entry 0 is 0 and every other entry within the 9
categories satisfies the recurrence on the final table. -/
theorem Compute_table :
    ∃ t, Compute = some t ∧ t.ev 0 = 0 ∧ ∀ cs, cs ≠ 0 → cs < 512 → t.ev cs = evOf t cs := by
  have hbase : ComputeInv 0 NewTable := by
    refine ⟨rfl, ?_⟩
    intro cs h0 h1 hle
    obtain ⟨hne, _, _⟩ := CategorySet_facts ⟨cs, h1⟩
    have := (hne h0).2
    simp only at this
    omega
  obtain ⟨t, ht, hinv⟩ := Compute_sizes 9 0 NewTable hbase
  refine ⟨t, ?_, hinv.1, ?_⟩
  · have hc : Compute = (Compute_scoreTab AllDice).bind fun scoreTab =>
        (List.range' 1 NumCategories).foldlM
          (fun t size => Compute_size AllDice scoreTab t size) NewTable := rfl
    rw [hc, Compute_scoreTab_eq, Option.some_bind]
    exact ht
  · intro cs h0 h1
    obtain ⟨_, h9, _⟩ := CategorySet_facts ⟨cs, h1⟩
    exact hinv.2 cs h0 h1 (by simpa using h9)

/-! ## The recurrence -/

/-- C14: the table `t` returned by `Compute` satisfies the recurrence at its final
values: for every non-empty category set `cs` within the 9 categories,
`t[cs] = sum over the 126 outcomes d of FirstRollProb(d) * v2[d]`, where `v0[d]` is the
maximum over `c` in `cs` of `Score(d, c) + t[cs without c]`, `v1 = rerollLayer(v0)` and
`v2 = rerollLayer(v1)`. -/
theorem Compute_recurrence :
    ∃ t, Compute = some t ∧
      ∀ cs : CategorySet, 0 < cs → cs ≤ AllCategories →
        ∃ v0 v1 v2 : List ℚ,
          (v0.length = 126 ∧ IsLayer0 t cs v0) ∧
          (v1.length = 126 ∧ IsRerollLayer v0 v1) ∧
          (v2.length = 126 ∧ IsRerollLayer v1 v2) ∧
          t.EV cs = some (firstRollExpectation v2) := by
  obtain ⟨t, ht, _, hrec⟩ := Compute_table
  refine ⟨t, ht, ?_⟩
  intro cs hpos hle
  have h0 : cs ≠ 0 := Nat.pos_iff_ne_zero.1 hpos
  have h1 : cs < 512 := Nat.lt_succ_of_le hle
  obtain ⟨hl0, hs0⟩ := layer0Of_spec t cs h0 h1
  obtain ⟨_, hl1, hs1⟩ := rerollLayerOf_spec (layer0Of t cs) hl0
  obtain ⟨_, hl2, hs2⟩ := rerollLayerOf_spec (rerollLayerOf (layer0Of t cs)) hl1
  refine ⟨_, _, _, ⟨hl0, hs0⟩, ⟨hl1, hs1⟩, ⟨hl2, hs2⟩, ?_⟩
  have hlt : cs < tableSize := h1
  rw [Table.EV, if_pos hlt, hrec cs h0 h1]
  rfl

theorem Compute_recurrence_witness :
    ∃ t, Compute = some t ∧
      ∃ v0 v1 v2 : List ℚ,
        (v0.length = 126 ∧ IsLayer0 t 8 v0) ∧
        (v1.length = 126 ∧ IsRerollLayer v0 v1) ∧
        (v2.length = 126 ∧ IsRerollLayer v1 v2) ∧
        t.EV 8 = some (firstRollExpectation v2) := by
  obtain ⟨t, ht, h⟩ := Compute_recurrence
  exact ⟨t, ht, h 8 (by decide) (by decide)⟩

/-- C15: the table returned by `Compute` has `EV(∅) = 0` exactly; no pass of the dynamic
program writes entry 0. -/
theorem Compute_empty_zero :
    (∃ t, Compute = some t ∧ t.EV 0 = some 0) ∧
    ∀ (t : Table) (size : Nat), ∃ scoreTab t1, Compute_scoreTab AllDice = some scoreTab ∧
      Compute_size AllDice scoreTab t size = some t1 ∧ t1.ev 0 = t.ev 0 := by
  constructor
  · obtain ⟨t, ht, hz, _⟩ := Compute_table
    refine ⟨t, ht, ?_⟩
    have hlt : (0 : Nat) < tableSize := by decide
    rw [Table.EV, if_pos hlt, hz]
  · intro t size
    obtain ⟨t1, ht1, hev⟩ := Compute_size_eq t size
    refine ⟨_, t1, Compute_scoreTab_eq, ht1, ?_⟩
    rw [hev 0, if_neg (fun h => h.1.1 rfl)]

/-! ## Monotonicity of the table -/

set_option maxRecDepth 100000 in
theorem FirstRollProb_nonneg : ∀ i : Fin 126, 0 ≤ (FirstRollProb i.val).getD 0 := by decide!

set_option maxRecDepth 100000 in
theorem CategorySet_add_facts :
    ∀ (cs : Fin 512) (c : Fin 9), CategorySet.Has cs.val c.val = false →
      CategorySet.Add cs.val c.val < 512 ∧ CategorySet.Add cs.val c.val ≠ 0 ∧
      CategorySet.Remove (CategorySet.Add cs.val c.val) c.val = cs.val ∧
      c.val ∈ CategorySet.ForEach (CategorySet.Add cs.val c.val) ∧
      ∀ c2 ∈ CategorySet.ForEach cs.val,
        c2 ∈ CategorySet.ForEach (CategorySet.Add cs.val c.val) ∧
        CategorySet.Remove (CategorySet.Add cs.val c.val) c2 =
          CategorySet.Add (CategorySet.Remove cs.val c2) c.val ∧
        CategorySet.Has (CategorySet.Remove cs.val c2) c.val = false := by
  decide!

theorem getD_of_getElem_some (l : List ℚ) (i : Nat) (v : ℚ) (h : l[i]? = some v) : l.getD i 0 = v := by
  rw [List.getD_eq_getElem?_getD, h]
  rfl

theorem getElem_some_getD (l : List ℚ) (i : Nat) (h : i < l.length) : l[i]? = some (l.getD i 0) := by
  rw [List.getD_eq_getElem?_getD, List.getElem?_eq_getElem h]
  rfl

/-- A reroll layer is monotone in the layer below it. -/
theorem rerollLayerOf_mono (a b : List ℚ) (ha : a.length = 126) (hb : b.length = 126)
    (h : ∀ i, i < 126 → a.getD i 0 ≤ b.getD i 0) :
    ∀ i, i < 126 → (rerollLayerOf a).getD i 0 ≤ (rerollLayerOf b).getD i 0 := by
  intro i hi
  obtain ⟨_, _, hsa⟩ := rerollLayerOf_spec a ha
  obtain ⟨_, _, hsb⟩ := rerollLayerOf_spec b hb
  obtain ⟨va, hva, hga⟩ := hsa i _ (AllDice_getD i hi)
  obtain ⟨vb, hvb, hgb⟩ := hsb i _ (AllDice_getD i hi)
  rw [getD_of_getElem_some _ i va hva, getD_of_getElem_some _ i vb hvb]
  rcases hga.1 with hx | ⟨k, hk1, hk2, hk3⟩
  · have hx2 : a[i]? = some va := hx
    have e := getD_of_getElem_some a i va hx2
    rw [← e]
    exact le_trans (h i hi) (hgb.2 (Or.inl (getElem_some_getD b i (by omega))))
  · obtain ⟨outs, _, _, _, hv⟩ := keepValue_some b (by omega) k (by omega)
    exact le_trans (keepValue_mono a b (by omega) (by omega) h k (by omega) _ _ hk3 hv)
      (hgb.2 (Or.inr ⟨k, hk1, hk2, hv⟩))

/-- A reroll layer is pointwise at least the layer below it. -/
theorem rerollLayerOf_ge (a : List ℚ) (ha : a.length = 126) :
    ∀ i, i < 126 → a.getD i 0 ≤ (rerollLayerOf a).getD i 0 := by
  intro i hi
  obtain ⟨_, _, hsa⟩ := rerollLayerOf_spec a ha
  obtain ⟨va, hva, hga⟩ := hsa i _ (AllDice_getD i hi)
  rw [getD_of_getElem_some _ i va hva]
  exact hga.2 (Or.inl (getElem_some_getD a i (by omega)))

theorem firstRollExpectation_mono (a b : List ℚ)
    (h : ∀ i, i < 126 → a.getD i 0 ≤ b.getD i 0) :
    firstRollExpectation a ≤ firstRollExpectation b := by
  unfold firstRollExpectation
  apply List.sum_le_sum
  intro i hi
  have hi2 : i < 126 := List.mem_range.1 hi
  exact mul_le_mul_of_nonneg_left (h i hi2) (FirstRollProb_nonneg ⟨i, hi2⟩)

theorem firstRollExpectation_nonneg (a : List ℚ) (h : ∀ i, i < 126 → 0 ≤ a.getD i 0) :
    0 ≤ firstRollExpectation a := by
  unfold firstRollExpectation
  apply List.sum_nonneg
  intro x hx
  obtain ⟨i, hi, rfl⟩ := List.mem_map.1 hx
  have hi2 : i < 126 := List.mem_range.1 hi
  exact mul_nonneg (FirstRollProb_nonneg ⟨i, hi2⟩) (h i hi2)

theorem layer0Of_getD (t : Table) (cs : CategorySet) (i : Nat) (hi : i < 126) :
    (layer0Of t cs).getD i 0 = layer0Value t cs (AllDice.getD i Dice.zero) := by
  apply getD_of_getElem_some
  unfold layer0Of
  rw [List.getElem?_map, List.getElem?_range hi]
  rfl

/-- Monotonicity of the stored value in the layer-0 values. -/
theorem evOf_mono (t : Table) (cs cs2 : CategorySet)
    (h : ∀ d, layer0Value t cs d ≤ layer0Value t cs2 d) : evOf t cs ≤ evOf t cs2 := by
  have hl : ∀ cs, (layer0Of t cs).length = 126 := fun cs => by simp [layer0Of]
  have h0 : ∀ i, i < 126 → (layer0Of t cs).getD i 0 ≤ (layer0Of t cs2).getD i 0 := by
    intro i hi
    rw [layer0Of_getD t cs i hi, layer0Of_getD t cs2 i hi]
    exact h _
  have hl1 : ∀ cs, (rerollLayerOf (layer0Of t cs)).length = 126 := fun cs =>
    (rerollLayerOf_spec _ (hl cs)).2.1
  have h1 := rerollLayerOf_mono _ _ (hl cs) (hl cs2) h0
  have h2 := rerollLayerOf_mono _ _ (hl1 cs) (hl1 cs2) h1
  exact firstRollExpectation_mono _ _ h2

theorem evOf_nonneg (t : Table) (cs : CategorySet) (h : ∀ d, 0 ≤ layer0Value t cs d) :
    0 ≤ evOf t cs := by
  have hl : (layer0Of t cs).length = 126 := by simp [layer0Of]
  have hl1 : (rerollLayerOf (layer0Of t cs)).length = 126 := (rerollLayerOf_spec _ hl).2.1
  apply firstRollExpectation_nonneg
  intro i hi
  have h0 : 0 ≤ (layer0Of t cs).getD i 0 := by
    rw [layer0Of_getD t cs i hi]
    exact h _
  exact le_trans (le_trans h0 (rerollLayerOf_ge _ hl i hi)) (rerollLayerOf_ge _ hl1 i hi)

/-- The layer-0 value dominates each of its candidates and is one of them. -/
theorem layer0Value_facts (t : Table) (cs : CategorySet) (h0 : cs ≠ 0) (h1 : cs < 512) (d : Dice) :
    (∀ c ∈ CategorySet.ForEach cs,
      scoreValue d c + t.ev (CategorySet.Remove cs c) ≤ layer0Value t cs d) ∧
    ∃ c ∈ CategorySet.ForEach cs,
      layer0Value t cs d = scoreValue d c + t.ev (CategorySet.Remove cs c) := by
  obtain ⟨hne, _, _⟩ := CategorySet_facts ⟨cs, h1⟩
  obtain ⟨v, hv, hall, c, hc, he⟩ := foldl_bestVal_none
    (fun c => scoreValue d c + t.ev (CategorySet.Remove cs c)) _ (hne h0).1
  have hlv : layer0Value t cs d = v := by
    unfold layer0Value
    rw [hv]
    rfl
  rw [hlv]
  exact ⟨hall, c, hc, he⟩

theorem Compute_mono_aux (t : Table) (hz : t.ev 0 = 0)
    (hrec : ∀ cs, cs ≠ 0 → cs < 512 → t.ev cs = evOf t cs) :
    ∀ (n : Nat) (cs : Nat), CategorySet.Count cs = n → cs < 512 →
      ∀ c, c < 9 → CategorySet.Has cs c = false → t.ev cs ≤ t.ev (CategorySet.Add cs c) := by
  intro n
  induction n using Nat.strong_induction_on with
  | _ n ih =>
    intro cs hcount h1 c hc hhas
    obtain ⟨ha1, ha0, harem, hamem, hafe⟩ := CategorySet_add_facts ⟨cs, h1⟩ ⟨c, hc⟩ hhas
    simp only at ha1 ha0 harem hamem hafe
    rw [hrec _ ha0 ha1]
    by_cases h0 : cs = 0
    · subst h0
      rw [hz]
      apply evOf_nonneg
      intro d
      obtain ⟨hall, _⟩ := layer0Value_facts t _ ha0 ha1 d
      have := hall c hamem
      rw [harem, hz, add_zero] at this
      exact le_trans (scoreFloat_eq d c hc).2.1 this
    · rw [hrec cs h0 h1]
      apply evOf_mono
      intro d
      obtain ⟨_, c2, hc2, he⟩ := layer0Value_facts t cs h0 h1 d
      obtain ⟨hall, _⟩ := layer0Value_facts t _ ha0 ha1 d
      obtain ⟨hm, hr, hh⟩ := hafe c2 hc2
      obtain ⟨_, _, hrem⟩ := CategorySet_facts ⟨cs, h1⟩
      obtain ⟨hr1, hrc⟩ := hrem c2 hc2
      simp only at hr1 hrc
      have hstep := ih (CategorySet.Count (CategorySet.Remove cs c2)) (by omega)
        (CategorySet.Remove cs c2) rfl hr1 c hc hh
      have := hall c2 hm
      rw [hr] at this
      rw [he]
      exact le_trans (add_le_add_left hstep _) this

/-- C16: the table returned by `Compute` is monotone in the category set: for every
category set `cs` within the 9 categories and every category `c < 9` not in `cs`,
`EV(cs.Add(c)) >= EV(cs)`, in exact arithmetic. -/
theorem Compute_monotone :
    ∃ t, Compute = some t ∧
      ∀ (cs : CategorySet) (c : Category), cs ≤ AllCategories → c < NumCategories →
        CategorySet.Has cs c = false →
        ∃ a b, t.EV cs = some a ∧ t.EV (CategorySet.Add cs c) = some b ∧ a ≤ b := by
  obtain ⟨t, ht, hz, hrec⟩ := Compute_table
  refine ⟨t, ht, ?_⟩
  intro cs c hle hc hhas
  have h1 : cs < 512 := Nat.lt_succ_of_le hle
  obtain ⟨ha1, _⟩ := CategorySet_add_facts ⟨cs, h1⟩ ⟨c, hc⟩ hhas
  have hlt : cs < tableSize := h1
  have hlt2 : CategorySet.Add cs c < tableSize := ha1
  refine ⟨t.ev cs, t.ev (CategorySet.Add cs c), ?_, ?_, ?_⟩
  · rw [Table.EV, if_pos hlt]
  · rw [Table.EV, if_pos hlt2]
  · exact Compute_mono_aux t hz hrec _ cs rfl h1 c hc hhas

theorem Compute_monotone_witness :
    ∃ t, Compute = some t ∧
      ∃ a b, t.EV 8 = some a ∧ t.EV (CategorySet.Add 8 8) = some b ∧ a ≤ b := by
  obtain ⟨t, ht, h⟩ := Compute_monotone
  exact ⟨t, ht, h 8 8 (by decide) (by decide) (by decide)⟩

/-! ## Scoring recommendations -/

theorem foldlM_some {α β : Type} (f : β → α → Option β) :
    ∀ (l : List α) (init : β), (∀ b, ∀ a ∈ l, ∃ b2, f b a = some b2) →
      ∃ r, l.foldlM f init = some r
  | [], init, _ => ⟨init, rfl⟩
  | a :: l, init, h => by
    obtain ⟨b2, hb2⟩ := h init a (List.mem_cons_self a l)
    obtain ⟨r, hr⟩ := foldlM_some f l b2 (fun b c hc => h b c (List.mem_cons_of_mem a hc))
    exact ⟨r, by rw [List.foldlM_cons, hb2]; exact hr⟩

theorem maxCategoryScore_some (c : Category) (hc : c < NumCategories) :
    ∃ m, maxCategoryScore c = some m := by
  have hc9 : c < 9 := hc
  interval_cases c <;> exact ⟨_, rfl⟩

theorem sumMaxScores_some (cs : CategorySet) : ∃ v, sumMaxScores cs = some v := by
  apply foldlM_some
  intro b c hc
  obtain ⟨m, hm⟩ := maxCategoryScore_some c ((mem_ForEach cs c).1 hc).1
  exact ⟨b + (m : ℚ), by simp [hm]⟩

theorem theoreticalMax_some (dice : Dice) (rollsLeft : Int) (cs : CategorySet) :
    ∃ v, theoreticalMax dice rollsLeft cs = some v := by
  unfold theoreticalMax
  by_cases hr : rollsLeft > 0
  · rw [if_pos hr]
    exact sumMaxScores_some cs
  · rw [if_neg hr]
    apply foldlM_some
    intro b c hc
    obtain ⟨hsc, _, _⟩ := scoreFloat_eq dice c ((mem_ForEach cs c).1 hc).1
    obtain ⟨v, hv⟩ := sumMaxScores_some (CategorySet.Remove cs c)
    by_cases hgt : scoreValue dice c + v > b
    · exact ⟨scoreValue dice c + v, by simp [hsc, hv, hgt]⟩
    · exact ⟨b, by simp [hsc, hv, hgt]⟩

theorem insertionSortLessFunc_inner_perm {α : Type} (less : α → α → Bool) (x : α) :
    ∀ l : List α, (insertionSortLessFunc_inner less x l).Perm (x :: l)
  | [] => List.Perm.refl _
  | p :: ps => by
    unfold insertionSortLessFunc_inner
    by_cases h : less x p = true
    · rw [if_pos h]
      exact ((insertionSortLessFunc_inner_perm less x ps).cons p).trans (List.Perm.swap x p ps)
    · rw [if_neg h]

theorem insertionSortLessFunc_fold_perm {α : Type} (less : α → α → Bool) :
    ∀ (l acc : List α),
      (l.foldl (fun sortedRev x => insertionSortLessFunc_inner less x sortedRev) acc).Perm
        (l.reverse ++ acc)
  | [], acc => by simp
  | x :: l, acc => by
    rw [List.foldl_cons]
    refine (insertionSortLessFunc_fold_perm less l _).trans ?_
    rw [List.reverse_cons, List.append_assoc]
    exact (insertionSortLessFunc_inner_perm less x acc).append_left _

theorem insertionSortLessFunc_perm {α : Type} (less : α → α → Bool) (l : List α) :
    (insertionSortLessFunc less l).Perm l := by
  unfold insertionSortLessFunc
  refine (List.reverse_perm _).trans ?_
  refine (insertionSortLessFunc_fold_perm less l []).trans ?_
  rw [List.append_nil]
  exact List.reverse_perm l

theorem sortSlice_short (pdq : (α : Type) → (α → α → Bool) → List α → List α) {α : Type}
    (less : α → α → Bool) (l : List α) (h : l.length ≤ 12) :
    sortSlice pdq less l = insertionSortLessFunc less l := by
  unfold sortSlice
  rw [if_pos h]

/-- The order of the sorted prefix while it is held last element first. -/
theorem optionSort_inner (x : CategoryOption) :
    ∀ l : List CategoryOption, l.Pairwise (fun a b => optionBefore b a) →
      (∀ p ∈ l, p.Category < x.Category) →
      (insertionSortLessFunc_inner (fun a b => decide (a.TotalValue > b.TotalValue)) x l).Pairwise
        (fun a b => optionBefore b a)
  | [], _, _ => by simp [insertionSortLessFunc_inner]
  | p :: ps, hl, hx => by
    obtain ⟨hp, hps⟩ := List.pairwise_cons.1 hl
    unfold insertionSortLessFunc_inner
    by_cases h : x.TotalValue > p.TotalValue
    · rw [if_pos (by simpa using h)]
      refine List.pairwise_cons.2 ⟨?_, optionSort_inner x ps hps
        (fun q hq => hx q (List.mem_cons_of_mem p hq))⟩
      intro y hy
      rcases List.mem_cons.1 ((insertionSortLessFunc_inner_perm _ x ps).subset hy) with rfl | hmem
      · exact Or.inl h
      · exact hp y hmem
    · rw [if_neg (by simpa using h)]
      refine List.pairwise_cons.2 ⟨?_, hl⟩
      have hle : x.TotalValue ≤ p.TotalValue := not_lt.1 h
      intro y hy
      have hcat : y.Category < x.Category := hx y hy
      have hval : x.TotalValue ≤ y.TotalValue := by
        rcases List.mem_cons.1 hy with rfl | hmem
        · exact hle
        · rcases hp y hmem with h1 | ⟨h1, _⟩
          · exact le_trans hle (le_of_lt h1)
          · rw [h1]; exact hle
      rcases lt_or_eq_of_le hval with h1 | h1
      · exact Or.inl h1
      · exact Or.inr ⟨h1.symm, hcat⟩

theorem optionSort_fold :
    ∀ (l acc : List CategoryOption), acc.Pairwise (fun a b => optionBefore b a) →
      l.Pairwise (fun a b => a.Category < b.Category) →
      (∀ a ∈ acc, ∀ x ∈ l, a.Category < x.Category) →
      (l.foldl (fun sortedRev x =>
        insertionSortLessFunc_inner (fun a b => decide (a.TotalValue > b.TotalValue)) x sortedRev)
        acc).Pairwise (fun a b => optionBefore b a)
  | [], acc, hacc, _, _ => hacc
  | x :: l, acc, hacc, hl, hlt => by
    obtain ⟨hx, hl2⟩ := List.pairwise_cons.1 hl
    rw [List.foldl_cons]
    apply optionSort_fold l _ (optionSort_inner x acc hacc
      (fun p hp => hlt p hp x (List.mem_cons_self x l))) hl2
    intro a ha y hy
    rcases List.mem_cons.1 ((insertionSortLessFunc_inner_perm _ x acc).subset ha) with rfl | hmem
    · exact hx y hy
    · exact hlt a hmem y (List.mem_cons_of_mem x hy)

/-- Insertion sort puts options listed in ascending category order into descending order
of total value, ties staying in ascending category order. -/
theorem optionSort_sorted (l : List CategoryOption)
    (hl : l.Pairwise (fun a b => a.Category < b.Category)) :
    (insertionSortLessFunc (fun a b => decide (a.TotalValue > b.TotalValue)) l).Pairwise
      optionBefore := by
  unfold insertionSortLessFunc
  rw [List.pairwise_reverse]
  exact optionSort_fold l [] List.Pairwise.nil hl (fun a ha => absurd ha (List.not_mem_nil a))

theorem scoreInt_eq (d : Dice) (c : Category) (hc : c < NumCategories) :
    Score d c = Except.ok (scoreInt d c) ∧ 0 ≤ scoreInt d c := by
  obtain ⟨v, hv, hnn⟩ := Score_ok d c hc
  have h : scoreInt d c = v := by simp [scoreInt, hv]
  rw [h]
  exact ⟨hv, hnn⟩

theorem solveScoring_step_eq (dice : Dice) (cs : CategorySet) (table : Table) (h1 : cs < 512)
    (st : ScoringState) (c : Category) (hc : c ∈ CategorySet.ForEach cs) :
    solveScoring_step dice cs table st c =
      some (match st.bestVal with
        | none => ⟨st.options ++ [optionOf dice cs table c],
            some (optionOf dice cs table c).TotalValue, c⟩
        | some b =>
          if (optionOf dice cs table c).TotalValue > b then
            ⟨st.options ++ [optionOf dice cs table c],
              some (optionOf dice cs table c).TotalValue, c⟩
          else ⟨st.options ++ [optionOf dice cs table c], some b, st.bestCat⟩) := by
  obtain ⟨hsc, _⟩ := scoreInt_eq dice c ((mem_ForEach cs c).1 hc).1
  obtain ⟨_, _, hrem⟩ := CategorySet_facts ⟨cs, h1⟩
  have hlt : CategorySet.Remove cs c < tableSize := (hrem c hc).1
  unfold solveScoring_step
  simp only [hsc, Table.EV, if_pos hlt, Option.bind_eq_bind, Option.some_bind, optionOf]
  cases st.bestVal with
  | none => rfl
  | some b =>
    by_cases hgt : (scoreInt dice c : ℚ) + table.ev (CategorySet.Remove cs c) > b
    · simp only [if_pos hgt]
      rfl
    · simp only [if_neg hgt]
      rfl

/-- The state `solveScoring` reaches over a list of categories in ascending order. -/
theorem solveScoring_fold (dice : Dice) (cs : CategorySet) (table : Table) (h1 : cs < 512) :
    ∀ (l : List Category) (st : ScoringState), (∀ c ∈ l, c ∈ CategorySet.ForEach cs) →
      l.Pairwise (· < ·) →
      ∃ st2, l.foldlM (solveScoring_step dice cs table) st = some st2 ∧
        st2.options = st.options ++ l.map (optionOf dice cs table) ∧
        ((st2.bestVal = st.bestVal ∧ st2.bestCat = st.bestCat ∧
            (st.bestVal = none → l = []) ∧
            ∀ b, st.bestVal = some b → ∀ c ∈ l, (optionOf dice cs table c).TotalValue ≤ b) ∨
          ∃ v, st2.bestVal = some v ∧ st2.bestCat ∈ l ∧
            (optionOf dice cs table st2.bestCat).TotalValue = v ∧
            (∀ c ∈ l, (optionOf dice cs table c).TotalValue ≤ v) ∧
            (∀ c ∈ l, (optionOf dice cs table c).TotalValue = v → st2.bestCat ≤ c) ∧
            ∀ b, st.bestVal = some b → b < v)
  | [], st, _, _ => ⟨st, rfl, by simp, Or.inl ⟨rfl, rfl, fun _ => rfl, by simp⟩⟩
  | c :: l, st, hmem, hpw => by
    obtain ⟨hc, hl⟩ := List.pairwise_cons.1 hpw
    have hmem2 : ∀ c2 ∈ l, c2 ∈ CategorySet.ForEach cs := fun c2 h2 =>
      hmem c2 (List.mem_cons_of_mem c h2)
    rw [List.foldlM_cons, solveScoring_step_eq dice cs table h1 st c
      (hmem c (List.mem_cons_self c l))]
    simp only [Option.bind_eq_bind, Option.some_bind]
    -- the state after the callback for `c`
    have key : ∀ (st1 : ScoringState),
        st1.options = st.options ++ [optionOf dice cs table c] →
        (st1.bestVal = some (optionOf dice cs table c).TotalValue ∧ st1.bestCat = c ∧
            (∀ b, st.bestVal = some b → b < (optionOf dice cs table c).TotalValue) ∨
          (∃ b, st.bestVal = some b ∧ st1.bestVal = some b ∧ st1.bestCat = st.bestCat ∧
            (optionOf dice cs table c).TotalValue ≤ b)) →
        ∃ st2, l.foldlM (solveScoring_step dice cs table) st1 = some st2 ∧
          st2.options = st.options ++ (c :: l).map (optionOf dice cs table) ∧
          ((st2.bestVal = st.bestVal ∧ st2.bestCat = st.bestCat ∧
              (st.bestVal = none → c :: l = []) ∧
              ∀ b, st.bestVal = some b → ∀ c2 ∈ c :: l,
                (optionOf dice cs table c2).TotalValue ≤ b) ∨
            ∃ v, st2.bestVal = some v ∧ st2.bestCat ∈ c :: l ∧
              (optionOf dice cs table st2.bestCat).TotalValue = v ∧
              (∀ c2 ∈ c :: l, (optionOf dice cs table c2).TotalValue ≤ v) ∧
              (∀ c2 ∈ c :: l, (optionOf dice cs table c2).TotalValue = v → st2.bestCat ≤ c2) ∧
              ∀ b, st.bestVal = some b → b < v) := by
      intro st1 hopt hbest
      obtain ⟨st2, hf, ho, hres⟩ := solveScoring_fold dice cs table h1 l st1 hmem2 hl
      refine ⟨st2, hf, by rw [ho, hopt]; simp, ?_⟩
      rcases hbest with ⟨hv1, hc1, hlt1⟩ | ⟨b, hb0, hb1, hc1, hle1⟩
      · -- `c` became the best
        rcases hres with ⟨e1, e2, _, e4⟩ | ⟨v, e1, e2, e3, e4, e5, e6⟩
        · refine Or.inr ⟨_, e1.trans hv1, by rw [e2, hc1]; exact List.mem_cons_self c l,
            by rw [e2, hc1], ?_, ?_, hlt1⟩
          · intro c2 h2
            rcases List.mem_cons.1 h2 with rfl | h3
            · exact le_refl _
            · exact e4 _ hv1 c2 h3
          · intro c2 h2 _
            rw [e2, hc1]
            rcases List.mem_cons.1 h2 with rfl | h3
            · exact le_refl _
            · exact le_of_lt (hc c2 h3)
        · have hlt : (optionOf dice cs table c).TotalValue < v := e6 _ hv1
          refine Or.inr ⟨v, e1, List.mem_cons_of_mem c e2, e3, ?_, ?_, ?_⟩
          · intro c2 h2
            rcases List.mem_cons.1 h2 with rfl | h3
            · exact le_of_lt hlt
            · exact e4 c2 h3
          · intro c2 h2 hv
            rcases List.mem_cons.1 h2 with rfl | h3
            · exact absurd hv (ne_of_lt hlt)
            · exact e5 c2 h3 hv
          · intro b hb
            exact lt_trans (hlt1 b hb) hlt
      · -- the best is unchanged by `c`
        rcases hres with ⟨e1, e2, _, e4⟩ | ⟨v, e1, e2, e3, e4, e5, e6⟩
        · refine Or.inl ⟨by rw [e1, hb1, hb0], by rw [e2, hc1], ?_, ?_⟩
          · intro hn
            rw [hb0] at hn
            cases hn
          · intro b2 hb2 c2 h2
            rw [hb0] at hb2
            cases hb2
            rcases List.mem_cons.1 h2 with rfl | h3
            · exact hle1
            · exact e4 b hb1 c2 h3
        · have hlt : b < v := e6 b hb1
          refine Or.inr ⟨v, e1, List.mem_cons_of_mem c e2, e3, ?_, ?_, ?_⟩
          · intro c2 h2
            rcases List.mem_cons.1 h2 with rfl | h3
            · exact le_trans hle1 (le_of_lt hlt)
            · exact e4 c2 h3
          · intro c2 h2 hv
            rcases List.mem_cons.1 h2 with rfl | h3
            · exact absurd hv (ne_of_lt (lt_of_le_of_lt hle1 hlt))
            · exact e5 c2 h3 hv
          · intro b2 hb2
            rw [hb0] at hb2
            cases hb2
            exact hlt
    obtain ⟨st1, hst1, hopt, hbest⟩ : ∃ st1 : ScoringState,
        (match st.bestVal with
          | none => (⟨st.options ++ [optionOf dice cs table c],
              some (optionOf dice cs table c).TotalValue, c⟩ : ScoringState)
          | some b =>
            if (optionOf dice cs table c).TotalValue > b then
              ⟨st.options ++ [optionOf dice cs table c],
                some (optionOf dice cs table c).TotalValue, c⟩
            else ⟨st.options ++ [optionOf dice cs table c], some b, st.bestCat⟩) = st1 ∧
        st1.options = st.options ++ [optionOf dice cs table c] ∧
        (st1.bestVal = some (optionOf dice cs table c).TotalValue ∧ st1.bestCat = c ∧
            (∀ b, st.bestVal = some b → b < (optionOf dice cs table c).TotalValue) ∨
          (∃ b, st.bestVal = some b ∧ st1.bestVal = some b ∧ st1.bestCat = st.bestCat ∧
            (optionOf dice cs table c).TotalValue ≤ b)) := by
      cases hbv : st.bestVal with
      | none => exact ⟨_, rfl, rfl, Or.inl ⟨rfl, rfl, fun b hb => by cases hb⟩⟩
      | some b =>
        by_cases hgt : (optionOf dice cs table c).TotalValue > b
        · simp only [if_pos hgt]
          exact ⟨_, rfl, rfl, Or.inl ⟨rfl, rfl, fun b2 hb2 => by cases hb2; exact hgt⟩⟩
        · simp only [if_neg hgt]
          exact ⟨_, rfl, rfl, Or.inr ⟨b, rfl, rfl, rfl, not_lt.1 hgt⟩⟩
    rw [hst1]
    exact key st1 hopt hbest

theorem ForEach_pairwise (cs : CategorySet) : (CategorySet.ForEach cs).Pairwise (· < ·) :=
  (List.pairwise_lt_range NumCategories).sublist (List.filter_sublist _)

theorem ForEach_length (cs : CategorySet) : (CategorySet.ForEach cs).length ≤ 9 := by
  unfold CategorySet.ForEach
  exact le_trans (List.length_filter_le _ _) (by simp [NumCategories])

/-- What `solveScoring` returns for a non-empty category set within the 9 categories. -/
theorem solveScoring_spec (pdq : (α : Type) → (α → α → Bool) → List α → List α) (dice : Dice)
    (cs : CategorySet) (table : Table) (h0 : cs ≠ 0) (h1 : cs < 512) :
    ∃ r, solveScoring pdq dice cs table = some r ∧
      r.BestAction.ActType = ActionType.ScoreAction ∧ r.TopRerollOptions = [] ∧
      r.CategoryOptions =
        insertionSortLessFunc (fun a b => decide (a.TotalValue > b.TotalValue))
          ((CategorySet.ForEach cs).map (optionOf dice cs table)) ∧
      r.BestAction.Category ∈ CategorySet.ForEach cs ∧
      (optionOf dice cs table r.BestAction.Category).TotalValue = r.BestAction.EV ∧
      (∀ c ∈ CategorySet.ForEach cs, (optionOf dice cs table c).TotalValue ≤ r.BestAction.EV) ∧
      (∀ c ∈ CategorySet.ForEach cs, (optionOf dice cs table c).TotalValue = r.BestAction.EV →
        r.BestAction.Category ≤ c) := by
  obtain ⟨st, hf, ho, hres⟩ := solveScoring_fold dice cs table h1 (CategorySet.ForEach cs)
    ⟨[], none, 0⟩ (fun c hc => hc) (ForEach_pairwise cs)
  obtain ⟨hne, _, _⟩ := CategorySet_facts ⟨cs, h1⟩
  obtain ⟨tm, htm⟩ := theoreticalMax_some dice 0 cs
  rcases hres with ⟨_, _, e3, _⟩ | ⟨v, e1, e2, e3, e4, e5, _⟩
  · exact absurd (e3 rfl) (hne h0).1
  · have hlen : st.options.length ≤ 12 := by
      rw [ho]
      have := ForEach_length cs
      simp only [List.nil_append, List.length_map]
      omega
    refine ⟨⟨⟨ActionType.ScoreAction, Dice.zero, st.bestCat, v⟩, tm,
      insertionSortLessFunc (fun a b => decide (a.TotalValue > b.TotalValue)) st.options, []⟩,
      ?_, rfl, rfl, ?_, e2, e3, e4, e5⟩
    · unfold solveScoring
      simp only [hf, e1, htm, Option.bind_eq_bind, Option.some_bind, sortSlice_short pdq _ _ hlen]
      rfl
    · show insertionSortLessFunc _ st.options = _
      rw [ho, List.nil_append]

theorem optionOf_pairwise (dice : Dice) (cs : CategorySet) (table : Table) :
    ((CategorySet.ForEach cs).map (optionOf dice cs table)).Pairwise
      (fun a b => a.Category < b.Category) := by
  rw [List.pairwise_map]
  exact ForEach_pairwise cs

/-- C17: for every dice `d`, table `t` and non-empty category set `cs` within the 9
categories, `Solve(d, 0, cs, t)` returns a ScoreAction whose `CategoryOptions` has exactly
one entry per category `c` in `cs`, with `ImmediateScore = Score(d, c)`,
`FutureEV = t[cs without c]` and `TotalValue = ImmediateScore + FutureEV`, and whose
`BestAction.Category` is a member of `cs` attaining the maximum `TotalValue`, with
`BestAction.EV` equal to that maximum. -/
theorem Solve_scoring_options (pdq : (α : Type) → (α → α → Bool) → List α → List α)
    (d : Dice) (t : Table) (cs : CategorySet) (h0 : 0 < cs) (h1 : cs ≤ AllCategories) :
    ∃ r, Solve pdq d 0 cs t = some r ∧
      r.BestAction.ActType = ActionType.ScoreAction ∧
      (r.CategoryOptions.map CategoryOption.Category).Perm (CategorySet.ForEach cs) ∧
      (∀ c, c ∈ CategorySet.ForEach cs ↔ c < NumCategories ∧ CategorySet.Has cs c = true) ∧
      (∀ o ∈ r.CategoryOptions,
        Score d o.Category = Except.ok o.ImmediateScore ∧
        t.EV (CategorySet.Remove cs o.Category) = some o.FutureEV ∧
        o.TotalValue = (o.ImmediateScore : ℚ) + o.FutureEV) ∧
      (r.BestAction.Category < NumCategories ∧
        CategorySet.Has cs r.BestAction.Category = true) ∧
      (∃ o ∈ r.CategoryOptions, o.Category = r.BestAction.Category ∧
        o.TotalValue = r.BestAction.EV) ∧
      ∀ o ∈ r.CategoryOptions, o.TotalValue ≤ r.BestAction.EV := by
  have hne : cs ≠ 0 := Nat.pos_iff_ne_zero.1 h0
  have hlt : cs < 512 := Nat.lt_succ_of_le h1
  obtain ⟨r, hr, ha, _, hopts, hbc, hbv, hmax, _⟩ := solveScoring_spec pdq d cs t hne hlt
  have hperm : r.CategoryOptions.Perm ((CategorySet.ForEach cs).map (optionOf d cs t)) := by
    rw [hopts]
    exact insertionSortLessFunc_perm _ _
  have hmemo : ∀ o ∈ r.CategoryOptions, ∃ c ∈ CategorySet.ForEach cs, o = optionOf d cs t c := by
    intro o ho
    obtain ⟨c, hc, rfl⟩ := List.mem_map.1 (hperm.subset ho)
    exact ⟨c, hc, rfl⟩
  refine ⟨r, by simp only [Solve, if_true]; exact hr, ha, ?_, mem_ForEach cs, ?_,
    (mem_ForEach cs _).1 hbc, ?_, ?_⟩
  · have := hperm.map CategoryOption.Category
    rw [List.map_map] at this
    refine this.trans ?_
    have hid : (CategoryOption.Category ∘ optionOf d cs t) = id := rfl
    rw [hid, List.map_id]
  · intro o ho
    obtain ⟨c, hc, rfl⟩ := hmemo o ho
    obtain ⟨_, _, hrem⟩ := CategorySet_facts ⟨cs, hlt⟩
    have hl : CategorySet.Remove cs c < tableSize := (hrem c hc).1
    refine ⟨(scoreInt_eq d c ((mem_ForEach cs c).1 hc).1).1, ?_, rfl⟩
    show t.EV (CategorySet.Remove cs c) = some (t.ev (CategorySet.Remove cs c))
    rw [Table.EV, if_pos hl]
  · exact ⟨optionOf d cs t r.BestAction.Category,
      hperm.symm.subset (List.mem_map_of_mem _ hbc), rfl, hbv⟩
  · intro o ho
    obtain ⟨c, hc, rfl⟩ := hmemo o ho
    exact hmax c hc

theorem Solve_scoring_options_witness :
    ∃ r, Solve (fun _ _ l => l) ⟨0, 0, 0, 5, 0⟩ 0 AllCategories NewTable = some r ∧
      r.BestAction.ActType = ActionType.ScoreAction ∧
      (r.CategoryOptions.map CategoryOption.Category).Perm (CategorySet.ForEach AllCategories) ∧
      (∀ c, c ∈ CategorySet.ForEach AllCategories ↔
        c < NumCategories ∧ CategorySet.Has AllCategories c = true) ∧
      (∀ o ∈ r.CategoryOptions,
        Score ⟨0, 0, 0, 5, 0⟩ o.Category = Except.ok o.ImmediateScore ∧
        NewTable.EV (CategorySet.Remove AllCategories o.Category) = some o.FutureEV ∧
        o.TotalValue = (o.ImmediateScore : ℚ) + o.FutureEV) ∧
      (r.BestAction.Category < NumCategories ∧
        CategorySet.Has AllCategories r.BestAction.Category = true) ∧
      (∃ o ∈ r.CategoryOptions, o.Category = r.BestAction.Category ∧
        o.TotalValue = r.BestAction.EV) ∧
      ∀ o ∈ r.CategoryOptions, o.TotalValue ≤ r.BestAction.EV :=
  Solve_scoring_options (fun _ _ l => l) ⟨0, 0, 0, 5, 0⟩ NewTable AllCategories
    (by decide) (by decide)

/-- The options `solveScoring` returns are in order, and the first one is the option of
the recommended category. -/
theorem solveScoring_head (pdq : (α : Type) → (α → α → Bool) → List α → List α) (d : Dice)
    (cs : CategorySet) (t : Table) (hne : cs ≠ 0) (hlt : cs < 512) (r : Recommendation)
    (hr : solveScoring pdq d cs t = some r) :
    r.CategoryOptions.Pairwise optionBefore ∧
      r.CategoryOptions.head? = some (optionOf d cs t r.BestAction.Category) := by
  obtain ⟨r2, hr2, _, _, hopts, hbc, hbv, hmax, hleast⟩ := solveScoring_spec pdq d cs t hne hlt
  rw [hr] at hr2
  cases hr2
  have hperm : r.CategoryOptions.Perm ((CategorySet.ForEach cs).map (optionOf d cs t)) := by
    rw [hopts]
    exact insertionSortLessFunc_perm _ _
  have hsorted : r.CategoryOptions.Pairwise optionBefore := by
    rw [hopts]
    exact optionSort_sorted _ (optionOf_pairwise d cs t)
  refine ⟨hsorted, ?_⟩
  have hbest : optionOf d cs t r.BestAction.Category ∈ r.CategoryOptions :=
    hperm.symm.subset (List.mem_map_of_mem _ hbc)
  rcases hco : r.CategoryOptions with _ | ⟨o, rest⟩
  · rw [hco] at hbest
    exact absurd hbest (List.not_mem_nil _)
  · rw [hco] at hbest hsorted hperm
    obtain ⟨c0, hc0, ho⟩ := List.mem_map.1 (hperm.subset (List.mem_cons_self o rest))
    rcases List.mem_cons.1 hbest with he | hin
    · rw [← he]
      rfl
    · have hb := (List.pairwise_cons.1 hsorted).1 _ hin
      rw [← ho] at hb
      have hle := hmax c0 hc0
      rcases hb with hgt | ⟨heq, hcat⟩
      · have hgt2 : (optionOf d cs t c0).TotalValue >
            (optionOf d cs t r.BestAction.Category).TotalValue := hgt
        rw [hbv] at hgt2
        exact absurd hle (not_le.2 hgt2)
      · have heq2 : (optionOf d cs t c0).TotalValue =
            (optionOf d cs t r.BestAction.Category).TotalValue := heq
        rw [hbv] at heq2
        have h3 := hleast c0 hc0 heq2
        have hcat2 : c0 < r.BestAction.Category := hcat
        exact absurd h3 (not_le.2 hcat2)

/-- C18 as stated fails: the category set 513 is non-empty (it holds Jumbleberry) but
also has bit 9 set; `Solve` reads `table.EV(512)`, outside the 512-entry table, and
panics instead of returning sorted options. -/
theorem Solve_scoring_out_of_range :
    ¬ ∃ r, Solve (fun _ _ l => l) ⟨0, 0, 0, 5, 0⟩ 0 513 NewTable = some r := by
  have h : Solve (fun _ _ l => l) ⟨0, 0, 0, 5, 0⟩ 0 513 NewTable = none := by decide!
  rintro ⟨r, hr⟩
  rw [h] at hr
  cases hr

/-- C18, amended: for every dice `d`, table `t` and non-empty category set `cs` within
the 9 categories, the `CategoryOptions` returned by `Solve(d, 0, cs, t)` are ordered by
non-increasing `TotalValue`, options with equal `TotalValue` appear in ascending
category order, and the first option's `Category` equals `BestAction.Category`. -/
theorem Solve_scoring_sorted (pdq : (α : Type) → (α → α → Bool) → List α → List α)
    (d : Dice) (t : Table) (cs : CategorySet) (h0 : 0 < cs) (h1 : cs ≤ AllCategories) :
    ∃ r, Solve pdq d 0 cs t = some r ∧
      r.CategoryOptions.Pairwise (fun a b =>
        a.TotalValue > b.TotalValue ∨
          (a.TotalValue = b.TotalValue ∧ a.Category < b.Category)) ∧
      ∃ o, r.CategoryOptions.head? = some o ∧ o.Category = r.BestAction.Category := by
  have hne : cs ≠ 0 := Nat.pos_iff_ne_zero.1 h0
  have hlt : cs < 512 := Nat.lt_succ_of_le h1
  obtain ⟨r, hr, _⟩ := solveScoring_spec pdq d cs t hne hlt
  obtain ⟨hsorted, hhead⟩ := solveScoring_head pdq d cs t hne hlt r hr
  exact ⟨r, by simp only [Solve, if_true]; exact hr, hsorted, _, hhead, rfl⟩

theorem Solve_scoring_sorted_witness :
    ∃ r, Solve (fun _ _ l => l) ⟨0, 0, 0, 5, 0⟩ 0 AllCategories NewTable = some r ∧
      r.CategoryOptions.Pairwise (fun a b =>
        a.TotalValue > b.TotalValue ∨
          (a.TotalValue = b.TotalValue ∧ a.Category < b.Category)) ∧
      ∃ o, r.CategoryOptions.head? = some o ∧ o.Category = r.BestAction.Category :=
  Solve_scoring_sorted (fun _ _ l => l) ⟨0, 0, 0, 5, 0⟩ NewTable AllCategories
    (by decide) (by decide)

/-- C19 as stated fails: with a table that values the set without Jumbleberry at 100 and
every other set at 0, `Solve` on five Moonberries with all categories left recommends
Jumbleberry (total 0 + 100), not Moonberry (total 35 + 0). -/
theorem Solve_five_moonberries_other_table :
    ¬ ∃ r, Solve (fun _ _ l => l) ⟨0, 0, 0, 5, 0⟩ 0 AllCategories tableWithoutJumbleberry =
        some r ∧ r.BestAction.Category = CatMoonberry := by
  have h : (Solve (fun _ _ l => l) ⟨0, 0, 0, 5, 0⟩ 0 AllCategories
      tableWithoutJumbleberry).map (fun r => r.BestAction.Category) = some CatJumbleberry := by
    decide!
  rintro ⟨r, hr, hc⟩
  rw [hr] at h
  simp only [Option.map_some', Option.some.injEq] at h
  rw [hc] at h
  exact absurd h (by decide)

/-- C19, amended: for every EV table `t` in which scoring Moonberry is the first best
choice for five Moonberries, that is `35 + t[All without Moonberry]` exceeds
`t[All without c]` for `c` Jumbleberry, Sugarberry, Pickleberry, is at least
`t[All without Mixed Basket]`, and `t[All without Moonberry] >= t[All without c]` for `c`
Basket of Three, Four, Five and Free Roll, `Solve` with dice `{J:0,S:0,P:0,M:5,X:0}`,
`rollsLeft = 0` and `cs = AllCategories` returns a ScoreAction whose Category is
CatMoonberry, and the recommended option has ImmediateScore 35. -/
theorem Solve_five_moonberries (pdq : (α : Type) → (α → α → Bool) → List α → List α)
    (t : Table)
    (hJ : t.ev (CategorySet.Remove AllCategories CatJumbleberry) <
      35 + t.ev (CategorySet.Remove AllCategories CatMoonberry))
    (hS : t.ev (CategorySet.Remove AllCategories CatSugarberry) <
      35 + t.ev (CategorySet.Remove AllCategories CatMoonberry))
    (hP : t.ev (CategorySet.Remove AllCategories CatPickleberry) <
      35 + t.ev (CategorySet.Remove AllCategories CatMoonberry))
    (h3 : t.ev (CategorySet.Remove AllCategories CatBasketOfThree) ≤
      t.ev (CategorySet.Remove AllCategories CatMoonberry))
    (h4 : t.ev (CategorySet.Remove AllCategories CatBasketOfFour) ≤
      t.ev (CategorySet.Remove AllCategories CatMoonberry))
    (h5 : t.ev (CategorySet.Remove AllCategories CatBasketOfFive) ≤
      t.ev (CategorySet.Remove AllCategories CatMoonberry))
    (hM : t.ev (CategorySet.Remove AllCategories CatMixedBasket) ≤
      35 + t.ev (CategorySet.Remove AllCategories CatMoonberry))
    (hF : t.ev (CategorySet.Remove AllCategories CatFreeRoll) ≤
      t.ev (CategorySet.Remove AllCategories CatMoonberry)) :
    ∃ r, Solve pdq ⟨0, 0, 0, 5, 0⟩ 0 AllCategories t = some r ∧
      r.BestAction.ActType = ActionType.ScoreAction ∧
      r.BestAction.Category = CatMoonberry ∧
      ∃ o, r.CategoryOptions.head? = some o ∧ o.Category = CatMoonberry ∧
        o.ImmediateScore = 35 := by
  obtain ⟨r, hr, ha, _, hopts, hbc, hbv, hmax, hleast⟩ :=
    solveScoring_spec pdq ⟨0, 0, 0, 5, 0⟩ AllCategories t (by decide) (by decide)
  have hfe : CategorySet.ForEach AllCategories = [0, 1, 2, 3, 4, 5, 6, 7, 8] := by decide
  have htot : ∀ c, (optionOf ⟨0, 0, 0, 5, 0⟩ AllCategories t c).TotalValue =
      (scoreInt ⟨0, 0, 0, 5, 0⟩ c : ℚ) + t.ev (CategorySet.Remove AllCategories c) :=
    fun c => rfl
  have hsc : scoreInt ⟨0, 0, 0, 5, 0⟩ 0 = 0 ∧ scoreInt ⟨0, 0, 0, 5, 0⟩ 1 = 0 ∧
      scoreInt ⟨0, 0, 0, 5, 0⟩ 2 = 0 ∧ scoreInt ⟨0, 0, 0, 5, 0⟩ 3 = 35 ∧
      scoreInt ⟨0, 0, 0, 5, 0⟩ 4 = 35 ∧ scoreInt ⟨0, 0, 0, 5, 0⟩ 5 = 35 ∧
      scoreInt ⟨0, 0, 0, 5, 0⟩ 6 = 35 ∧ scoreInt ⟨0, 0, 0, 5, 0⟩ 7 = 0 ∧
      scoreInt ⟨0, 0, 0, 5, 0⟩ 8 = 35 := by decide
  obtain ⟨s0, s1, s2, s3, s4, s5, s6, s7, s8⟩ := hsc
  have hmoon : (optionOf ⟨0, 0, 0, 5, 0⟩ AllCategories t 3).TotalValue =
      35 + t.ev (CategorySet.Remove AllCategories CatMoonberry) := by
    rw [htot, s3]
    norm_num [CatMoonberry]
  -- Moonberry attains the maximum
  have hle3 : (optionOf ⟨0, 0, 0, 5, 0⟩ AllCategories t 3).TotalValue ≤ r.BestAction.EV :=
    hmax 3 (by rw [hfe]; decide)
  have hall : ∀ c ∈ CategorySet.ForEach AllCategories,
      (optionOf ⟨0, 0, 0, 5, 0⟩ AllCategories t c).TotalValue ≤
        35 + t.ev (CategorySet.Remove AllCategories CatMoonberry) ∧
      (c < 3 → (optionOf ⟨0, 0, 0, 5, 0⟩ AllCategories t c).TotalValue <
        35 + t.ev (CategorySet.Remove AllCategories CatMoonberry)) := by
    intro c hc
    rw [hfe] at hc
    simp only [List.mem_cons, List.mem_singleton, List.not_mem_nil, or_false] at hc
    simp only [CatJumbleberry, CatSugarberry, CatPickleberry, CatMoonberry, CatBasketOfThree,
      CatBasketOfFour, CatBasketOfFive, CatMixedBasket, CatFreeRoll] at *
    rcases hc with rfl | rfl | rfl | rfl | rfl | rfl | rfl | rfl | rfl
    · rw [htot, s0]; constructor
      · push_cast; linarith
      · intro _; push_cast; linarith
    · rw [htot, s1]; constructor
      · push_cast; linarith
      · intro _; push_cast; linarith
    · rw [htot, s2]; constructor
      · push_cast; linarith
      · intro _; push_cast; linarith
    · rw [htot, s3]; constructor
      · push_cast; linarith
      · intro h; exact absurd h (by decide)
    · rw [htot, s4]; constructor
      · push_cast; linarith
      · intro h; exact absurd h (by decide)
    · rw [htot, s5]; constructor
      · push_cast; linarith
      · intro h; exact absurd h (by decide)
    · rw [htot, s6]; constructor
      · push_cast; linarith
      · intro h; exact absurd h (by decide)
    · rw [htot, s7]; constructor
      · push_cast; linarith
      · intro h; exact absurd h (by decide)
    · rw [htot, s8]; constructor
      · push_cast; linarith
      · intro h; exact absurd h (by decide)
  have hev : r.BestAction.EV = 35 + t.ev (CategorySet.Remove AllCategories CatMoonberry) := by
    apply le_antisymm
    · rw [← hbv]
      exact (hall _ hbc).1
    · rw [← hmoon]
      exact hle3
  have hcat : r.BestAction.Category = 3 := by
    have hle : r.BestAction.Category ≤ 3 := hleast 3 (by rw [hfe]; decide) (by rw [hmoon, hev])
    rcases Nat.lt_or_eq_of_le hle with hlt | heq
    · have := (hall _ hbc).2 hlt
      rw [hbv, hev] at this
      exact absurd this (lt_irrefl _)
    · exact heq
  obtain ⟨_, hhead⟩ := solveScoring_head pdq ⟨0, 0, 0, 5, 0⟩ AllCategories t (by decide)
    (by decide) r hr
  rw [hcat] at hhead
  exact ⟨r, by simp only [Solve, if_true]; exact hr, ha, hcat, _, hhead, rfl, s3⟩

theorem Solve_five_moonberries_witness :
    ∃ r, Solve (fun _ _ l => l) ⟨0, 0, 0, 5, 0⟩ 0 AllCategories NewTable = some r ∧
      r.BestAction.ActType = ActionType.ScoreAction ∧
      r.BestAction.Category = CatMoonberry ∧
      ∃ o, r.CategoryOptions.head? = some o ∧ o.Category = CatMoonberry ∧
        o.ImmediateScore = 35 :=
  Solve_five_moonberries (fun _ _ l => l) NewTable (by simp [NewTable]) (by simp [NewTable])
    (by simp [NewTable]) (by simp [NewTable]) (by simp [NewTable]) (by simp [NewTable])
    (by simp [NewTable]) (by simp [NewTable])

/-! ## Reroll recommendations -/

theorem map_eq_range_map {α β : Type} (f : α → β) (l : List α) (dflt : α) :
    l.map f = (List.range l.length).map fun i => f (l.getD i dflt) := by
  apply List.ext_getElem?
  intro i
  by_cases hi : i < l.length
  · rw [List.getElem?_map, List.getElem?_map, List.getElem?_range hi,
      List.getElem?_eq_getElem hi]
    simp only [Option.map_some', List.getD_eq_getElem?_getD, List.getElem?_eq_getElem hi,
      Option.getD_some]
  · rw [List.getElem?_map, List.getElem?_map, List.getElem?_eq_none (by omega),
      List.getElem?_eq_none (by simp; omega)]
    rfl

theorem solveReroll_v0_eq (t : Table) (cs : CategorySet) (h0 : cs ≠ 0) (h1 : cs < 512) :
    solveReroll_v0 AllDice cs t = some (layer0Of t cs) := by
  have hlen : AllDice.length = 126 := by rfl
  have hmap : layer0Of t cs = AllDice.map (layer0Value t cs) := by
    rw [map_eq_range_map (layer0Value t cs) AllDice Dice.zero, hlen]
    rfl
  rw [hmap]
  unfold solveReroll_v0
  apply mapM_eq_some_map
  intro d _
  have hfold := foldlM_bestVal
    (fun bestVal cat => do
      let sc ← scoreFloat d cat
      let fut ← t.EV (CategorySet.Remove cs cat)
      pure (bestValStep bestVal (sc + fut)))
    (fun c => scoreValue d c + t.ev (CategorySet.Remove cs c))
    (CategorySet.ForEach cs) none
    (by
      intro b c hc
      obtain ⟨hc9, _⟩ := (mem_ForEach cs c).1 hc
      obtain ⟨_, _, hrem⟩ := CategorySet_facts ⟨cs, h1⟩
      have hlt : CategorySet.Remove cs c < tableSize := (hrem c hc).1
      simp only [(scoreFloat_eq d c hc9).1, Table.EV, if_pos hlt, Option.bind_eq_bind,
        Option.some_bind, Option.pure_def])
  simp only [Option.bind_eq_bind] at hfold ⊢
  rw [hfold, (layer0Value_some t cs h0 h1 _).1]
  rfl

theorem solveReroll_layers_eq (t : Table) (cs : CategorySet) (h0 : cs ≠ 0) (h1 : cs < 512) :
    ∀ r : Nat, solveReroll_layers AllDice (layer0Of t cs) r = some (layerOf t cs r) ∧
      (layerOf t cs r).length = 126 ∧ IsLayer t cs r (layerOf t cs r)
  | 0 => by
    obtain ⟨hl, hs⟩ := layer0Of_spec t cs h0 h1
    exact ⟨rfl, hl, hl, hs⟩
  | r + 1 => by
    obtain ⟨he, hl, hs⟩ := solveReroll_layers_eq t cs h0 h1 r
    obtain ⟨hc, hl2, hs2⟩ := rerollLayerOf_spec (layerOf t cs r) hl
    have hlen : AllDice.length = 126 := by rfl
    refine ⟨?_, hl2, hl2, _, hs, hs2⟩
    unfold solveReroll_layers
    rw [he, hlen]
    exact hc

/-- The state `solveReroll` reaches over a list of keep decisions. -/
theorem solveReroll_fold (prev : List ℚ) :
    ∀ (l : List (Dice × Nat)) (st : RerollState),
      (∀ c ∈ l, c.2 ≠ 5 → ∃ e, rerollEV prev c.1 c.2 = some e) →
      ∃ st2, l.foldlM (solveReroll_step prev) st = some st2 ∧
        ((st2.bestEV = st.bestEV ∧ st2.bestKeep = st.bestKeep ∧
            (st.bestEV = none → ∀ c ∈ l, c.2 = 5) ∧
            ∀ b, st.bestEV = some b → ∀ c ∈ l, c.2 ≠ 5 →
              ∀ e, rerollEV prev c.1 c.2 = some e → e ≤ b) ∨
          ∃ v c, c ∈ l ∧ c.2 ≠ 5 ∧ st2.bestEV = some v ∧ st2.bestKeep = c.1 ∧
            rerollEV prev c.1 c.2 = some v ∧
            (∀ c2 ∈ l, c2.2 ≠ 5 → ∀ e, rerollEV prev c2.1 c2.2 = some e → e ≤ v) ∧
            ∀ b, st.bestEV = some b → b < v)
  | [], st, _ => ⟨st, rfl, Or.inl ⟨rfl, rfl, by simp, by simp⟩⟩
  | c :: l, st, htot => by
    have htot2 : ∀ c2 ∈ l, c2.2 ≠ 5 → ∃ e, rerollEV prev c2.1 c2.2 = some e :=
      fun c2 h2 => htot c2 (List.mem_cons_of_mem c h2)
    rw [List.foldlM_cons]
    by_cases hc5 : c.2 = 5
    · -- keep everything: the callback returns at once
      have hstep : solveReroll_step prev st c = some st := by
        unfold solveReroll_step
        have : ((NumDice : Int) - (c.2 : Int)) = 0 := by rw [hc5]; rfl
        simp only [this, if_true]
        rfl
      rw [hstep]
      obtain ⟨st2, hf, hres⟩ := solveReroll_fold prev l st htot2
      refine ⟨st2, hf, ?_⟩
      rcases hres with ⟨e1, e2, e3, e4⟩ | ⟨v, c2, m1, m2, m3, m4, m5, m6, m7⟩
      · refine Or.inl ⟨e1, e2, ?_, ?_⟩
        · intro hn c2 h2
          rcases List.mem_cons.1 h2 with rfl | h3
          · exact hc5
          · exact e3 hn c2 h3
        · intro b hb c2 h2 hne e he
          rcases List.mem_cons.1 h2 with rfl | h3
          · exact absurd hc5 hne
          · exact e4 b hb c2 h3 hne e he
      · refine Or.inr ⟨v, c2, List.mem_cons_of_mem c m1, m2, m3, m4, m5, ?_, m7⟩
        intro c3 h3 hne e he
        rcases List.mem_cons.1 h3 with rfl | h4
        · exact absurd hc5 hne
        · exact m6 c3 h4 hne e he
    · obtain ⟨e, he⟩ := htot c (List.mem_cons_self c l) hc5
      have hnz : ¬ ((NumDice : Int) - (c.2 : Int)) = 0 := by
        intro h
        apply hc5
        have h5 : (NumDice : Int) = 5 := rfl
        rw [h5] at h
        omega
      obtain ⟨st1, hst1, hbest⟩ : ∃ st1 : RerollState,
          solveReroll_step prev st c = some st1 ∧
          (st1.bestEV = some e ∧ st1.bestKeep = c.1 ∧ (∀ b, st.bestEV = some b → b < e) ∨
            (∃ b, st.bestEV = some b ∧ st1.bestEV = some b ∧ st1.bestKeep = st.bestKeep ∧
              e ≤ b)) := by
        unfold solveReroll_step
        simp only [hnz, if_false, he, Option.bind_eq_bind, Option.some_bind]
        cases hbv : st.bestEV with
        | none => exact ⟨_, rfl, Or.inl ⟨rfl, rfl, fun b hb => by cases hb⟩⟩
        | some b =>
          by_cases hgt : e > b
          · simp only [if_pos hgt]
            exact ⟨_, rfl, Or.inl ⟨rfl, rfl, fun b2 hb2 => by cases hb2; exact hgt⟩⟩
          · simp only [if_neg hgt]
            exact ⟨_, rfl, Or.inr ⟨b, rfl, rfl, rfl, not_lt.1 hgt⟩⟩
      rw [hst1]
      obtain ⟨st2, hf, hres⟩ := solveReroll_fold prev l st1 htot2
      refine ⟨st2, hf, ?_⟩
      rcases hbest with ⟨hv1, hk1, hlt1⟩ | ⟨b, hb0, hb1, hk1, hle1⟩
      · rcases hres with ⟨e1, e2, _, e4⟩ | ⟨v, c2, m1, m2, m3, m4, m5, m6, m7⟩
        · refine Or.inr ⟨e, c, List.mem_cons_self c l, hc5, e1.trans hv1, e2.trans hk1, he,
            ?_, hlt1⟩
          intro c3 h3 hne e3 he3
          rcases List.mem_cons.1 h3 with rfl | h4
          · rw [he] at he3
            cases he3
            exact le_refl _
          · exact e4 e hv1 c3 h4 hne e3 he3
        · have hlt : e < v := m7 e hv1
          refine Or.inr ⟨v, c2, List.mem_cons_of_mem c m1, m2, m3, m4, m5, ?_, ?_⟩
          · intro c3 h3 hne e3 he3
            rcases List.mem_cons.1 h3 with rfl | h4
            · rw [he] at he3
              cases he3
              exact le_of_lt hlt
            · exact m6 c3 h4 hne e3 he3
          · intro b hb
            exact lt_trans (hlt1 b hb) hlt
      · rcases hres with ⟨e1, e2, _, e4⟩ | ⟨v, c2, m1, m2, m3, m4, m5, m6, m7⟩
        · refine Or.inl ⟨by rw [e1, hb1, hb0], by rw [e2, hk1], ?_, ?_⟩
          · intro hn
            rw [hb0] at hn
            cases hn
          · intro b2 hb2 c3 h3 hne e3 he3
            rw [hb0] at hb2
            cases hb2
            rcases List.mem_cons.1 h3 with rfl | h4
            · rw [he] at he3
              cases he3
              exact hle1
            · exact e4 b hb1 c3 h4 hne e3 he3
        · have hlt : b < v := m7 b hb1
          refine Or.inr ⟨v, c2, List.mem_cons_of_mem c m1, m2, m3, m4, m5, ?_, ?_⟩
          · intro c3 h3 hne e3 he3
            rcases List.mem_cons.1 h3 with rfl | h4
            · rw [he] at he3
              cases he3
              exact le_trans hle1 (le_of_lt hlt)
            · exact m6 c3 h4 hne e3 he3
          · intro b2 hb2
            rw [hb0] at hb2
            cases hb2
            exact hlt

/-- What `solveReroll` returns for a 5-dice outcome, at least one reroll left and a
non-empty category set within the 9 categories. -/
theorem solveReroll_spec (pdq : (α : Type) → (α → α → Bool) → List α → List α) (d : Dice)
    (hd : d.size = 5) (rollsLeft : Int) (hr : 1 ≤ rollsLeft) (cs : CategorySet) (h0 : cs ≠ 0)
    (h1 : cs < 512) (t : Table) :
    ∃ (sr : Recommendation) (k : Dice) (v : ℚ),
      solveScoring pdq d cs t = some sr ∧
      k.IsKeepOf d ∧ k.size < 5 ∧
      keepValue (layerOf t cs (rollsLeft - 1).toNat) k = some v ∧
      (∀ k2 : Dice, k2.IsKeepOf d → k2.size < 5 →
        ∀ e, keepValue (layerOf t cs (rollsLeft - 1).toNat) k2 = some e → e ≤ v) ∧
      (v ≤ sr.BestAction.EV → solveReroll pdq d rollsLeft cs t = some sr) ∧
      (sr.BestAction.EV < v → ∃ r, solveReroll pdq d rollsLeft cs t = some r ∧
        r.BestAction = ⟨ActionType.RerollAction, k, 0, v⟩) := by
  have hsz : d.J + d.S + d.P + d.M + d.X = 5 := hd
  obtain ⟨hlay, hlen, _⟩ := solveReroll_layers_eq t cs h0 h1 (rollsLeft - 1).toNat
  have hkeeps : EnumerateKeeps d = some (keepCalls d 5 0 Dice.zero 0) :=
    EnumerateKeeps_rec_eq d (by omega) 5 0 Dice.zero 0
  have hcall : ∀ c ∈ keepCalls d 5 0 Dice.zero 0,
      c.1.IsKeepOf d ∧ c.2 = c.1.size ∧ c.1.size ≤ 5 := by
    intro c hc
    obtain ⟨h1, h2⟩ := (mem_keepCalls d c.1 c.2).1 hc
    refine ⟨h1, h2, ?_⟩
    obtain ⟨a1, a2, a3, a4, a5⟩ := h1
    simp only [Dice.size]
    omega
  have hev : ∀ c ∈ keepCalls d 5 0 Dice.zero 0,
      rerollEV (layerOf t cs (rollsLeft - 1).toNat) c.1 c.2 =
        keepValue (layerOf t cs (rollsLeft - 1).toNat) c.1 := by
    intro c hc
    obtain ⟨_, h2, h3⟩ := hcall c hc
    rw [h2]
    exact rerollEV_eq_keepValue _ c.1 h3
  have htot : ∀ c ∈ keepCalls d 5 0 Dice.zero 0, c.2 ≠ 5 →
      ∃ e, rerollEV (layerOf t cs (rollsLeft - 1).toNat) c.1 c.2 = some e := by
    intro c hc _
    obtain ⟨_, _, h3⟩ := hcall c hc
    obtain ⟨outs, _, _, _, hv⟩ := keepValue_some _ (le_of_eq hlen.symm) c.1 h3
    exact ⟨_, (hev c hc).trans hv⟩
  obtain ⟨st, hf, hres⟩ := solveReroll_fold (layerOf t cs (rollsLeft - 1).toNat) _
    ⟨[], none, Dice.zero⟩ htot
  obtain ⟨sr, hsr, _⟩ := solveScoring_spec pdq d cs t h0 h1
  obtain ⟨tm, htm⟩ := theoreticalMax_some d rollsLeft cs
  have hnot : ¬ rollsLeft ≤ 0 := by omega
  have hunfold : solveReroll pdq d rollsLeft cs t =
      (match st.bestEV with
        | none => some sr
        | some bestEV =>
          if sr.BestAction.EV ≥ bestEV then some sr
          else some ⟨⟨ActionType.RerollAction, st.bestKeep, 0, bestEV⟩, tm, [],
            (sortSlice pdq (fun a b => decide (a.EV > b.EV)) st.allOptions).take
              (if st.allOptions.length < 10 then st.allOptions.length else 10)⟩) := by
    unfold solveReroll
    simp only [solveReroll_v0_eq t cs h0 h1, hlay, hkeeps, hf, hsr, htm, if_neg hnot,
      Option.bind_eq_bind, Option.some_bind, Option.pure_def]
  rcases hres with ⟨_, _, e3, _⟩ | ⟨v, c, m1, m2, m3, m4, m5, m6, _⟩
  · -- impossible: keeping nothing is a keep decision that rerolls
    have hzero : ((Dice.zero, 0) : Dice × Nat) ∈ keepCalls d 5 0 Dice.zero 0 :=
      (mem_keepCalls d Dice.zero 0).2 ⟨⟨Nat.zero_le _, Nat.zero_le _, Nat.zero_le _,
        Nat.zero_le _, Nat.zero_le _⟩, rfl⟩
    have := e3 rfl _ hzero
    exact absurd this (by decide)
  · obtain ⟨hk1, hk2, hk3⟩ := hcall c m1
    refine ⟨sr, c.1, v, hsr, hk1, by omega, (hev c m1).symm.trans m5, ?_, ?_, ?_⟩
    · intro k2 hk hs e he
      have hmem : (k2, k2.size) ∈ keepCalls d 5 0 Dice.zero 0 :=
        (mem_keepCalls d k2 k2.size).2 ⟨hk, rfl⟩
      have hne : (k2, k2.size).2 ≠ 5 := by
        show k2.size ≠ 5
        omega
      exact m6 _ hmem hne e ((hev _ hmem).trans he)
    · intro hle
      rw [hunfold, m3]
      simp only [ge_iff_le, if_pos hle]
    · intro hlt
      rw [hunfold, m3]
      simp only [ge_iff_le, if_neg (not_le.2 hlt)]
      exact ⟨_, rfl, by rw [m4]⟩

/-- The value `solveScoring` reports is the layer-0 value of the dice. -/
theorem solveScoring_best (pdq : (α : Type) → (α → α → Bool) → List α → List α) (d : Dice)
    (cs : CategorySet) (t : Table) (h0 : cs ≠ 0) (h1 : cs < 512) (r : Recommendation)
    (hr : solveScoring pdq d cs t = some r) :
    r.BestAction.ActType = ActionType.ScoreAction ∧ IsLayer0Value t cs d r.BestAction.EV := by
  obtain ⟨r2, hr2, ha, _, _, hbc, hbv, hmax, _⟩ := solveScoring_spec pdq d cs t h0 h1
  rw [hr] at hr2
  cases hr2
  refine ⟨ha, ?_, ?_⟩
  · obtain ⟨hc9, hhas⟩ := (mem_ForEach cs _).1 hbc
    exact ⟨r.BestAction.Category, hc9, hhas, scoreInt d r.BestAction.Category,
      (scoreInt_eq d _ hc9).1, hbv.symm⟩
  · rintro x ⟨c, hc9, hhas, s, hs, rfl⟩
    have hsi := (scoreInt_eq d c hc9).1
    rw [hs] at hsi
    cases hsi
    exact hmax c ((mem_ForEach cs c).2 ⟨hc9, hhas⟩)

/-- C20 as stated fails: the category set 513 is non-empty (it holds Jumbleberry) but
also has bit 9 set; building the scoring layer reads `table.EV(512)`, outside the
512-entry table, and `Solve` panics instead of returning an action. -/
theorem Solve_reroll_out_of_range :
    ¬ ∃ r, Solve (fun _ _ l => l) ⟨2, 1, 1, 1, 0⟩ 1 513 NewTable = some r := by
  have h : Solve (fun _ _ l => l) ⟨2, 1, 1, 1, 0⟩ 1 513 NewTable = none := by decide!
  rintro ⟨r, hr⟩
  rw [h] at hr
  cases hr

/-- C20, amended: for every 5-dice outcome `d`, `rollsLeft` in 1, 2, non-empty category
set `cs` within the 9 categories and table `t`, `Solve(d, rollsLeft, cs, t)` returns a
ScoreAction exactly when the best immediate-score total (the maximum over `c` in `cs` of
`Score(d, c) + t[cs without c]`) is at least the best expected value, against the layer
with `rollsLeft - 1` rerolls left, over all keep decisions that reroll at least one die;
otherwise it returns a RerollAction whose EV is that best reroll value and whose Keep is
a sub-multiset of `d` with fewer than 5 dice attaining it. Ties go to scoring. -/
theorem Solve_reroll_decision (pdq : (α : Type) → (α → α → Bool) → List α → List α)
    (d : Dice) (hd : d.J + d.S + d.P + d.M + d.X = 5) (rollsLeft : Int)
    (hr : rollsLeft = 1 ∨ rollsLeft = 2) (cs : CategorySet) (h0 : 0 < cs)
    (h1 : cs ≤ AllCategories) (t : Table) :
    ∃ (prevLayer : List ℚ) (bestScore bestReroll : ℚ) (r : Recommendation),
      IsLayer t cs (rollsLeft - 1).toNat prevLayer ∧
      IsLayer0Value t cs d bestScore ∧
      IsGreatest {x | ∃ k : Dice, k.IsKeepOf d ∧ k.size < 5 ∧
        keepValue prevLayer k = some x} bestReroll ∧
      Solve pdq d rollsLeft cs t = some r ∧
      (r.BestAction.ActType = ActionType.ScoreAction ↔ bestReroll ≤ bestScore) ∧
      (bestReroll ≤ bestScore → r.BestAction.EV = bestScore) ∧
      (bestScore < bestReroll →
        r.BestAction.ActType = ActionType.RerollAction ∧ r.BestAction.EV = bestReroll ∧
        r.BestAction.Keep.IsKeepOf d ∧ r.BestAction.Keep.size < 5 ∧
        keepValue prevLayer r.BestAction.Keep = some bestReroll) := by
  have hne : cs ≠ 0 := Nat.pos_iff_ne_zero.1 h0
  have hlt : cs < 512 := Nat.lt_succ_of_le h1
  have hr1 : 1 ≤ rollsLeft := by omega
  have hnz : ¬ rollsLeft = 0 := by omega
  obtain ⟨sr, k, v, hsr, hk1, hk2, hk3, hmax, hscore, hreroll⟩ :=
    solveReroll_spec pdq d hd rollsLeft hr1 cs hne hlt t
  obtain ⟨_, _, hlayer⟩ := solveReroll_layers_eq t cs hne hlt (rollsLeft - 1).toNat
  obtain ⟨hsa, hsv⟩ := solveScoring_best pdq d cs t hne hlt sr hsr
  have hgreat : IsGreatest {x | ∃ k : Dice, k.IsKeepOf d ∧ k.size < 5 ∧
      keepValue (layerOf t cs (rollsLeft - 1).toNat) k = some x} v :=
    ⟨⟨k, hk1, hk2, hk3⟩, fun x ⟨k2, h1, h2, h3⟩ => hmax k2 h1 h2 x h3⟩
  have hsolve : Solve pdq d rollsLeft cs t = solveReroll pdq d rollsLeft cs t := by
    simp only [Solve, if_neg hnz]
  by_cases hle : v ≤ sr.BestAction.EV
  · refine ⟨_, sr.BestAction.EV, v, sr, hlayer, hsv, hgreat, by rw [hsolve]; exact hscore hle,
      ⟨fun _ => hle, fun _ => hsa⟩, fun _ => rfl, fun h => absurd hle (not_le.2 h)⟩
  · obtain ⟨r, hr2, hact⟩ := hreroll (not_le.1 hle)
    refine ⟨_, sr.BestAction.EV, v, r, hlayer, hsv, hgreat, by rw [hsolve]; exact hr2,
      ⟨fun h => ?_, fun h => absurd h hle⟩, fun h => absurd h hle, fun _ => ?_⟩
    · rw [hact] at h
      cases h
    · rw [hact]
      exact ⟨rfl, rfl, hk1, hk2, hk3⟩

theorem Solve_reroll_decision_witness :
    ∃ (prevLayer : List ℚ) (bestScore bestReroll : ℚ) (r : Recommendation),
      IsLayer NewTable 8 ((1 : Int) - 1).toNat prevLayer ∧
      IsLayer0Value NewTable 8 ⟨2, 1, 1, 1, 0⟩ bestScore ∧
      IsGreatest {x | ∃ k : Dice, k.IsKeepOf ⟨2, 1, 1, 1, 0⟩ ∧ k.size < 5 ∧
        keepValue prevLayer k = some x} bestReroll ∧
      Solve (fun _ _ l => l) ⟨2, 1, 1, 1, 0⟩ 1 8 NewTable = some r ∧
      (r.BestAction.ActType = ActionType.ScoreAction ↔ bestReroll ≤ bestScore) ∧
      (bestReroll ≤ bestScore → r.BestAction.EV = bestScore) ∧
      (bestScore < bestReroll →
        r.BestAction.ActType = ActionType.RerollAction ∧ r.BestAction.EV = bestReroll ∧
        r.BestAction.Keep.IsKeepOf ⟨2, 1, 1, 1, 0⟩ ∧ r.BestAction.Keep.size < 5 ∧
        keepValue prevLayer r.BestAction.Keep = some bestReroll) :=
  Solve_reroll_decision (fun _ _ l => l) ⟨2, 1, 1, 1, 0⟩ (by decide) 1 (Or.inl rfl) 8
    (by decide) (by decide) NewTable

/-! ## Category sets -/

theorem categoryBit_eq (c : Category) (hc : c < 16) : categoryBit c = 2 ^ c := by
  unfold categoryBit
  rw [Nat.one_shiftLeft]
  exact Nat.mod_eq_of_lt (Nat.pow_lt_pow_right (by decide) hc)

theorem Has_eq_testBit (cs : CategorySet) (c : Category) (hc : c < 16) :
    CategorySet.Has cs c = cs.testBit c := by
  unfold CategorySet.Has
  rw [categoryBit_eq c hc]
  cases h : cs.testBit c
  · have : cs &&& 2 ^ c = 0 := by
      apply Nat.eq_of_testBit_eq
      intro i
      rw [Nat.testBit_and, Nat.testBit_two_pow, Nat.zero_testBit]
      by_cases hi : c = i
      · subst hi; simp [h]
      · simp [hi]
    simp [this]
  · have : (cs &&& 2 ^ c).testBit c = true := by
      rw [Nat.testBit_and, Nat.testBit_two_pow_self, h]; rfl
    have hne : cs &&& 2 ^ c ≠ 0 := by
      intro h0
      rw [h0, Nat.zero_testBit] at this
      cases this
    simp [hne]

theorem testBit_Add (cs : CategorySet) (c : Category) (hc : c < 16) (i : Nat) :
    (CategorySet.Add cs c).testBit i = (cs.testBit i || decide (c = i)) := by
  unfold CategorySet.Add
  rw [categoryBit_eq c hc, Nat.testBit_or, Nat.testBit_two_pow]

theorem testBit_Remove (cs : CategorySet) (c : Category) (hc : c < 16) (i : Nat) :
    (CategorySet.Remove cs c).testBit i = (cs.testBit i && decide (i < 16) && !decide (c = i)) := by
  unfold CategorySet.Remove
  rw [categoryBit_eq c hc, Nat.testBit_and, Nat.testBit_xor, Nat.testBit_two_pow,
    show (65535 : Nat) = 2 ^ 16 - 1 from rfl, Nat.testBit_two_pow_sub_one]
  by_cases h2 : c = i
  · subst h2
    simp [hc]
  · by_cases h1 : i < 16 <;> simp [h1, h2]

theorem lt_512_iff (n : Nat) : n < 512 ↔ ∀ i, 9 ≤ i → n.testBit i = false := by
  constructor
  · intro h i hi
    exact Nat.testBit_lt_two_pow (lt_of_lt_of_le h (Nat.pow_le_pow_right (show 0 < 2 by decide) hi))
  · intro h
    by_contra hge
    obtain ⟨i, hi, ht⟩ := Nat.ge_two_pow_implies_high_bit_true (n := 9) (not_lt.1 hge)
    rw [h i hi] at ht
    cases ht

/-- C29: inside the 9-category universe `Add` and `Remove` are set insertion and deletion:
for `cs` in [0, 512) and categories `c`, `c2` below 9, `cs.Add(c).Has(c2)` holds iff
`c2 = c` or `cs.Has(c2)`, `cs.Remove(c).Has(c2)` holds iff `c2 != c` and `cs.Has(c2)`, and
both results lie in [0, 512). -/
theorem CategorySet_Add_Remove (cs : CategorySet) (hcs : cs < 512) (c c2 : Category)
    (hc : c < NumCategories) (hc2 : c2 < NumCategories) :
    (CategorySet.Has (CategorySet.Add cs c) c2 = true ↔
      c2 = c ∨ CategorySet.Has cs c2 = true) ∧
    (CategorySet.Has (CategorySet.Remove cs c) c2 = true ↔
      c2 ≠ c ∧ CategorySet.Has cs c2 = true) ∧
    CategorySet.Add cs c < 512 ∧ CategorySet.Remove cs c < 512 := by
  have h9 : c < 9 := hc
  have h92 : c2 < 9 := hc2
  have h16 : c < 16 := Nat.lt_of_lt_of_le h9 (by decide)
  have h162 : c2 < 16 := Nat.lt_of_lt_of_le h92 (by decide)
  refine ⟨?_, ?_, ?_, ?_⟩
  · rw [Has_eq_testBit _ c2 h162, Has_eq_testBit _ c2 h162, testBit_Add cs c h16]
    simp only [Bool.or_eq_true, decide_eq_true_eq]
    constructor
    · rintro (h | h)
      · exact Or.inr h
      · exact Or.inl h.symm
    · rintro (h | h)
      · exact Or.inr h.symm
      · exact Or.inl h
  · rw [Has_eq_testBit _ c2 h162, Has_eq_testBit _ c2 h162, testBit_Remove cs c h16]
    simp only [Bool.and_eq_true, decide_eq_true_eq, Bool.not_eq_true', decide_eq_false_iff_not]
    constructor
    · rintro ⟨⟨h, _⟩, hn⟩
      exact ⟨fun e => hn e.symm, h⟩
    · rintro ⟨hn, h⟩
      exact ⟨⟨h, h162⟩, fun e => hn e.symm⟩
  · rw [lt_512_iff]
    intro i hi
    rw [testBit_Add cs c h16, (lt_512_iff cs).1 hcs i hi]
    simp only [Bool.false_or, decide_eq_false_iff_not]
    intro e
    rw [e] at h9
    exact absurd h9 (not_lt.2 hi)
  · rw [lt_512_iff]
    intro i hi
    rw [testBit_Remove cs c h16, (lt_512_iff cs).1 hcs i hi]
    rfl

theorem CategorySet_Add_Remove_witness :
    (CategorySet.Has (CategorySet.Add 5 1) 2 = true ↔
      (2 : Category) = 1 ∨ CategorySet.Has 5 2 = true) ∧
    (CategorySet.Has (CategorySet.Remove 5 1) 2 = true ↔
      (2 : Category) ≠ 1 ∧ CategorySet.Has 5 2 = true) ∧
    CategorySet.Add 5 1 < 512 ∧ CategorySet.Remove 5 1 < 512 :=
  CategorySet_Add_Remove 5 (by decide) 1 2 (by decide) (by decide)

set_option maxRecDepth 100000 in
theorem Count_eq_length :
    ∀ cs : Fin 512, CategorySet.Count cs.val = (CategorySet.ForEach cs.val).length := by
  decide!

/-- C30: for every category set `cs` in [0, 512), `ForEach` calls `fn` exactly once for each
category `c < 9` with `cs.Has(c)` and for no other category, in strictly ascending category
order; `cs.Count()` is the number of those calls, `AllCategories.Count()` is 9 and the
empty set counts 0. -/
theorem ForEach_calls (cs : CategorySet) (hcs : cs < 512) :
    (∀ c : Category, (CategorySet.ForEach cs).count c =
      if c < NumCategories ∧ CategorySet.Has cs c = true then 1 else 0) ∧
    (CategorySet.ForEach cs).Pairwise (fun a b => a < b) ∧
    CategorySet.Count cs = (CategorySet.ForEach cs).length ∧
    CategorySet.Count AllCategories = 9 ∧ CategorySet.Count 0 = 0 := by
  have hpw := ForEach_pairwise cs
  have hnd : (CategorySet.ForEach cs).Nodup := hpw.imp (fun h => Nat.ne_of_lt h)
  refine ⟨?_, hpw, Count_eq_length ⟨cs, hcs⟩, rfl, rfl⟩
  intro c
  by_cases h : c < NumCategories ∧ CategorySet.Has cs c = true
  · rw [if_pos h]
    exact List.count_eq_one_of_mem hnd ((mem_ForEach cs c).2 h)
  · rw [if_neg h]
    exact List.count_eq_zero_of_not_mem (fun hm => h ((mem_ForEach cs c).1 hm))

theorem ForEach_calls_witness :
    (∀ c : Category, (CategorySet.ForEach 5).count c =
      if c < NumCategories ∧ CategorySet.Has 5 c = true then 1 else 0) ∧
    (CategorySet.ForEach 5).Pairwise (fun a b => a < b) ∧
    CategorySet.Count 5 = (CategorySet.ForEach 5).length ∧
    CategorySet.Count AllCategories = 9 ∧ CategorySet.Count 0 = 0 :=
  ForEach_calls 5 (by decide)

/-! ## Theoretical maximum -/

theorem Score_le_Points_branch (c : Prop) [Decidable c] (p m : Int) (h0 : 0 ≤ m) (hp : p ≤ m) :
    ∃ s : Int, (if c then (pure p : Except String Int) else pure 0) = Except.ok s ∧ s ≤ m := by
  by_cases h : c
  · exact ⟨p, by rw [if_pos h]; rfl, hp⟩
  · exact ⟨0, by rw [if_neg h]; rfl, h0⟩

/-- C25: `maxCategoryScore` is the true per-category maximum of the scoring rules over the
5-dice outcomes: no outcome scores more in category `c` than `maxCategoryScore[c]`, some
outcome scores exactly that, and the table is 10, 10, 20, 35, 35, 35, 35, 22, 35. -/
theorem maxCategoryScore_attained (c : Category) (hc : c < NumCategories) :
    ∃ m : Int, maxCategoryScore c = some m ∧
      (∀ d : Dice, d.J + d.S + d.P + d.M + d.X = 5 →
        ∃ s : Int, Score d c = Except.ok s ∧ s ≤ m) ∧
      (∃ d : Dice, d.J + d.S + d.P + d.M + d.X = 5 ∧ Score d c = Except.ok m) ∧
      (List.range NumCategories).map maxCategoryScore =
        [some 10, some 10, some 20, some 35, some 35, some 35, some 35, some 22, some 35] := by
  have hc9 : c < 9 := hc
  have hpts : ∀ d : Dice, d.J + d.S + d.P + d.M + d.X = 5 → d.Points ≤ 35 := by
    intro d hd
    rw [Dice.Points_eq]
    omega
  interval_cases c
  · refine ⟨10, rfl, ?_, ⟨⟨5, 0, 0, 0, 0⟩, rfl, rfl⟩, rfl⟩
    intro d hd
    refine ⟨_, rfl, ?_⟩
    simp only [Dice.get, Jumbleberry, BerryPoints]
    omega
  · refine ⟨10, rfl, ?_, ⟨⟨0, 5, 0, 0, 0⟩, rfl, rfl⟩, rfl⟩
    intro d hd
    refine ⟨_, rfl, ?_⟩
    simp only [Dice.get, Sugarberry, BerryPoints]
    omega
  · refine ⟨20, rfl, ?_, ⟨⟨0, 0, 5, 0, 0⟩, rfl, rfl⟩, rfl⟩
    intro d hd
    refine ⟨_, rfl, ?_⟩
    simp only [Dice.get, Pickleberry, BerryPoints]
    omega
  · refine ⟨35, rfl, ?_, ⟨⟨0, 0, 0, 5, 0⟩, rfl, rfl⟩, rfl⟩
    intro d hd
    refine ⟨_, rfl, ?_⟩
    simp only [Dice.get, Moonberry, BerryPoints]
    omega
  · exact ⟨35, rfl, fun d hd => Score_le_Points_branch _ _ _ (by decide) (hpts d hd),
      ⟨⟨0, 0, 0, 5, 0⟩, rfl, rfl⟩, rfl⟩
  · exact ⟨35, rfl, fun d hd => Score_le_Points_branch _ _ _ (by decide) (hpts d hd),
      ⟨⟨0, 0, 0, 5, 0⟩, rfl, rfl⟩, rfl⟩
  · exact ⟨35, rfl, fun d hd => Score_le_Points_branch _ _ _ (by decide) (hpts d hd),
      ⟨⟨0, 0, 0, 5, 0⟩, rfl, rfl⟩, rfl⟩
  · refine ⟨22, rfl, ?_, ⟨⟨1, 1, 1, 2, 0⟩, rfl, rfl⟩, rfl⟩
    intro d hd
    show ∃ s : Int, (if d.get Jumbleberry ≥ 1 ∧ d.get Sugarberry ≥ 1 ∧
        d.get Pickleberry ≥ 1 ∧ d.get Moonberry ≥ 1 then (pure d.Points : Except String Int)
      else pure 0) = Except.ok s ∧ s ≤ 22
    by_cases h : d.get Jumbleberry ≥ 1 ∧ d.get Sugarberry ≥ 1 ∧
        d.get Pickleberry ≥ 1 ∧ d.get Moonberry ≥ 1
    · rw [if_pos h]
      refine ⟨_, rfl, ?_⟩
      simp only [Dice.get, Jumbleberry, Sugarberry, Pickleberry, Moonberry] at h
      rw [Dice.Points_eq]
      omega
    · rw [if_neg h]
      exact ⟨0, rfl, by decide⟩
  · refine ⟨35, rfl, fun d hd => ⟨_, rfl, hpts d hd⟩, ⟨⟨0, 0, 0, 5, 0⟩, rfl, rfl⟩, rfl⟩

theorem maxCategoryScore_attained_witness :
    ∃ m : Int, maxCategoryScore 7 = some m ∧
      (∀ d : Dice, d.J + d.S + d.P + d.M + d.X = 5 →
        ∃ s : Int, Score d 7 = Except.ok s ∧ s ≤ m) ∧
      (∃ d : Dice, d.J + d.S + d.P + d.M + d.X = 5 ∧ Score d 7 = Except.ok m) ∧
      (List.range NumCategories).map maxCategoryScore =
        [some 10, some 10, some 20, some 35, some 35, some 35, some 35, some 22, some 35] :=
  maxCategoryScore_attained 7 (by decide)

theorem sumMaxScores_eq (cs : CategorySet) : sumMaxScores cs = some (maxScoreSum cs) := by
  have h := foldlM_add
    (fun sum cat => do
      let m ← maxCategoryScore cat
      pure (sum + (m : ℚ)))
    (fun c => (((maxCategoryScore c).getD 0 : Int) : ℚ)) (CategorySet.ForEach cs) 0
    (by
      intro ev c hc
      obtain ⟨m, hm⟩ := maxCategoryScore_some c ((mem_ForEach cs c).1 hc).1
      simp [hm])
  unfold sumMaxScores
  rw [h, zero_add]
  congr 1
  have hnd : (CategorySet.ForEach cs).Nodup := (ForEach_pairwise cs).imp (fun h => Nat.ne_of_lt h)
  rw [← List.sum_toFinset _ hnd]
  unfold maxScoreSum
  congr 1
  ext c
  simp [mem_ForEach]

theorem maxScoreSum_nonneg (cs : CategorySet) : 0 ≤ maxScoreSum cs := by
  unfold maxScoreSum
  apply Finset.sum_nonneg
  intro c hc
  have hc9 : c < 9 := (Finset.mem_range.1 (Finset.mem_filter.1 hc).1)
  interval_cases c <;> simp [maxCategoryScore]

/-- A fold of the update `if total > best { best = total }` whose steps do not fail. -/
theorem foldlM_runningMax (step : ℚ → Category → Option ℚ) (g : Category → ℚ) :
    ∀ (l : List Category) (b : ℚ),
      (∀ b, ∀ c ∈ l, step b c = some (if g c > b then g c else b)) →
      ∃ v, l.foldlM step b = some v ∧ b ≤ v ∧ (∀ c ∈ l, g c ≤ v) ∧
        (v = b ∨ ∃ c ∈ l, v = g c)
  | [], b, _ => ⟨b, rfl, le_refl b, by simp, Or.inl rfl⟩
  | a :: l, b, hs => by
    rw [List.foldlM_cons, hs b a (List.mem_cons_self a l)]
    obtain ⟨v, hv, hle, hall, hex⟩ := foldlM_runningMax step g l (if g a > b then g a else b)
      (fun b2 c hc => hs b2 c (List.mem_cons_of_mem a hc))
    refine ⟨v, hv, ?_, ?_, ?_⟩
    · by_cases h : g a > b
      · rw [if_pos h] at hle
        exact le_trans (le_of_lt h) hle
      · rw [if_neg h] at hle
        exact hle
    · intro c hc
      rcases List.mem_cons.1 hc with rfl | hmem
      · by_cases h : g c > b
        · rw [if_pos h] at hle
          exact hle
        · rw [if_neg h] at hle
          exact le_trans (not_lt.1 h) hle
      · exact hall c hmem
    · rcases hex with hex | ⟨c, hc, hvc⟩
      · by_cases h : g a > b
        · rw [if_pos h] at hex
          exact Or.inr ⟨a, List.mem_cons_self a l, hex⟩
        · rw [if_neg h] at hex
          exact Or.inl hex
      · exact Or.inr ⟨c, List.mem_cons_of_mem a hc, hvc⟩

/-- What `theoreticalMax` returns with no rolls left. -/
theorem theoreticalMax_zero (d : Dice) (cs : CategorySet) :
    ∃ v, theoreticalMax d 0 cs = some v ∧ 0 ≤ v ∧
      (∀ c ∈ CategorySet.ForEach cs, scoreThenMax d cs c ≤ v) ∧
      (v = 0 ∨ ∃ c ∈ CategorySet.ForEach cs, v = scoreThenMax d cs c) := by
  have h0 : ¬ ((0 : Int) > 0) := by decide
  unfold theoreticalMax
  rw [if_neg h0]
  apply foldlM_runningMax
  intro b c hc
  obtain ⟨hsc, _, _⟩ := scoreFloat_eq d c ((mem_ForEach cs c).1 hc).1
  simp only [hsc, sumMaxScores_eq, Option.bind_eq_bind, Option.some_bind, scoreThenMax]
  by_cases hgt : scoreValue d c + maxScoreSum (CategorySet.Remove cs c) > b
  · simp [hgt]
  · simp [hgt]

theorem sumMaxScores_all : sumMaxScores AllCategories = some 237 := by decide!

/-- C24: for every dice `d` and category set `cs` within the 9 categories,
`theoreticalMax(d, 0, cs)` is the maximum over `c` in `cs` of
`Score(d, c) + sumMaxScores(cs without c)`, and 0 for the empty set;
`theoreticalMax(d, r, cs)` for `r > 0` is `sumMaxScores(cs)`; and
`sumMaxScores(AllCategories)` is 237. -/
theorem theoreticalMax_cases (d : Dice) (cs : CategorySet) (hcs : cs ≤ AllCategories) :
    (∃ v, theoreticalMax d 0 cs = some v ∧ (cs = 0 → v = 0) ∧
      (cs ≠ 0 → IsGreatest {x | ∃ c : Category, c < NumCategories ∧
        CategorySet.Has cs c = true ∧ ∃ (s : Int) (m : ℚ), Score d c = Except.ok s ∧
          sumMaxScores (CategorySet.Remove cs c) = some m ∧ x = (s : ℚ) + m} v)) ∧
    (∀ r : Int, 0 < r →
      ∃ m, sumMaxScores cs = some m ∧ theoreticalMax d r cs = some m) ∧
    sumMaxScores AllCategories = some 237 := by
  have hlt : cs < 512 := Nat.lt_succ_of_le hcs
  refine ⟨?_, ?_, sumMaxScores_all⟩
  · obtain ⟨v, hv, hnn, hub, hex⟩ := theoreticalMax_zero d cs
    have hval : ∀ c ∈ CategorySet.ForEach cs, ∃ (s : Int) (m : ℚ), Score d c = Except.ok s ∧
        sumMaxScores (CategorySet.Remove cs c) = some m ∧ scoreThenMax d cs c = (s : ℚ) + m ∧
        0 ≤ scoreThenMax d cs c := by
      intro c hc
      obtain ⟨_, h0, s, hs, he⟩ := scoreFloat_eq d c ((mem_ForEach cs c).1 hc).1
      refine ⟨s, _, hs, sumMaxScores_eq _, ?_, ?_⟩
      · unfold scoreThenMax
        rw [he]
      · exact add_nonneg h0 (maxScoreSum_nonneg _)
    refine ⟨v, hv, ?_, ?_⟩
    · intro h0
      rcases hex with h | ⟨c, hc, _⟩
      · exact h
      · have he : CategorySet.ForEach 0 = [] := by decide
        rw [h0, he] at hc
        exact absurd hc (List.not_mem_nil c)
    · intro hne
      obtain ⟨hfe, _, _⟩ := CategorySet_facts ⟨cs, hlt⟩
      have hne2 : CategorySet.ForEach cs ≠ [] := (hfe hne).1
      have hmem : ∃ c ∈ CategorySet.ForEach cs, v = scoreThenMax d cs c := by
        rcases hex with h | h
        · obtain ⟨c, hc⟩ := List.exists_mem_of_ne_nil _ hne2
          obtain ⟨_, _, _, _, _, hge⟩ := hval c hc
          refine ⟨c, hc, le_antisymm ?_ (hub c hc)⟩
          rw [h]
          exact hge
        · exact h
      constructor
      · obtain ⟨c, hc, hvc⟩ := hmem
        obtain ⟨s, m, hs, hm, he, _⟩ := hval c hc
        obtain ⟨h9, hhas⟩ := (mem_ForEach cs c).1 hc
        exact ⟨c, h9, hhas, s, m, hs, hm, by rw [hvc, he]⟩
      · rintro x ⟨c, h9, hhas, s, m, hs, hm, rfl⟩
        have hc : c ∈ CategorySet.ForEach cs := (mem_ForEach cs c).2 ⟨h9, hhas⟩
        obtain ⟨s2, m2, hs2, hm2, he, _⟩ := hval c hc
        rw [hs] at hs2
        rw [hm] at hm2
        cases hs2
        cases hm2
        rw [← he]
        exact hub c hc
  · intro r hr
    refine ⟨_, sumMaxScores_eq cs, ?_⟩
    unfold theoreticalMax
    rw [if_pos hr]
    exact sumMaxScores_eq cs

theorem theoreticalMax_cases_witness :
    (∃ v, theoreticalMax ⟨2, 1, 1, 1, 0⟩ 0 256 = some v ∧ ((256 : Nat) = 0 → v = 0) ∧
      ((256 : Nat) ≠ 0 → IsGreatest {x | ∃ c : Category, c < NumCategories ∧
        CategorySet.Has 256 c = true ∧ ∃ (s : Int) (m : ℚ),
          Score ⟨2, 1, 1, 1, 0⟩ c = Except.ok s ∧
          sumMaxScores (CategorySet.Remove 256 c) = some m ∧ x = (s : ℚ) + m} v)) ∧
    (∀ r : Int, 0 < r →
      ∃ m, sumMaxScores 256 = some m ∧ theoreticalMax ⟨2, 1, 1, 1, 0⟩ r 256 = some m) ∧
    sumMaxScores AllCategories = some 237 :=
  theoreticalMax_cases ⟨2, 1, 1, 1, 0⟩ 256 (by decide)

/-! ## Reroll options of a recommendation -/

theorem rerollSort_inner (x : RerollOption) :
    ∀ l : List RerollOption, l.Pairwise (fun a b => a.EV ≤ b.EV) →
      (insertionSortLessFunc_inner rerollLess x l).Pairwise (fun a b => a.EV ≤ b.EV)
  | [], _ => by simp [insertionSortLessFunc_inner]
  | p :: ps, hl => by
    obtain ⟨hp, hps⟩ := List.pairwise_cons.1 hl
    unfold insertionSortLessFunc_inner
    by_cases h : x.EV > p.EV
    · rw [if_pos (by simpa [rerollLess] using h)]
      refine List.pairwise_cons.2 ⟨?_, rerollSort_inner x ps hps⟩
      intro y hy
      rcases List.mem_cons.1 ((insertionSortLessFunc_inner_perm _ x ps).subset hy) with rfl | hm
      · exact le_of_lt h
      · exact hp y hm
    · rw [if_neg (by simpa [rerollLess] using h)]
      refine List.pairwise_cons.2 ⟨?_, hl⟩
      have hle : x.EV ≤ p.EV := not_lt.1 h
      intro y hy
      rcases List.mem_cons.1 hy with rfl | hm
      · exact hle
      · exact le_trans hle (hp y hm)

theorem rerollSort_fold :
    ∀ (l acc : List RerollOption), acc.Pairwise (fun a b => a.EV ≤ b.EV) →
      (l.foldl (fun sortedRev x => insertionSortLessFunc_inner rerollLess x sortedRev)
        acc).Pairwise (fun a b => a.EV ≤ b.EV)
  | [], _, hacc => hacc
  | x :: l, acc, hacc => by
    rw [List.foldl_cons]
    exact rerollSort_fold l _ (rerollSort_inner x acc hacc)

/-- What `sort.Slice` does to the reroll options: a rearrangement in non-increasing EV
order. -/
theorem sortSlice_rerollOptions (pdq : (α : Type) → (α → α → Bool) → List α → List α)
    (hpdq : SortsRerollOptions pdq) (l : List RerollOption) :
    (sortSlice pdq rerollLess l).Perm l ∧
      (sortSlice pdq rerollLess l).Pairwise (fun a b => b.EV ≤ a.EV) := by
  by_cases h : l.length ≤ 12
  · rw [sortSlice_short pdq _ l h]
    refine ⟨insertionSortLessFunc_perm _ l, ?_⟩
    unfold insertionSortLessFunc
    rw [List.pairwise_reverse]
    exact rerollSort_fold l [] List.Pairwise.nil
  · unfold sortSlice
    rw [if_neg h]
    obtain ⟨hp, hs⟩ := hpdq l (not_le.1 h)
    refine ⟨hp, hs.imp ?_⟩
    intro a b hab
    simpa [rerollLess] using hab

/-- Insertion sort meets the contract asked of the quicksort. -/
theorem insertionSort_SortsRerollOptions :
    SortsRerollOptions (fun _ less l => insertionSortLessFunc less l) := by
  intro l _
  refine ⟨insertionSortLessFunc_perm _ l, ?_⟩
  unfold insertionSortLessFunc
  rw [List.pairwise_reverse]
  refine (rerollSort_fold l [] List.Pairwise.nil).imp ?_
  intro a b hab
  simpa [rerollLess] using hab

/-- The options `solveReroll` has appended after a list of keep decisions. -/
theorem solveReroll_fold_options (prev : List ℚ) :
    ∀ (l : List (Dice × Nat)) (st st2 : RerollState),
      l.foldlM (solveReroll_step prev) st = some st2 →
      st2.allOptions = st.allOptions ++
        (l.filter fun c => decide (c.2 ≠ 5)).map (rerollOptionOf prev)
  | [], st, st2, h => by
    cases h
    simp
  | c :: l, st, st2, h => by
    rw [List.foldlM_cons] at h
    cases hstep : solveReroll_step prev st c with
    | none =>
      rw [hstep] at h
      cases h
    | some st1 =>
      rw [hstep] at h
      have ih := solveReroll_fold_options prev l st1 st2 h
      rw [ih]
      by_cases hc5 : c.2 = 5
      · have h0 : ((NumDice : Int) - (c.2 : Int)) = 0 := by rw [hc5]; rfl
        unfold solveReroll_step at hstep
        simp only [h0, if_true] at hstep
        cases hstep
        simp [hc5]
      · have hnz : ¬ ((NumDice : Int) - (c.2 : Int)) = 0 := by
          intro h
          apply hc5
          have h5 : (NumDice : Int) = 5 := rfl
          rw [h5] at h
          omega
        unfold solveReroll_step at hstep
        simp only [hnz, if_false] at hstep
        cases he : rerollEV prev c.1 c.2 with
        | none =>
          rw [he] at hstep
          cases hstep
        | some e =>
          have hopt : st1.allOptions = st.allOptions ++ [rerollOptionOf prev c] := by
            rw [he] at hstep
            simp only [Option.bind_eq_bind, Option.some_bind] at hstep
            unfold rerollOptionOf
            rw [he]
            cases hb : st.bestEV with
            | none =>
              rw [hb] at hstep
              cases hstep
              rfl
            | some b =>
              rw [hb] at hstep
              by_cases hgt : e > b
              · simp only [if_pos hgt] at hstep
                cases hstep
                rfl
              · simp only [if_neg hgt] at hstep
                cases hstep
                rfl
          rw [hopt]
          simp [hc5]

/-- What `solveReroll` returns for a 5-dice outcome, at least one reroll left and a
non-empty category set within the 9 categories, options included. -/
theorem solveReroll_full (pdq : (α : Type) → (α → α → Bool) → List α → List α) (d : Dice)
    (hd : d.size = 5) (rollsLeft : Int) (hr : 1 ≤ rollsLeft) (cs : CategorySet) (h0 : cs ≠ 0)
    (h1 : cs < 512) (t : Table) :
    ∃ (sr : Recommendation) (k : Dice) (v tm : ℚ),
      solveScoring pdq d cs t = some sr ∧
      theoreticalMax d rollsLeft cs = some tm ∧
      k.IsKeepOf d ∧ k.size < 5 ∧
      keepValue (layerOf t cs (rollsLeft - 1).toNat) k = some v ∧
      (∀ k2 : Dice, k2.IsKeepOf d → k2.size < 5 →
        ∀ e, keepValue (layerOf t cs (rollsLeft - 1).toNat) k2 = some e → e ≤ v) ∧
      (v ≤ sr.BestAction.EV → solveReroll pdq d rollsLeft cs t = some sr) ∧
      (sr.BestAction.EV < v → solveReroll pdq d rollsLeft cs t =
        some ⟨⟨ActionType.RerollAction, k, 0, v⟩, tm, [],
          (sortSlice pdq rerollLess
            (rerollOptions d (layerOf t cs (rollsLeft - 1).toNat))).take
            (if (rerollOptions d (layerOf t cs (rollsLeft - 1).toNat)).length < 10
              then (rerollOptions d (layerOf t cs (rollsLeft - 1).toNat)).length
              else 10)⟩) := by
  have hsz : d.J + d.S + d.P + d.M + d.X = 5 := hd
  obtain ⟨hlay, hlen, _⟩ := solveReroll_layers_eq t cs h0 h1 (rollsLeft - 1).toNat
  have hkeeps : EnumerateKeeps d = some (keepCalls d 5 0 Dice.zero 0) :=
    EnumerateKeeps_rec_eq d (by omega) 5 0 Dice.zero 0
  have hcall : ∀ c ∈ keepCalls d 5 0 Dice.zero 0,
      c.1.IsKeepOf d ∧ c.2 = c.1.size ∧ c.1.size ≤ 5 := by
    intro c hc
    obtain ⟨h1, h2⟩ := (mem_keepCalls d c.1 c.2).1 hc
    refine ⟨h1, h2, ?_⟩
    obtain ⟨a1, a2, a3, a4, a5⟩ := h1
    simp only [Dice.size]
    omega
  have hev : ∀ c ∈ keepCalls d 5 0 Dice.zero 0,
      rerollEV (layerOf t cs (rollsLeft - 1).toNat) c.1 c.2 =
        keepValue (layerOf t cs (rollsLeft - 1).toNat) c.1 := by
    intro c hc
    obtain ⟨_, h2, h3⟩ := hcall c hc
    rw [h2]
    exact rerollEV_eq_keepValue _ c.1 h3
  have htot : ∀ c ∈ keepCalls d 5 0 Dice.zero 0, c.2 ≠ 5 →
      ∃ e, rerollEV (layerOf t cs (rollsLeft - 1).toNat) c.1 c.2 = some e := by
    intro c hc _
    obtain ⟨_, _, h3⟩ := hcall c hc
    obtain ⟨outs, _, _, _, hv⟩ := keepValue_some _ (le_of_eq hlen.symm) c.1 h3
    exact ⟨_, (hev c hc).trans hv⟩
  obtain ⟨st, hf, hres⟩ := solveReroll_fold (layerOf t cs (rollsLeft - 1).toNat) _
    ⟨[], none, Dice.zero⟩ htot
  have hopts : st.allOptions = rerollOptions d (layerOf t cs (rollsLeft - 1).toNat) := by
    rw [solveReroll_fold_options _ _ _ _ hf]
    rfl
  obtain ⟨sr, hsr, _⟩ := solveScoring_spec pdq d cs t h0 h1
  obtain ⟨tm, htm⟩ := theoreticalMax_some d rollsLeft cs
  have hnot : ¬ rollsLeft ≤ 0 := by omega
  have hunfold : solveReroll pdq d rollsLeft cs t =
      (match st.bestEV with
        | none => some sr
        | some bestEV =>
          if sr.BestAction.EV ≥ bestEV then some sr
          else some ⟨⟨ActionType.RerollAction, st.bestKeep, 0, bestEV⟩, tm, [],
            (sortSlice pdq (fun a b => decide (a.EV > b.EV)) st.allOptions).take
              (if st.allOptions.length < 10 then st.allOptions.length else 10)⟩) := by
    unfold solveReroll
    simp only [solveReroll_v0_eq t cs h0 h1, hlay, hkeeps, hf, hsr, htm, if_neg hnot,
      Option.bind_eq_bind, Option.some_bind, Option.pure_def]
  rcases hres with ⟨_, _, e3, _⟩ | ⟨v, c, m1, m2, m3, m4, m5, m6, _⟩
  · -- impossible: keeping nothing is a keep decision that rerolls
    have hzero : ((Dice.zero, 0) : Dice × Nat) ∈ keepCalls d 5 0 Dice.zero 0 :=
      (mem_keepCalls d Dice.zero 0).2 ⟨⟨Nat.zero_le _, Nat.zero_le _, Nat.zero_le _,
        Nat.zero_le _, Nat.zero_le _⟩, rfl⟩
    have := e3 rfl _ hzero
    exact absurd this (by decide)
  · obtain ⟨hk1, hk2, hk3⟩ := hcall c m1
    refine ⟨sr, c.1, v, tm, hsr, htm, hk1, by omega, (hev c m1).symm.trans m5, ?_, ?_, ?_⟩
    · intro k2 hk hs e he
      have hmem : (k2, k2.size) ∈ keepCalls d 5 0 Dice.zero 0 :=
        (mem_keepCalls d k2 k2.size).2 ⟨hk, rfl⟩
      have hne : (k2, k2.size).2 ≠ 5 := by
        show k2.size ≠ 5
        omega
      exact m6 _ hmem hne e ((hev _ hmem).trans he)
    · intro hle
      rw [hunfold, m3]
      simp only [ge_iff_le, if_pos hle]
    · intro hlt
      rw [hunfold, m3]
      simp only [ge_iff_le, if_neg (not_le.2 hlt)]
      rw [m4, hopts]
      rfl

theorem keepCalls_full_once (d : Dice) (hd : d.size = 5) :
    ((keepCalls d 5 0 Dice.zero 0).filter fun c => decide (c.2 ≠ 5)).length + 1 =
      (keepCalls d 5 0 Dice.zero 0).length := by
  have hsz : d.J + d.S + d.P + d.M + d.X = 5 := hd
  have hsplit := List.length_eq_countP_add_countP (fun c : Dice × Nat => decide (c.2 ≠ 5))
    (keepCalls d 5 0 Dice.zero 0)
  rw [List.countP_eq_length_filter, List.countP_eq_length_filter] at hsplit
  have hone : ((keepCalls d 5 0 Dice.zero 0).filter
      fun c => ¬ (decide (c.2 ≠ 5)) = true).length = 1 := by
    have hnd : (((keepCalls d 5 0 Dice.zero 0).filter
        fun c => ¬ (decide (c.2 ≠ 5)) = true).map Prod.fst).Nodup :=
      (keepCalls_nodup d 5 0 Dice.zero 0 rfl).sublist ((List.filter_sublist _).map _)
    have hall : ∀ k ∈ ((keepCalls d 5 0 Dice.zero 0).filter
        fun c => ¬ (decide (c.2 ≠ 5)) = true).map Prod.fst, k = d := by
      intro k hk
      obtain ⟨c, hc, rfl⟩ := List.mem_map.1 hk
      obtain ⟨hm, hp⟩ := List.mem_filter.1 hc
      obtain ⟨⟨a1, a2, a3, a4, a5⟩, h2⟩ := (mem_keepCalls d c.1 c.2).1 hm
      have h5 : c.2 = 5 := by simpa using hp
      rw [Dice.eq_iff]
      omega
    have hmem : d ∈ ((keepCalls d 5 0 Dice.zero 0).filter
        fun c => ¬ (decide (c.2 ≠ 5)) = true).map Prod.fst := by
      refine List.mem_map.2 ⟨(d, 5), List.mem_filter.2 ⟨?_, by simp⟩, rfl⟩
      exact (mem_keepCalls d d 5).2 ⟨⟨le_refl _, le_refl _, le_refl _, le_refl _, le_refl _⟩,
        hsz.symm⟩
    rw [List.eq_replicate_of_mem hall] at hnd hmem
    rw [List.length_map] at hnd hmem
    have hle := List.nodup_replicate.1 hnd
    have hpos : 0 < ((keepCalls d 5 0 Dice.zero 0).filter
        fun c => ¬ (decide (c.2 ≠ 5)) = true).length := by
      by_contra h0
      have hz : ((keepCalls d 5 0 Dice.zero 0).filter
          fun c => ¬ (decide (c.2 ≠ 5)) = true).length = 0 := by omega
      rw [hz] at hmem
      simp at hmem
    omega
  omega

/-- The reroll options of a 5-dice outcome: one for each keep decision that rerolls at
least one die, with its number of rerolled dice and its value against the layer. -/
theorem rerollOptions_facts (d : Dice) (hd : d.size = 5) (layer : List ℚ)
    (hlen : layer.length = 126) :
    (rerollOptions d layer).length + 1 =
      (d.J + 1) * (d.S + 1) * (d.P + 1) * (d.M + 1) * (d.X + 1) ∧
    (∀ o ∈ rerollOptions d layer, o.Keep.IsKeepOf d ∧ o.Keep.size < 5 ∧
      o.NumRerolled = 5 - (o.Keep.size : Int) ∧ keepValue layer o.Keep = some o.EV) ∧
    (∀ k : Dice, k.IsKeepOf d → k.size < 5 → ∀ v, keepValue layer k = some v →
      ∃ o ∈ rerollOptions d layer, o.Keep = k ∧ o.EV = v) := by
  refine ⟨?_, ?_, ?_⟩
  · unfold rerollOptions
    rw [List.length_map, keepCalls_full_once d hd, keepCalls_length]
  · intro o ho
    obtain ⟨c, hc, rfl⟩ := List.mem_map.1 ho
    obtain ⟨hm, hp⟩ := List.mem_filter.1 hc
    obtain ⟨hk, h2⟩ := (mem_keepCalls d c.1 c.2).1 hm
    have hne : c.2 ≠ 5 := by simpa using hp
    have hsz : d.J + d.S + d.P + d.M + d.X = 5 := hd
    have hsize : c.1.size = c.2 := h2.symm
    have hle : c.1.size ≤ 5 := by
      obtain ⟨a1, a2, a3, a4, a5⟩ := hk
      simp only [Dice.size]
      omega
    obtain ⟨outs, _, _, _, hv⟩ := keepValue_some layer (le_of_eq hlen.symm) c.1 hle
    refine ⟨hk, (show c.1.size < 5 by omega), ?_, ?_⟩
    · show (NumDice : Int) - (c.2 : Int) = 5 - (c.1.size : Int)
      rw [hsize]
      rfl
    · show keepValue layer c.1 = some ((rerollEV layer c.1 c.2).getD 0)
      rw [← hsize, rerollEV_eq_keepValue layer c.1 hle, hv]
      rfl
  · intro k hk hs v hv
    have hmem : (k, k.size) ∈ keepCalls d 5 0 Dice.zero 0 :=
      (mem_keepCalls d k k.size).2 ⟨hk, rfl⟩
    refine ⟨rerollOptionOf layer (k, k.size), List.mem_map.2 ⟨(k, k.size),
      List.mem_filter.2 ⟨hmem, ?_⟩, rfl⟩, rfl, ?_⟩
    · have : k.size ≠ 5 := by omega
      simpa using this
    · show (rerollEV layer k k.size).getD 0 = v
      rw [rerollEV_eq_keepValue layer k (by omega), hv]
      rfl

/-- The first `topN` entries of the sorted options. -/
theorem topOptions_facts (opts sorted : List RerollOption) (hp : sorted.Perm opts)
    (hs : sorted.Pairwise (fun a b => b.EV ≤ a.EV)) :
    (sorted.take (if opts.length < 10 then opts.length else 10)).length = min 10 opts.length ∧
    (sorted.take (if opts.length < 10 then opts.length else 10)).Pairwise
      (fun a b => b.EV ≤ a.EV) ∧
    (∀ o ∈ sorted.take (if opts.length < 10 then opts.length else 10), o ∈ opts) ∧
    (∀ o ∈ opts, o ∉ sorted.take (if opts.length < 10 then opts.length else 10) →
      ∀ a ∈ sorted.take (if opts.length < 10 then opts.length else 10), o.EV ≤ a.EV) ∧
    (∀ v, (∃ o ∈ opts, o.EV = v) → (∀ o ∈ opts, o.EV ≤ v) →
      ∃ first, (sorted.take (if opts.length < 10 then opts.length else 10)).head? =
        some first ∧ first.EV = v) := by
  have hlen : sorted.length = opts.length := hp.length_eq
  have hn : (if opts.length < 10 then opts.length else 10) = min 10 opts.length := by
    by_cases h : opts.length < 10
    · rw [if_pos h]
      omega
    · rw [if_neg h]
      omega
  rw [hn]
  refine ⟨?_, hs.sublist (List.take_sublist _ _), ?_, ?_, ?_⟩
  · rw [List.length_take, hlen]
    omega
  · intro o ho
    exact hp.subset (List.mem_of_mem_take ho)
  · intro o ho hnot a ha
    have hsplit : sorted = sorted.take (min 10 opts.length) ++ sorted.drop (min 10 opts.length) :=
      (List.take_append_drop _ _).symm
    have hmem : o ∈ sorted := hp.symm.subset ho
    rw [hsplit] at hmem hs
    rcases List.mem_append.1 hmem with h | h
    · exact absurd h hnot
    · exact (List.pairwise_append.1 hs).2.2 a ha o h
  · rintro v ⟨o, ho, hov⟩ hmax
    cases hsorted : sorted with
    | nil =>
      rw [hsorted] at hp
      have := hp.symm.subset ho
      cases this
    | cons first rest =>
      have hpos : 0 < opts.length := List.length_pos_of_mem ho
      have hmin : min 10 opts.length = (min 10 opts.length - 1) + 1 := by omega
      refine ⟨first, ?_, ?_⟩
      · rw [hmin, List.take_succ_cons]
        rfl
      · rw [hsorted] at hp hs
        have h1 : first.EV ≤ v := hmax first (hp.subset (List.mem_cons_self _ _))
        have h2 : v ≤ first.EV := by
          rcases List.mem_cons.1 (hp.symm.subset ho) with h | h
          · rw [← hov, h]
          · rw [← hov]
            exact (List.pairwise_cons.1 hs).1 o h
        exact le_antisymm h1 h2

theorem foldlM_some_step {α β : Type} (f : β → α → Option β) :
    ∀ (l : List α) (init r : β), l.foldlM f init = some r →
      ∀ a ∈ l, ∃ b b2, f b a = some b2
  | [], _, _, _, a, ha => absurd ha (List.not_mem_nil a)
  | x :: l, init, r, h, a, ha => by
    rw [List.foldlM_cons] at h
    cases hx : f init x with
    | none =>
      rw [hx] at h
      cases h
    | some b2 =>
      rw [hx] at h
      rcases List.mem_cons.1 ha with rfl | hm
      · exact ⟨init, b2, hx⟩
      · exact foldlM_some_step f l b2 r h a hm

/-- A category set of 16 bits with a member whose removal leaves a set below 512 is
itself below 512. -/
theorem lt_512_of_Remove (cs : CategorySet) (hcs : cs < 65536) (c : Category)
    (hc : c < NumCategories) (hrem : CategorySet.Remove cs c < 512) : cs < 512 := by
  have h9 : c < 9 := hc
  have h16 : c < 16 := Nat.lt_of_lt_of_le h9 (by decide)
  rw [lt_512_iff] at hrem ⊢
  intro i hi
  by_cases hi16 : i < 16
  · have h := hrem i hi
    rw [testBit_Remove cs c h16] at h
    have hne : ¬ c = i := by
      intro e
      rw [e] at h9
      exact absurd h9 (not_lt.2 hi)
    simpa [hi16, hne] using h
  · exact Nat.testBit_lt_two_pow (lt_of_lt_of_le hcs
      (Nat.pow_le_pow_right (show 0 < 2 by decide) (not_lt.1 hi16)))

/-- When `solveScoring` returns, the category set is non-empty and within the 9
categories, the action is a ScoreAction and no reroll options are listed. -/
theorem solveScoring_returns (pdq : (α : Type) → (α → α → Bool) → List α → List α)
    (d : Dice) (cs : CategorySet) (hcs : cs < 65536) (t : Table) (sr : Recommendation)
    (h : solveScoring pdq d cs t = some sr) :
    cs ≠ 0 ∧ cs < 512 ∧ sr.BestAction.ActType = ActionType.ScoreAction ∧
      sr.TopRerollOptions = [] ∧ theoreticalMax d 0 cs = some sr.TheoreticalMax := by
  unfold solveScoring at h
  cases hf : (CategorySet.ForEach cs).foldlM (solveScoring_step d cs t) ⟨[], none, 0⟩ with
  | none =>
    rw [hf] at h
    cases h
  | some st =>
    rw [hf] at h
    simp only [Option.bind_eq_bind, Option.some_bind] at h
    cases hb : st.bestVal with
    | none =>
      rw [hb] at h
      cases h
    | some b =>
      rw [hb] at h
      simp only [Option.some_bind] at h
      cases htm : theoreticalMax d 0 cs with
      | none =>
        rw [htm] at h
        cases h
      | some tm =>
        rw [htm] at h
        simp only [Option.some_bind, Option.pure_def, Option.some.injEq] at h
        subst h
        have hne : CategorySet.ForEach cs ≠ [] := by
          intro he
          rw [he] at hf
          cases hf
          cases hb
        obtain ⟨c, hc⟩ := List.exists_mem_of_ne_nil _ hne
        obtain ⟨st1, st2, hstep⟩ := foldlM_some_step _ _ _ _ hf c hc
        have hrem : CategorySet.Remove cs c < 512 := by
          by_contra hge
          unfold solveScoring_step at hstep
          have hnone : t.EV (CategorySet.Remove cs c) = none := if_neg hge
          rw [hnone] at hstep
          cases hsc : Score d c with
          | error e =>
            rw [hsc] at hstep
            cases hstep
          | ok v =>
            rw [hsc] at hstep
            cases hstep
        have hlt := lt_512_of_Remove cs hcs c ((mem_ForEach cs c).1 hc).1 hrem
        refine ⟨?_, hlt, rfl, rfl, rfl⟩
        intro h0
        rw [h0] at hne
        exact hne (by decide)

/-- When `solveReroll` returns, at least one roll is left and `solveScoring` returns on
the same state. -/
theorem solveReroll_returns (pdq : (α : Type) → (α → α → Bool) → List α → List α)
    (d : Dice) (rollsLeft : Int) (cs : CategorySet) (t : Table) (r : Recommendation)
    (h : solveReroll pdq d rollsLeft cs t = some r) :
    1 ≤ rollsLeft ∧ ∃ sr, solveScoring pdq d cs t = some sr := by
  unfold solveReroll at h
  dsimp only at h
  cases h1 : solveReroll_v0 AllDice cs t with
  | none =>
    rw [h1] at h
    cases h
  | some v0 =>
    rw [h1] at h
    simp only [Option.bind_eq_bind, Option.some_bind] at h
    by_cases hr : rollsLeft ≤ 0
    · rw [if_pos hr] at h
      cases h
    · rw [if_neg hr] at h
      refine ⟨by omega, ?_⟩
      cases h2 : solveReroll_layers AllDice v0 (rollsLeft - 1).toNat with
      | none =>
        rw [h2] at h
        cases h
      | some prev =>
        cases h3 : EnumerateKeeps d with
        | none =>
          rw [h2, h3] at h
          cases h
        | some keeps =>
          cases h4 : keeps.foldlM (solveReroll_step prev) ⟨[], none, Dice.zero⟩ with
          | none =>
            rw [h2, h3] at h
            simp only [Option.pure_def, Option.some_bind] at h
            rw [h4] at h
            cases h
          | some st =>
            cases h5 : solveScoring pdq d cs t with
            | none =>
              rw [h2, h3] at h
              simp only [Option.pure_def, Option.some_bind] at h
              rw [h4] at h
              simp only [Option.pure_def, Option.some_bind] at h
              rw [h5] at h
              cases h
            | some sr => exact ⟨sr, rfl⟩

/-- What `Solve` returns when it recommends a reroll: the state it was called on and the
recommendation, field by field. -/
theorem Solve_reroll_returns (pdq : (α : Type) → (α → α → Bool) → List α → List α)
    (d : Dice) (hd : d.size = 5) (rollsLeft : Int) (cs : CategorySet) (hcs : cs < 65536)
    (t : Table) (r : Recommendation) (hsolve : Solve pdq d rollsLeft cs t = some r)
    (hact : r.BestAction.ActType = ActionType.RerollAction) :
    1 ≤ rollsLeft ∧ cs ≠ 0 ∧ cs < 512 ∧
    ∃ (k : Dice) (v tm : ℚ),
      theoreticalMax d rollsLeft cs = some tm ∧
      k.IsKeepOf d ∧ k.size < 5 ∧
      keepValue (layerOf t cs (rollsLeft - 1).toNat) k = some v ∧
      (∀ k2 : Dice, k2.IsKeepOf d → k2.size < 5 →
        ∀ e, keepValue (layerOf t cs (rollsLeft - 1).toNat) k2 = some e → e ≤ v) ∧
      r = ⟨⟨ActionType.RerollAction, k, 0, v⟩, tm, [],
        (sortSlice pdq rerollLess (rerollOptions d (layerOf t cs (rollsLeft - 1).toNat))).take
          (if (rerollOptions d (layerOf t cs (rollsLeft - 1).toNat)).length < 10
            then (rerollOptions d (layerOf t cs (rollsLeft - 1).toNat)).length
            else 10)⟩ := by
  have hscore : ∀ sr, solveScoring pdq d cs t = some sr → sr ≠ r := by
    intro sr hsr e
    obtain ⟨_, _, ha, _, _⟩ := solveScoring_returns pdq d cs hcs t sr hsr
    rw [e, hact] at ha
    cases ha
  unfold Solve at hsolve
  by_cases hz : rollsLeft = 0
  · rw [if_pos hz] at hsolve
    exact absurd rfl (hscore r hsolve)
  · rw [if_neg hz] at hsolve
    obtain ⟨hr, sr0, hsr0⟩ := solveReroll_returns pdq d rollsLeft cs t r hsolve
    obtain ⟨h0, h1, _, _, _⟩ := solveScoring_returns pdq d cs hcs t sr0 hsr0
    obtain ⟨sr, k, v, tm, hsr, htm, hk1, hk2, hk3, hmax, hle, hlt⟩ :=
      solveReroll_full pdq d hd rollsLeft hr cs h0 h1 t
    refine ⟨hr, h0, h1, k, v, tm, htm, hk1, hk2, hk3, hmax, ?_⟩
    by_cases hcmp : v ≤ sr.BestAction.EV
    · rw [hle hcmp] at hsolve
      cases hsolve
      exact absurd rfl (hscore _ hsr)
    · rw [hlt (not_le.1 hcmp)] at hsolve
      cases hsolve
      rfl

/-- C22: whenever `Solve` returns a RerollAction for a 5-dice outcome `d`,
`TopRerollOptions` has exactly `min(10, N)` entries, `N` being the product over the faces
`f` of `d[f] + 1`, minus 1, the number of keep decisions that reroll at least one die; the
entries are in non-increasing EV order; each is a keep decision of `d` that does not keep
all 5 dice, with `NumRerolled = 5 - |Keep|` and its EV against the layer with
`rollsLeft - 1` rerolls left; no omitted keep decision has a strictly larger EV than an
entry, the last one included; and the EV of the first entry is `BestAction.EV`.  The
standard library's `sort.Slice` is taken to sort slices of more than 12 elements. -/
theorem Solve_top_reroll_options (pdq : (α : Type) → (α → α → Bool) → List α → List α)
    (hpdq : SortsRerollOptions pdq) (d : Dice) (hd : d.J + d.S + d.P + d.M + d.X = 5)
    (rollsLeft : Int) (cs : CategorySet) (hcs : cs < 65536) (t : Table) (r : Recommendation)
    (hsolve : Solve pdq d rollsLeft cs t = some r)
    (hact : r.BestAction.ActType = ActionType.RerollAction) :
    ∃ prevLayer : List ℚ, IsLayer t cs (rollsLeft - 1).toNat prevLayer ∧
      r.TopRerollOptions.length =
        min 10 ((d.J + 1) * (d.S + 1) * (d.P + 1) * (d.M + 1) * (d.X + 1) - 1) ∧
      r.TopRerollOptions.Pairwise (fun a b => a.EV ≥ b.EV) ∧
      (∀ o ∈ r.TopRerollOptions, o.Keep.IsKeepOf d ∧ o.Keep.size < 5 ∧
        o.NumRerolled = 5 - (o.Keep.size : Int) ∧ keepValue prevLayer o.Keep = some o.EV) ∧
      (∃ last, r.TopRerollOptions.getLast? = some last ∧
        ∀ k : Dice, k.IsKeepOf d → k.size < 5 → (∀ o ∈ r.TopRerollOptions, o.Keep ≠ k) →
          ∀ v, keepValue prevLayer k = some v → v ≤ last.EV) ∧
      (∃ first, r.TopRerollOptions.head? = some first ∧ first.EV = r.BestAction.EV) := by
  obtain ⟨hr, h0, h1, k, v, tm, _, hk1, hk2, hk3, hmax, hrec⟩ :=
    Solve_reroll_returns pdq d hd rollsLeft cs hcs t r hsolve hact
  obtain ⟨_, hlen, hlayer⟩ := solveReroll_layers_eq t cs h0 h1 (rollsLeft - 1).toNat
  obtain ⟨hperm, hsorted⟩ := sortSlice_rerollOptions pdq hpdq
    (rerollOptions d (layerOf t cs (rollsLeft - 1).toNat))
  obtain ⟨hn, hopt, hall⟩ := rerollOptions_facts d hd _ hlen
  obtain ⟨t1, t2, t3, t4, t5⟩ := topOptions_facts _ _ hperm hsorted
  have htop : r.TopRerollOptions =
      (sortSlice pdq rerollLess (rerollOptions d (layerOf t cs (rollsLeft - 1).toNat))).take
        (if (rerollOptions d (layerOf t cs (rollsLeft - 1).toNat)).length < 10
          then (rerollOptions d (layerOf t cs (rollsLeft - 1).toNat)).length
          else 10) := by
    rw [hrec]
  have hbest : r.BestAction.EV = v := by
    rw [hrec]
  obtain ⟨ok, hok, hokk, hokv⟩ := hall k hk1 hk2 v hk3
  obtain ⟨first, hfirst, hfv⟩ := t5 v ⟨ok, hok, hokv⟩
    (fun o ho => hmax o.Keep (hopt o ho).1 (hopt o ho).2.1 o.EV (hopt o ho).2.2.2)
  rw [htop, hbest]
  refine ⟨_, hlayer, ?_, t2, fun o ho => hopt o (t3 o ho), ?_, first, hfirst, hfv⟩
  · rw [t1]
    congr 1
    omega
  · have hne : (sortSlice pdq rerollLess
        (rerollOptions d (layerOf t cs (rollsLeft - 1).toNat))).take
        (if (rerollOptions d (layerOf t cs (rollsLeft - 1).toNat)).length < 10
          then (rerollOptions d (layerOf t cs (rollsLeft - 1).toNat)).length
          else 10) ≠ [] := by
      intro hnil
      rw [hnil] at hfirst
      cases hfirst
    refine ⟨_, List.getLast?_eq_getLast _ hne, ?_⟩
    intro k2 hk hs hnot e he
    obtain ⟨o2, ho2, ho2k, ho2v⟩ := hall k2 hk hs e he
    rw [← ho2v]
    exact t4 o2 ho2 (fun hin => hnot o2 hin ho2k) _ (List.getLast_mem hne)

set_option maxRecDepth 100000 in
theorem solveScoring_example :
    solveScoring (fun _ less l => insertionSortLessFunc less l) ⟨2, 1, 1, 1, 0⟩ 8 NewTable =
      some ⟨⟨ActionType.ScoreAction, Dice.zero, 3, 7⟩, 7, [⟨3, 7, 0, 7⟩], []⟩ := by
  decide!

set_option maxRecDepth 100000 in
theorem keepValue_example :
    keepValue (layerOf NewTable 8 ((1 : Int) - 1).toNat) ⟨1, 1, 1, 1, 0⟩ = some (77 / 10) := by
  decide!

/-- With the dice 2J 1S 1P 1M, one reroll left, only Moonberry open and an all-zero table,
`Solve` recommends a reroll: keeping 1J 1S 1P 1M is worth 7.7, scoring now 7. -/
theorem Solve_example_reroll :
    ∃ r, Solve (fun _ less l => insertionSortLessFunc less l) ⟨2, 1, 1, 1, 0⟩ 1 8 NewTable =
        some r ∧ r.BestAction.ActType = ActionType.RerollAction := by
  obtain ⟨sr, k, v, tm, hsr, _, _, _, _, hmax, _, hgt⟩ :=
    solveReroll_full (fun _ less l => insertionSortLessFunc less l) ⟨2, 1, 1, 1, 0⟩ rfl 1
      (le_refl 1) 8 (by decide) (by decide) NewTable
  rw [solveScoring_example] at hsr
  cases hsr
  have hv : (77 / 10 : ℚ) ≤ v :=
    hmax ⟨1, 1, 1, 1, 0⟩ ⟨by decide, by decide, by decide, by decide, by decide⟩
      (by decide) _ keepValue_example
  have hlt : (7 : ℚ) < v := lt_of_lt_of_le (by norm_num) hv
  exact ⟨_, hgt hlt, rfl⟩

theorem Solve_top_reroll_options_witness :
    ∃ r, Solve (fun _ less l => insertionSortLessFunc less l) ⟨2, 1, 1, 1, 0⟩ 1 8 NewTable =
        some r ∧ r.BestAction.ActType = ActionType.RerollAction ∧
      ∃ prevLayer : List ℚ, IsLayer NewTable 8 ((1 : Int) - 1).toNat prevLayer ∧
        r.TopRerollOptions.length =
          min 10 ((2 + 1) * (1 + 1) * (1 + 1) * (1 + 1) * (0 + 1) - 1) ∧
        r.TopRerollOptions.Pairwise (fun a b => a.EV ≥ b.EV) ∧
        (∀ o ∈ r.TopRerollOptions, o.Keep.IsKeepOf ⟨2, 1, 1, 1, 0⟩ ∧
          o.Keep.size < 5 ∧ o.NumRerolled = 5 - (o.Keep.size : Int) ∧
          keepValue prevLayer o.Keep = some o.EV) ∧
        (∃ last, r.TopRerollOptions.getLast? = some last ∧
          ∀ k : Dice, k.IsKeepOf ⟨2, 1, 1, 1, 0⟩ → k.size < 5 →
            (∀ o ∈ r.TopRerollOptions, o.Keep ≠ k) →
            ∀ v, keepValue prevLayer k = some v → v ≤ last.EV) ∧
        (∃ first, r.TopRerollOptions.head? = some first ∧
          first.EV = r.BestAction.EV) := by
  obtain ⟨r, hsolve, hact⟩ := Solve_example_reroll
  exact ⟨r, hsolve, hact, Solve_top_reroll_options (fun _ less l => insertionSortLessFunc less l)
    insertionSort_SortsRerollOptions ⟨2, 1, 1, 1, 0⟩ (by decide) 1 8 (by decide) NewTable r
    hsolve hact⟩

/-- The recommendation for five Jumbleberries with one reroll left, only Basket of Five
open and an all-zero table. -/
theorem Solve_five_jumbleberries :
    Solve (fun _ less l => insertionSortLessFunc less l) ⟨5, 0, 0, 0, 0⟩ 1 64 NewTable =
      some ⟨⟨ActionType.ScoreAction, Dice.zero, 6, 10⟩, 10, [⟨6, 10, 0, 10⟩], []⟩ := by
  decide!

/-- C21, the defect: with five Jumbleberries, one reroll left and only Basket of Five
open, scoring 10 now beats every reroll, so `Solve` returns the recommendation that
`solveScoring` built: `TopRerollOptions` is empty and `CategoryOptions` is populated
although `rollsLeft > 0`, against the comments on these two fields of `Recommendation`
and unlike the other return of `solveReroll`, which fills `TopRerollOptions`. -/
theorem Solve_score_with_rolls_left :
    ∃ r, Solve (fun _ less l => insertionSortLessFunc less l) ⟨5, 0, 0, 0, 0⟩ 1 64 NewTable =
        some r ∧ r.TopRerollOptions = [] ∧ r.CategoryOptions ≠ [] :=
  ⟨_, Solve_five_jumbleberries, rfl, by decide⟩

/-- The two shapes of a recommendation: for every 5-dice outcome `d`, table `t`,
non-empty category set `cs` within the 9 categories and `rollsLeft >= 0`, `Solve` returns
either a RerollAction with `TopRerollOptions` non-empty and `CategoryOptions` empty, which
needs `rollsLeft > 0`, or a ScoreAction with `CategoryOptions` non-empty and
`TopRerollOptions` empty.  The standard library's `sort.Slice` is taken to sort slices of
more than 12 elements. -/
theorem Solve_options_by_action (pdq : (α : Type) → (α → α → Bool) → List α → List α)
    (hpdq : SortsRerollOptions pdq) (d : Dice) (hd : d.J + d.S + d.P + d.M + d.X = 5)
    (rollsLeft : Int) (hr : 0 ≤ rollsLeft) (cs : CategorySet) (h0 : 0 < cs)
    (h1 : cs ≤ AllCategories) (t : Table) :
    ∃ r, Solve pdq d rollsLeft cs t = some r ∧
      ((r.BestAction.ActType = ActionType.RerollAction ∧ r.TopRerollOptions ≠ [] ∧
          r.CategoryOptions = [] ∧ 0 < rollsLeft) ∨
        (r.BestAction.ActType = ActionType.ScoreAction ∧ r.TopRerollOptions = [] ∧
          r.CategoryOptions ≠ [])) := by
  have hne : cs ≠ 0 := Nat.pos_iff_ne_zero.1 h0
  have hlt : cs < 512 := Nat.lt_succ_of_le h1
  have hscore : ∀ sr, solveScoring pdq d cs t = some sr →
      sr.BestAction.ActType = ActionType.ScoreAction ∧ sr.TopRerollOptions = [] ∧
        sr.CategoryOptions ≠ [] := by
    intro sr hsr
    obtain ⟨sr2, hsr2, ha, htop, hopts, _⟩ := solveScoring_spec pdq d cs t hne hlt
    rw [hsr] at hsr2
    cases hsr2
    refine ⟨ha, htop, ?_⟩
    intro hnil
    rw [hopts] at hnil
    have hperm := insertionSortLessFunc_perm
      (fun a b : CategoryOption => decide (a.TotalValue > b.TotalValue))
      ((CategorySet.ForEach cs).map (optionOf d cs t))
    rw [hnil] at hperm
    have hmap := List.map_eq_nil_iff.1 hperm.nil_eq.symm
    obtain ⟨hfe, _, _⟩ := CategorySet_facts ⟨cs, hlt⟩
    exact (hfe hne).1 hmap
  by_cases hz : rollsLeft = 0
  · obtain ⟨sr, hsr, _⟩ := solveScoring_spec pdq d cs t hne hlt
    refine ⟨sr, ?_, Or.inr (hscore sr hsr)⟩
    simp only [Solve, if_pos hz]
    exact hsr
  · have hpos : 1 ≤ rollsLeft := by omega
    obtain ⟨sr, k, v, tm, hsr, _, hk1, hk2, hk3, _, hle, hgt⟩ :=
      solveReroll_full pdq d hd rollsLeft hpos cs hne hlt t
    have hsolve : Solve pdq d rollsLeft cs t = solveReroll pdq d rollsLeft cs t := by
      simp only [Solve, if_neg hz]
    by_cases hcmp : v ≤ sr.BestAction.EV
    · exact ⟨sr, by rw [hsolve]; exact hle hcmp, Or.inr (hscore sr hsr)⟩
    · refine ⟨_, by rw [hsolve]; exact hgt (not_le.1 hcmp), Or.inl ⟨rfl, ?_, rfl, by omega⟩⟩
      obtain ⟨_, hlen, _⟩ := solveReroll_layers_eq t cs hne hlt (rollsLeft - 1).toNat
      obtain ⟨hperm, hsorted⟩ := sortSlice_rerollOptions pdq hpdq
        (rerollOptions d (layerOf t cs (rollsLeft - 1).toNat))
      obtain ⟨_, _, hall⟩ := rerollOptions_facts d hd _ hlen
      obtain ⟨_, _, _, _, t5⟩ := topOptions_facts _ _ hperm hsorted
      obtain ⟨o, ho, _, _⟩ := hall k hk1 hk2 v hk3
      have hlong : (sortSlice pdq rerollLess
          (rerollOptions d (layerOf t cs (rollsLeft - 1).toNat))).take
          (if (rerollOptions d (layerOf t cs (rollsLeft - 1).toNat)).length < 10
            then (rerollOptions d (layerOf t cs (rollsLeft - 1).toNat)).length
            else 10) ≠ [] := by
        intro hnil
        have hlen2 := (topOptions_facts _ _ hperm hsorted).1
        rw [hnil] at hlen2
        have hpos2 := List.length_pos_of_mem ho
        simp only [List.length_nil] at hlen2
        omega
      exact hlong

theorem Solve_options_by_action_witness :
    ∃ r, Solve (fun _ less l => insertionSortLessFunc less l) ⟨2, 1, 1, 1, 0⟩ 2 511
        tableWithoutJumbleberry = some r ∧
      ((r.BestAction.ActType = ActionType.RerollAction ∧ r.TopRerollOptions ≠ [] ∧
          r.CategoryOptions = [] ∧ (0 : Int) < 2) ∨
        (r.BestAction.ActType = ActionType.ScoreAction ∧ r.TopRerollOptions = [] ∧
          r.CategoryOptions ≠ [])) :=
  Solve_options_by_action (fun _ less l => insertionSortLessFunc less l)
    insertionSort_SortsRerollOptions ⟨2, 1, 1, 1, 0⟩ (by decide) 2 (by decide) 511 (by decide)
    (by decide) tableWithoutJumbleberry

theorem foldlM_congr_mem {α β : Type} (f g : β → α → Option β) :
    ∀ (l : List α) (init : β), (∀ b, ∀ a ∈ l, f b a = g b a) →
      l.foldlM f init = l.foldlM g init
  | [], _, _ => rfl
  | a :: l, init, h => by
    rw [List.foldlM_cons, List.foldlM_cons, h init a (List.mem_cons_self a l)]
    cases g init a with
    | none => rfl
    | some b => exact foldlM_congr_mem f g l b (fun b2 c hc => h b2 c (List.mem_cons_of_mem a hc))

/-- `Solve` reads the table only at the sets `cs.Remove(c)` for the categories `c` of
`cs`. -/
theorem Solve_congr (pdq : (α : Type) → (α → α → Bool) → List α → List α) (d : Dice)
    (rollsLeft : Int) (cs : CategorySet) (t1 t2 : Table)
    (h : ∀ c ∈ CategorySet.ForEach cs,
      t1.ev (CategorySet.Remove cs c) = t2.ev (CategorySet.Remove cs c)) :
    Solve pdq d rollsLeft cs t1 = Solve pdq d rollsLeft cs t2 := by
  have hEV : ∀ c ∈ CategorySet.ForEach cs,
      t1.EV (CategorySet.Remove cs c) = t2.EV (CategorySet.Remove cs c) := by
    intro c hc
    unfold Table.EV
    rw [h c hc]
  have hstep : ∀ st, ∀ c ∈ CategorySet.ForEach cs,
      solveScoring_step d cs t1 st c = solveScoring_step d cs t2 st c := by
    intro st c hc
    unfold solveScoring_step
    rw [hEV c hc]
  have hscore : solveScoring pdq d cs t1 = solveScoring pdq d cs t2 := by
    unfold solveScoring
    rw [foldlM_congr_mem _ _ _ _ hstep]
  have hv0 : solveReroll_v0 AllDice cs t1 = solveReroll_v0 AllDice cs t2 := by
    unfold solveReroll_v0
    congr 1
    funext d2
    rw [foldlM_congr_mem _ _ (CategorySet.ForEach cs) none]
    intro b c hc
    rw [hEV c hc]
  unfold Solve solveReroll
  dsimp only
  rw [hscore, hv0]

/-- C23, the defect: with five Jumbleberries, one reroll left, only Basket of Five open and
the table that `Compute` builds, `Solve` returns the scoring recommendation, whose
`TheoreticalMax` is the figure for no rolls left, 10, and not `sumMaxScores(cs)`, which
is 35 and which `theoreticalMax` returns for this state. -/
theorem Solve_theoreticalMax_score_path :
    ∃ t, Compute = some t ∧
      (Solve (fun _ less l => insertionSortLessFunc less l) ⟨5, 0, 0, 0, 0⟩ 1 64 t).map
        (fun r => r.TheoreticalMax) = some 10 ∧
      sumMaxScores 64 = some 35 ∧
      theoreticalMax ⟨5, 0, 0, 0, 0⟩ 1 64 = some 35 := by
  obtain ⟨t, ht, h0, _⟩ := Compute_table
  refine ⟨t, ht, ?_, by decide!, by decide!⟩
  have hc : Solve (fun _ less l => insertionSortLessFunc less l) ⟨5, 0, 0, 0, 0⟩ 1 64 t =
      Solve (fun _ less l => insertionSortLessFunc less l) ⟨5, 0, 0, 0, 0⟩ 1 64 NewTable := by
    apply Solve_congr
    intro c hc
    have h6 : c = 6 := by
      have hl : CategorySet.ForEach 64 = [6] := by decide
      rw [hl] at hc
      exact List.mem_singleton.1 hc
    rw [h6]
    exact h0
  rw [hc, Solve_five_jumbleberries]
  rfl

/-! ## Persistence of the table -/

theorem foldlM_append_single {α β : Type} (step : List β → α → Option (List β)) (g : α → β) :
    ∀ (l : List α) (init : List β),
      (∀ entries, ∀ a ∈ l, step entries a = some (entries ++ [g a])) →
      l.foldlM step init = some (init ++ l.map g)
  | [], init, _ => by simp
  | a :: l, init, h => by
    rw [List.foldlM_cons, h init a (List.mem_cons_self a l)]
    show List.foldlM step (init ++ [g a]) l = _
    rw [foldlM_append_single step g l _ (fun e b hb => h e b (List.mem_cons_of_mem a hb))]
    simp

theorem SaveJSON_entries_eq (t : Table) :
    SaveJSON_entries t = some ((List.range' 1 511).map (entryOf t)) := by
  unfold SaveJSON_entries
  rw [show AllCategories = (511 : Nat) from rfl]
  rw [foldlM_append_single _ (entryOf t)]
  · rfl
  · intro entries cs hcs
    rw [List.mem_range'_1] at hcs
    have hlt : cs < 512 := hcs.2
    obtain ⟨hne, _, _⟩ := CategorySet_facts ⟨cs, hlt⟩
    have hcs0 : cs ≠ 0 := Nat.ne_of_gt hcs.1
    have hcount : ¬ CategorySet.Count cs = 0 := Nat.ne_of_gt (hne hcs0).2
    have hEV : t.EV cs = some (t.ev cs) := if_pos hlt
    rw [if_neg hcount, hEV]
    rfl

/-- Writing the entries of a list of distinct in-range sets into a table. -/
theorem LoadJSON_fold (t : Table) :
    ∀ (ks : List Nat) (t0 : Table), (∀ k ∈ ks, k < 512) →
      ∃ t2, (ks.map (entryOf t)).foldlM (fun t e => t.SetEV e.CategorySet e.EV) t0 = some t2 ∧
        ∀ i, t2.ev i = if i ∈ ks then t.ev i else t0.ev i
  | [], t0, _ => ⟨t0, rfl, by simp⟩
  | k :: ks, t0, h => by
    have hk : k < 512 := h k (List.mem_cons_self k ks)
    have hset : t0.SetEV k (t.ev k) = some ⟨fun i => if i = k then t.ev k else t0.ev i⟩ :=
      if_pos hk
    obtain ⟨t2, ht2, hev⟩ := LoadJSON_fold t ks ⟨fun i => if i = k then t.ev k else t0.ev i⟩
      (fun k2 hk2 => h k2 (List.mem_cons_of_mem k hk2))
    refine ⟨t2, ?_, ?_⟩
    · rw [List.map_cons, List.foldlM_cons]
      show (t0.SetEV k (t.ev k)).bind _ = _
      rw [hset]
      exact ht2
    · intro i
      rw [hev i]
      by_cases hi : i ∈ ks
      · rw [if_pos hi, if_pos (List.mem_cons_of_mem k hi)]
      · rw [if_neg hi]
        by_cases hik : i = k
        · subst hik
          rw [if_pos (List.mem_cons_self i ks)]
          simp
        · rw [if_neg (fun hm => (List.mem_cons.1 hm).elim hik hi)]
          simp [hik]

/-- Loading what `SaveJSON` writes: every entry but that of the empty set comes back. -/
theorem LoadJSON_SaveJSON_entries (t : Table) :
    ∃ es t2, SaveJSON_entries t = some es ∧ LoadJSON_entries es = some t2 ∧
      t2.EV 0 = some 0 ∧ ∀ cs : Nat, 1 ≤ cs → cs ≤ 511 → t2.EV cs = t.EV cs := by
  have hks : ∀ k ∈ List.range' 1 511, k < 512 := by
    intro k hk
    rw [List.mem_range'_1] at hk
    omega
  obtain ⟨t2, ht2, hev⟩ := LoadJSON_fold t (List.range' 1 511) NewTable hks
  refine ⟨_, t2, SaveJSON_entries_eq t, ht2, ?_, ?_⟩
  · have h0 : (0 : Nat) ∉ List.range' 1 511 := by
      rw [List.mem_range'_1]
      omega
    have hlt : (0 : Nat) < tableSize := by decide
    unfold Table.EV
    rw [if_pos hlt, hev 0, if_neg h0]
    rfl
  · intro cs h1 h2
    have hlt : cs < tableSize := Nat.lt_succ_of_le h2
    have hmem : cs ∈ List.range' 1 511 := by
      rw [List.mem_range'_1]
      omega
    unfold Table.EV
    rw [if_pos hlt, if_pos hlt, hev cs, if_pos hmem]

/-- C26 as stated fails: `SaveJSON` writes no entry for the empty set, so for the table
`NewTable().SetEV(0, 1)` the loaded table has 0 at index 0 where the saved one has 1. -/
theorem SaveJSON_LoadJSON_empty_set :
    ∃ es t2, SaveJSON_entries tableEmptySetOne = some es ∧ LoadJSON_entries es = some t2 ∧
      t2.EV 0 = some 0 ∧ tableEmptySetOne.EV 0 = some 1 := by
  obtain ⟨es, t2, h1, h2, h3, _⟩ := LoadJSON_SaveJSON_entries tableEmptySetOne
  exact ⟨es, t2, h1, h2, h3, rfl⟩

/-- C26, amended: for every table `t`, loading the entries that `SaveJSON` writes for `t`
yields a table whose EV equals that of `t` at every index 1 through 511 and is 0 at
index 0, for which no entry is written; the round trip is exact on all 512 indices when
`t[0]` is 0.  `LoadJSON` returns that table with a nil error whenever the file read
back decodes to those entries. -/
theorem SaveJSON_LoadJSON_round_trip (t : Table) :
    ∃ es t2, SaveJSON_entries t = some es ∧ LoadJSON_entries es = some t2 ∧
      (∀ (readFile : String → Except String String)
        (unmarshal : String → Except String (List jsonEntry)) (path data : String),
        readFile path = Except.ok data → unmarshal data = Except.ok es →
        LoadJSON readFile unmarshal path = some (some t2, none)) ∧
      t2.EV 0 = some 0 ∧
      (∀ cs : Nat, 1 ≤ cs → cs ≤ 511 → t2.EV cs = t.EV cs) ∧
      (t.EV 0 = some 0 → ∀ cs : Nat, cs < 512 → t2.EV cs = t.EV cs) := by
  obtain ⟨es, t2, h1, h2, h3, h4⟩ := LoadJSON_SaveJSON_entries t
  refine ⟨es, t2, h1, h2, ?_, h3, h4, ?_⟩
  · intro readFile unmarshal path data hr hu
    unfold LoadJSON
    rw [hr]
    simp only [hu, h2]
    rfl
  · intro h0 cs hcs
    by_cases hz : cs = 0
    · rw [hz, h3, h0]
    · exact h4 cs (by omega) (by omega)

theorem SaveJSON_LoadJSON_round_trip_witness :
    ∃ es t2, SaveJSON_entries NewTable = some es ∧ LoadJSON_entries es = some t2 ∧
      (∀ (readFile : String → Except String String)
        (unmarshal : String → Except String (List jsonEntry)) (path data : String),
        readFile path = Except.ok data → unmarshal data = Except.ok es →
        LoadJSON readFile unmarshal path = some (some t2, none)) ∧
      t2.EV 0 = some 0 ∧
      (∀ cs : Nat, 1 ≤ cs → cs ≤ 511 → t2.EV cs = NewTable.EV cs) ∧
      (NewTable.EV 0 = some 0 → ∀ cs : Nat, cs < 512 → t2.EV cs = NewTable.EV cs) :=
  SaveJSON_LoadJSON_round_trip NewTable

/-- C27, the defect: a file that decodes to one entry with `category_set` 512 makes
`LoadJSON` index `t.ev[512]` in the 512-cell array: it panics instead of returning an
error. -/
theorem LoadJSON_out_of_range_panics :
    LoadJSON (fun _ => Except.ok "data") (fun _ => Except.ok [⟨512, [], 1⟩])
      "ev_table.json" = none := by
  rfl

/-- What `Load` returns when loading fails and saving the computed table fails. -/
theorem Load_of_save_failure (readFile : String → Except String String)
    (unmarshal : String → Except String (List jsonEntry))
    (marshal : List jsonEntry → Except String String)
    (writeFile : String → String → Option String) (path : String) (tbl : Option Table)
    (e1 e2 : String) (hload : LoadJSON readFile unmarshal path = some (tbl, some e1))
    (hsave : ∀ t, Compute = some t → SaveJSON marshal writeFile t path = some (some e2)) :
    Load readFile unmarshal marshal writeFile path =
      some (none, some ("error saving EV table: " ++ e2)) := by
  obtain ⟨t, ht, _⟩ := Compute_table
  unfold Load
  rw [hload]
  simp only [Option.bind_eq_bind, Option.some_bind, ht, hsave t ht]
  rfl

theorem SaveJSON_write_failure (t : Table) (path : String) :
    SaveJSON (fun _ => Except.ok "data") (fun _ _ => some "disk full") t path =
      some (some "disk full") := by
  unfold SaveJSON
  rw [SaveJSON_entries_eq]
  rfl

/-- C28 as stated fails: when the file cannot be read and the write fails, `Load` returns
the wrapped save error and a nil table, not the computed table. -/
theorem Load_save_failure_nil_table :
    Load (fun _ => Except.error "no such file") (fun _ => Except.ok [])
      (fun _ => Except.ok "data") (fun _ _ => some "disk full") "ev_table.json" =
        some (none, some "error saving EV table: disk full") :=
  Load_of_save_failure _ _ _ _ _ none "no such file" "disk full" rfl
    (fun t _ => SaveJSON_write_failure t _)

/-- C28, amended: when loading the persisted table fails and saving the freshly computed
table also fails, `evloader.Load` surfaces the save failure as an error, the message of
`fmt.Errorf` followed by the cause, and returns a nil table: the computed table is not
handed to the caller. -/
theorem Load_save_failure (readFile : String → Except String String)
    (unmarshal : String → Except String (List jsonEntry))
    (marshal : List jsonEntry → Except String String)
    (writeFile : String → String → Option String) (path : String) (tbl : Option Table)
    (e1 e2 : String) (hload : LoadJSON readFile unmarshal path = some (tbl, some e1))
    (hsave : ∀ t, Compute = some t → SaveJSON marshal writeFile t path = some (some e2)) :
    Load readFile unmarshal marshal writeFile path =
      some (none, some ("error saving EV table: " ++ e2)) :=
  Load_of_save_failure readFile unmarshal marshal writeFile path tbl e1 e2 hload hsave

theorem Load_save_failure_witness :
    Load (fun _ => Except.ok "data") (fun _ => Except.error "invalid character")
      (fun _ => Except.error "unsupported value") (fun _ _ => none) "ev_table.json" =
        some (none, some ("error saving EV table: " ++ "unsupported value")) :=
  Load_save_failure _ _ _ _ _ none "invalid character" "unsupported value" rfl
    (fun t _ => by simp [SaveJSON, SaveJSON_entries_eq])

/-! ## Bounds on layers and lookups -/

/-- A keep decision is worth at most any bound on the layer it is valued against: its
value is a probability-weighted average of entries of the layer. -/
theorem keepValue_le_bound (prev : List ℚ) (hp : 126 ≤ prev.length) (B : ℚ)
    (hB : ∀ i, i < 126 → prev.getD i 0 ≤ B) (k : Dice) (hk : k.size ≤ 5) (v : ℚ)
    (hv : keepValue prev k = some v) : v ≤ B := by
  obtain ⟨outs, _, hsum, hall, hval⟩ := keepValue_some prev hp k hk
  rw [hval] at hv
  cases hv
  have hle : (outs.map fun o => o.Prob * prev.getD (keepIndex k o) 0).sum ≤
      (outs.map fun o => o.Prob * B).sum := by
    apply List.sum_le_sum
    intro o ho
    exact mul_le_mul_of_nonneg_left (hB _ (hall o ho).2) (hall o ho).1
  have heq : (outs.map fun o => o.Prob * B).sum = B := by
    have : (outs.map fun o => o.Prob * B) = (outs.map RerollOutcome.Prob).map (fun p => p * B) := by
      rw [List.map_map]
      rfl
    rw [this, List.sum_map_mul_right, List.map_id', hsum, one_mul]
  rw [heq] at hle
  exact hle

/-- A reroll layer stays below any bound on the layer it is built from. -/
theorem IsRerollLayer_le_bound (prev out : List ℚ) (hp : 126 ≤ prev.length)
    (h : IsRerollLayer prev out) (B : ℚ) (hB : ∀ i, i < 126 → prev.getD i 0 ≤ B) :
    ∀ i, i < 126 → ∃ v, out[i]? = some v ∧ v ≤ B := by
  intro i hi
  obtain ⟨v, hv, hmem, _⟩ := h i (AllDice.getD i Dice.zero) (AllDice_getD i hi)
  refine ⟨v, hv, ?_⟩
  rcases hmem with hx | ⟨k, _, hks, hkv⟩
  · have hx2 : prev[i]? = some v := hx
    rw [← getD_of_getElem_some prev i v hx2]
    exact hB i hi
  · exact keepValue_le_bound prev hp B hB k (by omega) v hkv

theorem rerollLayerOf_le_bound (prev : List ℚ) (hp : prev.length = 126) (B : ℚ)
    (hB : ∀ i, i < 126 → prev.getD i 0 ≤ B) :
    ∀ i, i < 126 → (rerollLayerOf prev).getD i 0 ≤ B := by
  intro i hi
  obtain ⟨_, _, hs⟩ := rerollLayerOf_spec prev hp
  obtain ⟨v, hv, hle⟩ := IsRerollLayer_le_bound prev _ (le_of_eq hp.symm) hs B hB i hi
  rw [getD_of_getElem_some _ i v hv]
  exact hle

/-- A list of 126 numbers has a greatest entry. -/
theorem exists_greatest_entry (l : List ℚ) (hl : l.length = 126) :
    ∃ m, IsGreatest {x | ∃ j, j < 126 ∧ l[j]? = some x} m := by
  obtain ⟨j, hj, hmax⟩ := Finset.exists_max_image (Finset.range 126) (fun j => l.getD j 0)
    ⟨0, Finset.mem_range.2 (by decide)⟩
  have hj2 : j < 126 := Finset.mem_range.1 hj
  refine ⟨l.getD j 0, ⟨j, hj2, getElem_some_getD l j (by omega)⟩, ?_⟩
  rintro x ⟨j2, hj2lt, hx⟩
  rw [← getD_of_getElem_some l j2 x hx]
  exact hmax j2 (Finset.mem_range.2 hj2lt)

/-- C39: a reroll layer is bounded by the best value of the layer below it: for every
`prevLayer` of length 126, `ComputeRerollLayer(AllDice(), prevLayer, curLayer)` fills
`curLayer` so that every entry `curLayer[i]`, `i` in [0, 126), is at most the maximum over
`j` in [0, 126) of `prevLayer[j]`, in exact arithmetic. -/
theorem ComputeRerollLayer_le_max (prevLayer curLayer : List ℚ) (hp : prevLayer.length = 126)
    (hc : 126 ≤ curLayer.length) :
    ∃ out m, ComputeRerollLayer AllDice prevLayer curLayer = some out ∧
      IsGreatest {x | ∃ j, j < 126 ∧ prevLayer[j]? = some x} m ∧
      ∀ i, i < 126 → ∃ v, out[i]? = some v ∧ v ≤ m := by
  obtain ⟨out, hout, _, hs⟩ := ComputeRerollLayer_some prevLayer curLayer (le_of_eq hp.symm) hc
  obtain ⟨m, hm⟩ := exists_greatest_entry prevLayer hp
  refine ⟨out, m, hout, hm, ?_⟩
  apply IsRerollLayer_le_bound prevLayer out (le_of_eq hp.symm) hs m
  intro i hi
  exact hm.2 ⟨i, hi, getElem_some_getD prevLayer i (by omega)⟩

theorem ComputeRerollLayer_le_max_witness :
    ∃ out m, ComputeRerollLayer AllDice (List.replicate 126 3) (List.replicate 126 0) =
        some out ∧
      IsGreatest {x | ∃ j, j < 126 ∧ (List.replicate 126 (3 : ℚ))[j]? = some x} m ∧
      ∀ i, i < 126 → ∃ v, out[i]? = some v ∧ v ≤ m :=
  ComputeRerollLayer_le_max (List.replicate 126 3) (List.replicate 126 0) (by simp) (by simp)

/-- C36: every table lookup made while evaluating a reroll is in range and hits the
intended outcome: for every outcome `d` with 5 dice, `EnumerateKeeps(d)` returns, and for
every keep decision `k` it enumerates and every `o` in `Rerolls(5 - |k|)`, the sum
`AddDice(k, o.Dice)` is taken without `uint8` wrap-around, its counts sum to 5, its
`packDice` is below 7776, and `AllDice()[DiceIndex(AddDice(k, o.Dice))]` is that sum. -/
theorem reroll_lookup_in_range (d : Dice) (hd : d.J + d.S + d.P + d.M + d.X = 5) :
    ∃ keeps, EnumerateKeeps d = some keeps ∧
      ∀ call ∈ keeps, call.2 = call.1.size ∧ call.2 ≤ 5 ∧
        ∃ outs, Rerolls (5 - call.2) = some outs ∧
          ∀ o ∈ outs,
            AddDice call.1 o.Dice = ⟨call.1.J + o.Dice.J, call.1.S + o.Dice.S,
              call.1.P + o.Dice.P, call.1.M + o.Dice.M, call.1.X + o.Dice.X⟩ ∧
            (AddDice call.1 o.Dice).Total = 5 ∧
            packDice (AddDice call.1 o.Dice) < 7776 ∧
            ∃ i, DiceIndex (AddDice call.1 o.Dice) = some i ∧ i < 126 ∧
              AllDice[i]? = some (AddDice call.1 o.Dice) := by
  refine ⟨_, EnumerateKeeps_rec_eq d (by omega) 5 0 Dice.zero 0, ?_⟩
  intro call hcall
  obtain ⟨⟨k1, k2, k3, k4, k5⟩, hn⟩ := (mem_keepCalls d call.1 call.2).1 hcall
  have hsize : call.2 = call.1.size := hn
  have hle : call.2 ≤ 5 := by omega
  obtain ⟨outs, houts, _, hall⟩ := Rerolls_some (5 - call.2) (by omega)
  refine ⟨hsize, hle, outs, houts, ?_⟩
  intro o ho
  obtain ⟨hos, _⟩ := hall o ho
  have hos2 : o.Dice.J + o.Dice.S + o.Dice.P + o.Dice.M + o.Dice.X = 5 - call.2 := hos
  have hadd : AddDice call.1 o.Dice = ⟨call.1.J + o.Dice.J, call.1.S + o.Dice.S,
      call.1.P + o.Dice.P, call.1.M + o.Dice.M, call.1.X + o.Dice.X⟩ := by
    rw [AddDice_eq, Dice.eq_iff]
    refine ⟨?_, ?_, ?_, ?_, ?_⟩ <;> apply Nat.mod_eq_of_lt <;> omega
  have hks : call.1.size + o.Dice.size = 5 := by
    simp only [Dice.size]
    omega
  refine ⟨hadd, ?_, ?_, keep_index call.1 o.Dice hks⟩
  · rw [hadd, Dice.Total_eq]
    simp only
    omega
  · rw [hadd]
    simp only [packDice, Dice.get]
    omega

theorem reroll_lookup_in_range_witness :
    ∃ keeps, EnumerateKeeps ⟨2, 1, 1, 1, 0⟩ = some keeps ∧
      ∀ call ∈ keeps, call.2 = call.1.size ∧ call.2 ≤ 5 ∧
        ∃ outs, Rerolls (5 - call.2) = some outs ∧
          ∀ o ∈ outs,
            AddDice call.1 o.Dice = ⟨call.1.J + o.Dice.J, call.1.S + o.Dice.S,
              call.1.P + o.Dice.P, call.1.M + o.Dice.M, call.1.X + o.Dice.X⟩ ∧
            (AddDice call.1 o.Dice).Total = 5 ∧
            packDice (AddDice call.1 o.Dice) < 7776 ∧
            ∃ i, DiceIndex (AddDice call.1 o.Dice) = some i ∧ i < 126 ∧
              AllDice[i]? = some (AddDice call.1 o.Dice) :=
  reroll_lookup_in_range ⟨2, 1, 1, 1, 0⟩ (by decide)

/-! ## Bounds on the table -/

/-- No 5-dice outcome scores more in a category than the entry of `maxCategoryScore`. -/
theorem scoreValue_le_max (d : Dice) (hd : d.J + d.S + d.P + d.M + d.X = 5) (c : Category)
    (hc : c < NumCategories) :
    scoreValue d c ≤ (((maxCategoryScore c).getD 0 : Int) : ℚ) := by
  have hc9 : c < 9 := hc
  have hpts : d.Points ≤ 35 := by
    rw [Dice.Points_eq]
    omega
  obtain ⟨_, _, s, hs, he⟩ := scoreFloat_eq d c hc
  rw [he]
  have key : s ≤ (maxCategoryScore c).getD 0 := by
    interval_cases c
    · have h : Score d 0 = Except.ok ((d.J : Int) * 2) := rfl
      rw [h] at hs
      cases hs
      show (d.J : Int) * 2 ≤ 10
      omega
    · have h : Score d 1 = Except.ok ((d.S : Int) * 2) := rfl
      rw [h] at hs
      cases hs
      show (d.S : Int) * 2 ≤ 10
      omega
    · have h : Score d 2 = Except.ok ((d.P : Int) * 4) := rfl
      rw [h] at hs
      cases hs
      show (d.P : Int) * 4 ≤ 20
      omega
    · have h : Score d 3 = Except.ok ((d.M : Int) * 7) := rfl
      rw [h] at hs
      cases hs
      show (d.M : Int) * 7 ≤ 35
      omega
    · obtain ⟨s2, hs2, hle⟩ := Score_le_Points_branch (hasNOfAKind d 3 = true) d.Points 35
        (by decide) hpts
      have h : Score d 4 = Except.ok s2 := hs2
      rw [h] at hs
      cases hs
      exact hle
    · obtain ⟨s2, hs2, hle⟩ := Score_le_Points_branch (hasNOfAKind d 4 = true) d.Points 35
        (by decide) hpts
      have h : Score d 5 = Except.ok s2 := hs2
      rw [h] at hs
      cases hs
      exact hle
    · obtain ⟨s2, hs2, hle⟩ := Score_le_Points_branch (hasNOfAKind d 5 = true) d.Points 35
        (by decide) hpts
      have h : Score d 6 = Except.ok s2 := hs2
      rw [h] at hs
      cases hs
      exact hle
    · have hp22 : (d.get Jumbleberry ≥ 1 ∧ d.get Sugarberry ≥ 1 ∧
          d.get Pickleberry ≥ 1 ∧ d.get Moonberry ≥ 1) → d.Points ≤ 22 := by
        intro h
        simp only [Dice.get, Jumbleberry, Sugarberry, Pickleberry, Moonberry] at h
        rw [Dice.Points_eq]
        omega
      by_cases hm : d.get Jumbleberry ≥ 1 ∧ d.get Sugarberry ≥ 1 ∧
          d.get Pickleberry ≥ 1 ∧ d.get Moonberry ≥ 1
      · have h : Score d 7 = Except.ok d.Points := by
          show (if d.get Jumbleberry ≥ 1 ∧ d.get Sugarberry ≥ 1 ∧
            d.get Pickleberry ≥ 1 ∧ d.get Moonberry ≥ 1 then (pure d.Points : Except String Int)
            else pure 0) = _
          rw [if_pos hm]
          rfl
        rw [h] at hs
        cases hs
        exact hp22 hm
      · have h : Score d 7 = Except.ok 0 := by
          show (if d.get Jumbleberry ≥ 1 ∧ d.get Sugarberry ≥ 1 ∧
            d.get Pickleberry ≥ 1 ∧ d.get Moonberry ≥ 1 then (pure d.Points : Except String Int)
            else pure 0) = _
          rw [if_neg hm]
          rfl
        rw [h] at hs
        cases hs
        decide
    · have h : Score d 8 = Except.ok d.Points := rfl
      rw [h] at hs
      cases hs
      exact hpts
  exact_mod_cast key

/-- The sum of maximum scores splits off a member of the set. -/
theorem maxScoreSum_remove (cs : CategorySet) (c : Category) (hc : c < NumCategories)
    (hhas : CategorySet.Has cs c = true) :
    maxScoreSum cs =
      (((maxCategoryScore c).getD 0 : Int) : ℚ) + maxScoreSum (CategorySet.Remove cs c) := by
  have hc9 : c < 9 := hc
  have h16 : c < 16 := Nat.lt_of_lt_of_le hc9 (by decide)
  unfold maxScoreSum
  have hset : ((Finset.range NumCategories).filter fun c2 =>
      CategorySet.Has (CategorySet.Remove cs c) c2 = true) =
      ((Finset.range NumCategories).filter fun c2 => CategorySet.Has cs c2 = true).erase c := by
    ext c2
    simp only [Finset.mem_filter, Finset.mem_range, Finset.mem_erase]
    constructor
    · rintro ⟨h9, h⟩
      have h162 : c2 < 16 := Nat.lt_of_lt_of_le h9 (by decide)
      rw [Has_eq_testBit _ c2 h162, testBit_Remove cs c h16] at h
      simp only [Bool.and_eq_true, decide_eq_true_eq, Bool.not_eq_true',
        decide_eq_false_iff_not] at h
      refine ⟨fun e => h.2 e.symm, h9, ?_⟩
      rw [Has_eq_testBit _ c2 h162]
      exact h.1.1
    · rintro ⟨hne, h9, h⟩
      have h162 : c2 < 16 := Nat.lt_of_lt_of_le h9 (by decide)
      refine ⟨h9, ?_⟩
      rw [Has_eq_testBit _ c2 h162] at h
      rw [Has_eq_testBit _ c2 h162, testBit_Remove cs c h16, h]
      simp only [Bool.true_and, Bool.and_eq_true, decide_eq_true_eq, Bool.not_eq_true',
        decide_eq_false_iff_not]
      exact ⟨h162, fun e => hne e.symm⟩
  rw [hset]
  exact (Finset.add_sum_erase _ _ (Finset.mem_filter.2 ⟨Finset.mem_range.2 hc, hhas⟩)).symm

/-- The first-roll probabilities add up to 1. -/
theorem FirstRollProb_total :
    ((List.range 126).map fun i => (FirstRollProb i).getD 0).sum = 1 := by
  obtain ⟨hsome, hall⟩ := firstRollProb_table
  obtain ⟨probs, hp⟩ := Option.isSome_iff_exists.1 hsome
  obtain ⟨hlen, hsum, _⟩ := hall probs hp
  have heq : ((List.range 126).map fun i => (FirstRollProb i).getD 0) = probs := by
    apply List.ext_getElem?
    intro i
    by_cases hi : i < 126
    · rw [List.getElem?_map, List.getElem?_range hi]
      have h : FirstRollProb i = probs[i]? := by simp [FirstRollProb, hp, hi]
      show some ((FirstRollProb i).getD 0) = probs[i]?
      rw [h, List.getElem?_eq_getElem (by omega)]
      rfl
    · rw [List.getElem?_eq_none (by simp; omega), List.getElem?_eq_none (by omega)]
  rw [heq, hsum]

/-- The expectation over the first roll stays below any bound on the layer. -/
theorem firstRollExpectation_le_bound (a : List ℚ) (B : ℚ)
    (h : ∀ i, i < 126 → a.getD i 0 ≤ B) : firstRollExpectation a ≤ B := by
  unfold firstRollExpectation
  have hle : ((List.range 126).map fun i => (FirstRollProb i).getD 0 * a.getD i 0).sum ≤
      ((List.range 126).map fun i => (FirstRollProb i).getD 0 * B).sum := by
    apply List.sum_le_sum
    intro i hi
    have hi2 : i < 126 := List.mem_range.1 hi
    exact mul_le_mul_of_nonneg_left (h i hi2) (FirstRollProb_nonneg ⟨i, hi2⟩)
  have heq : ((List.range 126).map fun i => (FirstRollProb i).getD 0 * B).sum = B := by
    have : ((List.range 126).map fun i => (FirstRollProb i).getD 0 * B) =
        ((List.range 126).map fun i => (FirstRollProb i).getD 0).map (fun p => p * B) := by
      rw [List.map_map]
      rfl
    rw [this, List.sum_map_mul_right, List.map_id', FirstRollProb_total, one_mul]
  rw [heq] at hle
  exact hle

/-- The entries of a table that satisfies the recurrence lie between 0 and the sum of the
maximum category scores. -/
theorem Compute_bound_aux (t : Table) (hz : t.ev 0 = 0)
    (hrec : ∀ cs, cs ≠ 0 → cs < 512 → t.ev cs = evOf t cs) :
    ∀ (n : Nat) (cs : Nat), CategorySet.Count cs = n → cs < 512 →
      0 ≤ t.ev cs ∧ t.ev cs ≤ maxScoreSum cs := by
  intro n
  induction n using Nat.strong_induction_on with
  | _ n ih =>
    intro cs hcount h1
    by_cases h0 : cs = 0
    · subst h0
      rw [hz]
      exact ⟨le_refl 0, maxScoreSum_nonneg 0⟩
    · obtain ⟨_, _, hrem⟩ := CategorySet_facts ⟨cs, h1⟩
      have hsub : ∀ c ∈ CategorySet.ForEach cs,
          0 ≤ t.ev (CategorySet.Remove cs c) ∧
            t.ev (CategorySet.Remove cs c) ≤ maxScoreSum (CategorySet.Remove cs c) := by
        intro c hc
        obtain ⟨hr1, hrc⟩ := hrem c hc
        simp only at hr1 hrc
        exact ih (CategorySet.Count (CategorySet.Remove cs c)) (by omega) _ rfl hr1
      rw [hrec cs h0 h1]
      constructor
      · apply evOf_nonneg
        intro d
        obtain ⟨_, c, hc, he⟩ := layer0Value_facts t cs h0 h1 d
        rw [he]
        exact add_nonneg (scoreFloat_eq d c ((mem_ForEach cs c).1 hc).1).2.1 (hsub c hc).1
      · obtain ⟨hl0, _⟩ := layer0Of_spec t cs h0 h1
        obtain ⟨_, hl1, _⟩ := rerollLayerOf_spec (layer0Of t cs) hl0
        have hb0 : ∀ i, i < 126 → (layer0Of t cs).getD i 0 ≤ maxScoreSum cs := by
          intro i hi
          rw [layer0Of_getD t cs i hi]
          have hmem : AllDice.getD i Dice.zero ∈ AllDice := by
            obtain ⟨hlt, hget⟩ := List.getElem?_eq_some.1 (AllDice_getD i hi)
            rw [← hget]
            exact List.getElem_mem hlt
          have hsz := (mem_EnumerateAllDice _).1 hmem
          obtain ⟨_, c, hc, he⟩ := layer0Value_facts t cs h0 h1 (AllDice.getD i Dice.zero)
          obtain ⟨hc9, hhas⟩ := (mem_ForEach cs c).1 hc
          rw [he, maxScoreSum_remove cs c hc9 hhas]
          exact add_le_add (scoreValue_le_max _ hsz c hc9) (hsub c hc).2
        unfold evOf
        apply firstRollExpectation_le_bound
        apply rerollLayerOf_le_bound _ hl1
        exact rerollLayerOf_le_bound _ hl0 _ hb0

/-- C38: the expected value never exceeds the theoretical maximum: for the table `t`
returned by `Compute` and every category set `cs` within the 9 categories,
`0 <= t[cs] <= sumMaxScores(cs)`, the sum of `maxCategoryScore` over `cs`, in exact
arithmetic. -/
theorem Compute_bounded :
    ∃ t, Compute = some t ∧
      ∀ cs : CategorySet, cs ≤ AllCategories →
        ∃ v m, t.EV cs = some v ∧ sumMaxScores cs = some m ∧ 0 ≤ v ∧ v ≤ m := by
  obtain ⟨t, ht, hz, hrec⟩ := Compute_table
  refine ⟨t, ht, ?_⟩
  intro cs hcs
  have hlt : cs < 512 := Nat.lt_succ_of_le hcs
  obtain ⟨h0, h1⟩ := Compute_bound_aux t hz hrec _ cs rfl hlt
  exact ⟨t.ev cs, maxScoreSum cs, if_pos hlt, sumMaxScores_eq cs, h0, h1⟩

theorem Compute_bounded_witness :
    ∃ t, Compute = some t ∧
      ∃ v m, t.EV 511 = some v ∧ sumMaxScores 511 = some m ∧ 0 ≤ v ∧ v ≤ m := by
  obtain ⟨t, ht, h⟩ := Compute_bounded
  exact ⟨t, ht, h 511 (by decide)⟩

/-! ## The solver and the layers -/

/-- The entry of a reroll layer at the index of `d`: the greater of the entry below and
the best keep decision that rerolls. -/
theorem IsRerollLayer_entry (prev out : List ℚ) (h : IsRerollLayer prev out) (i : Nat)
    (d : Dice) (hi : AllDice[i]? = some d) (p v : ℚ) (hp : prev[i]? = some p)
    (hv : IsGreatest {x | ∃ k : Dice, k.IsKeepOf d ∧ k.size < 5 ∧
      keepValue prev k = some x} v) :
    out[i]? = some (max p v) := by
  obtain ⟨x, hx, hmem, hub⟩ := h i d hi
  have hxe : x = max p v := by
    apply le_antisymm
    · rcases hmem with h1 | h2
      · have h1b : prev[i]? = some x := h1
        have h1c : some p = some x := hp.symm.trans h1b
        cases h1c
        exact le_max_left _ _
      · exact le_trans (hv.2 h2) (le_max_right _ _)
    · apply max_le
      · exact hub (Or.inl hp)
      · exact hub (Or.inr hv.1)
  exact hx.trans (congrArg some hxe)

/-- The value `Solve` reports with `r` rerolls left, `r` being 1 or 2, is the entry of the
layer with `r` rerolls left at the index of the dice. -/
theorem Solve_layer_entry (pdq : (α : Type) → (α → α → Bool) → List α → List α) (d : Dice)
    (hd : d.size = 5) (r : Int) (hr : r = 1 ∨ r = 2) (cs : CategorySet) (h0 : cs ≠ 0)
    (h1 : cs < 512) (t : Table) :
    ∃ rec i, Solve pdq d r cs t = some rec ∧ DiceIndex d = some i ∧ i < 126 ∧
      AllDice[i]? = some d ∧ (layerOf t cs r.toNat)[i]? = some rec.BestAction.EV := by
  obtain ⟨i, hidx, hi, hget⟩ := DiceIndex_of_size d hd
  have hr1 : 1 ≤ r := by omega
  have hnz : ¬ r = 0 := by omega
  have hsolve : Solve pdq d r cs t = solveReroll pdq d r cs t := by
    simp only [Solve, if_neg hnz]
  obtain ⟨sr, k, v, _, hsr, _, hk1, hk2, hk3, hmax, hle, hgt⟩ :=
    solveReroll_full pdq d hd r hr1 cs h0 h1 t
  obtain ⟨_, hsv⟩ := solveScoring_best pdq d cs t h0 h1 sr hsr
  -- the scoring layer at the index of the dice
  obtain ⟨hl0, hs0⟩ := layer0Of_spec t cs h0 h1
  obtain ⟨x0, hx0, hx0v⟩ := hs0 i d hget
  have hx0eq : x0 = sr.BestAction.EV := hx0v.unique hsv
  rw [hx0eq] at hx0
  have hgreat : IsGreatest {x | ∃ k : Dice, k.IsKeepOf d ∧ k.size < 5 ∧
      keepValue (layerOf t cs (r - 1).toNat) k = some x} v :=
    ⟨⟨k, hk1, hk2, hk3⟩, fun x ⟨k2, a1, a2, a3⟩ => hmax k2 a1 a2 x a3⟩
  -- the value Solve reports is the greater of the two
  have hrec : ∃ rec, Solve pdq d r cs t = some rec ∧
      rec.BestAction.EV = max sr.BestAction.EV v := by
    by_cases hcmp : v ≤ sr.BestAction.EV
    · exact ⟨sr, by rw [hsolve]; exact hle hcmp, (max_eq_left hcmp).symm⟩
    · exact ⟨_, by rw [hsolve]; exact hgt (not_le.1 hcmp),
        (max_eq_right (le_of_lt (not_le.1 hcmp))).symm⟩
  obtain ⟨rec, hrec1, hrec2⟩ := hrec
  refine ⟨rec, i, hrec1, hidx, hi, hget, ?_⟩
  rw [hrec2]
  rcases hr with hr | hr
  · -- one reroll left: the layer above the scoring layer
    subst hr
    have hl : layerOf t cs (1 : Int).toNat = rerollLayerOf (layer0Of t cs) := rfl
    have hg : IsGreatest {x | ∃ k : Dice, k.IsKeepOf d ∧ k.size < 5 ∧
        keepValue (layer0Of t cs) k = some x} v := hgreat
    exact (congrArg (fun l : List ℚ => l[i]?) hl).trans
      (IsRerollLayer_entry _ _ (rerollLayerOf_spec _ hl0).2.2 i d hget _ _ hx0 hg)
  · -- two rerolls left
    subst hr
    obtain ⟨_, hl1, hs1⟩ := rerollLayerOf_spec _ hl0
    have hl : layerOf t cs (2 : Int).toNat =
        rerollLayerOf (rerollLayerOf (layer0Of t cs)) := rfl
    have hg : IsGreatest {x | ∃ k : Dice, k.IsKeepOf d ∧ k.size < 5 ∧
        keepValue (rerollLayerOf (layer0Of t cs)) k = some x} v := hgreat
    -- the best keep decision against the scoring layer
    obtain ⟨x1, hx1, hx1mem, hx1ub⟩ := hs1 i d hget
    have hx1le : x1 ≤ max sr.BestAction.EV v := by
      rcases hx1mem with a | ⟨kw, b1, b2, b3⟩
      · have a2 : (layer0Of t cs)[i]? = some x1 := a
        rw [hx0] at a2
        cases a2
        exact le_max_left _ _
      · have hkw : kw.size ≤ 5 := by omega
        obtain ⟨_, _, _, _, he⟩ := keepValue_some (rerollLayerOf (layer0Of t cs))
          (le_of_eq hl1.symm) kw hkw
        have hmono := keepValue_mono (layer0Of t cs) (rerollLayerOf (layer0Of t cs))
          (le_of_eq hl0.symm) (le_of_eq hl1.symm) (rerollLayerOf_ge _ hl0) kw hkw _ _ b3 he
        exact le_trans hmono (le_trans (hg.2 ⟨kw, b1, b2, he⟩) (le_max_right _ _))
    have hx1ge : sr.BestAction.EV ≤ x1 := hx1ub (Or.inl hx0)
    have hent := IsRerollLayer_entry _ _ (rerollLayerOf_spec _ hl1).2.2 i d hget _ _ hx1 hg
    have hmx : max x1 v = max sr.BestAction.EV v := by
      apply le_antisymm
      · exact max_le hx1le (le_max_right _ _)
      · exact max_le (le_trans hx1ge (le_max_left _ _)) (le_max_right _ _)
    exact (congrArg (fun l : List ℚ => l[i]?) hl).trans (hent.trans (congrArg some hmx))

/-- C37 as stated fails: the category set 513 is non-empty (it holds Jumbleberry) but
also has bit 9 set; the scoring layer reads `table.EV(512)`, outside the 512-entry
table, and `Solve` panics with two rerolls left instead of reporting a value. -/
theorem Solve_layers_out_of_range :
    ¬ ∃ r, Solve (fun _ _ l => l) ⟨5, 0, 0, 0, 0⟩ 2 513 NewTable = some r := by
  have h : Solve (fun _ _ l => l) ⟨5, 0, 0, 0, 0⟩ 2 513 NewTable = none := by decide!
  rintro ⟨r, hr⟩
  rw [h] at hr
  cases hr

/-- C37, amended: the online solver agrees with the layers of the dynamic program. For
every table `t`, non-empty category set `cs` within the 9 categories, 5-dice outcome `d`
and `r` in 1, 2, the BestAction.EV of `Solve(d, r, cs, t)` is `v_r[DiceIndex(d)]`, where
`v0[e]` is the maximum over `c` in `cs` of `Score(e, c) + t[cs without c]` and
`v_j = rerollLayer(v_(j-1))`. Consequently the table of `Compute` satisfies
`t[cs] = sum over d of FirstRollProb(d) * (BestAction.EV of Solve(d, 2, cs, t))`. -/
theorem Solve_agrees_with_layers (pdq : (α : Type) → (α → α → Bool) → List α → List α) :
    (∀ (t : Table) (cs : CategorySet), 0 < cs → cs ≤ AllCategories →
      ∀ d : Dice, d.J + d.S + d.P + d.M + d.X = 5 → ∀ r : Int, r = 1 ∨ r = 2 →
        ∃ (rec : Recommendation) (i : Nat) (v0 v1 v2 : List ℚ),
          Solve pdq d r cs t = some rec ∧ DiceIndex d = some i ∧
          (v0.length = 126 ∧ IsLayer0 t cs v0) ∧
          ComputeRerollLayer AllDice v0 (List.replicate 126 0) = some v1 ∧
          ComputeRerollLayer AllDice v1 (List.replicate 126 0) = some v2 ∧
          (r = 1 → v1[i]? = some rec.BestAction.EV) ∧
          (r = 2 → v2[i]? = some rec.BestAction.EV)) ∧
    ∃ t, Compute = some t ∧
      ∀ cs : CategorySet, 0 < cs → cs ≤ AllCategories →
        ∃ evs : List ℚ, evs.length = 126 ∧
          (∀ (i : Nat) (d : Dice), AllDice[i]? = some d →
            ∃ rec, Solve pdq d 2 cs t = some rec ∧ evs[i]? = some rec.BestAction.EV) ∧
          t.EV cs = some (firstRollExpectation evs) := by
  constructor
  · intro t cs hpos hle d hd r hr
    have h0 : cs ≠ 0 := Nat.pos_iff_ne_zero.1 hpos
    have h1 : cs < 512 := Nat.lt_succ_of_le hle
    obtain ⟨rec, i, hrec, hidx, _, _, hent⟩ := Solve_layer_entry pdq d hd r hr cs h0 h1 t
    obtain ⟨hl0, hs0⟩ := layer0Of_spec t cs h0 h1
    obtain ⟨hc1, hl1, _⟩ := rerollLayerOf_spec (layer0Of t cs) hl0
    obtain ⟨hc2, _, _⟩ := rerollLayerOf_spec (rerollLayerOf (layer0Of t cs)) hl1
    refine ⟨rec, i, _, _, _, hrec, hidx, ⟨hl0, hs0⟩, hc1, hc2, ?_, ?_⟩
    · intro hr1
      subst hr1
      exact hent
    · intro hr2
      subst hr2
      exact hent
  · obtain ⟨t, ht, _, hrec⟩ := Compute_table
    refine ⟨t, ht, ?_⟩
    intro cs hpos hle
    have h0 : cs ≠ 0 := Nat.pos_iff_ne_zero.1 hpos
    have h1 : cs < 512 := Nat.lt_succ_of_le hle
    obtain ⟨_, hlen, _⟩ := solveReroll_layers_eq t cs h0 h1 2
    refine ⟨layerOf t cs 2, hlen, ?_, ?_⟩
    · intro i d hget
      obtain ⟨hi, hsize⟩ := AllDice_getElem i d hget
      obtain ⟨rec, j, hsolve, hidx, _, hgetj, hent⟩ :=
        Solve_layer_entry pdq d hsize 2 (Or.inr rfl) cs h0 h1 t
      have hij : j = i := by
        have hki := DiceIndex_AllDice_fin ⟨i, hi⟩
        simp only [hget, Option.some_bind, hidx] at hki
        exact Option.some.inj hki
      subst hij
      exact ⟨rec, hsolve, hent⟩
    · have hlt : cs < tableSize := h1
      rw [Table.EV, if_pos hlt, hrec cs h0 h1]
      rfl

theorem Solve_agrees_with_layers_witness :
    (∃ (rec : Recommendation) (i : Nat) (v0 v1 v2 : List ℚ),
      Solve (fun _ less l => insertionSortLessFunc less l) ⟨5, 0, 0, 0, 0⟩ 1 8 NewTable
        = some rec ∧
      DiceIndex ⟨5, 0, 0, 0, 0⟩ = some i ∧
      (v0.length = 126 ∧ IsLayer0 NewTable 8 v0) ∧
      ComputeRerollLayer AllDice v0 (List.replicate 126 0) = some v1 ∧
      ComputeRerollLayer AllDice v1 (List.replicate 126 0) = some v2 ∧
      ((1 : Int) = 1 → v1[i]? = some rec.BestAction.EV) ∧
      ((1 : Int) = 2 → v2[i]? = some rec.BestAction.EV)) ∧
    ∃ t, Compute = some t ∧
      ∃ evs : List ℚ, evs.length = 126 ∧
        (∀ (i : Nat) (d : Dice), AllDice[i]? = some d →
          ∃ rec, Solve (fun _ less l => insertionSortLessFunc less l) d 2 8 t = some rec ∧
            evs[i]? = some rec.BestAction.EV) ∧
        t.EV 8 = some (firstRollExpectation evs) := by
  obtain ⟨h1, t, ht, h2⟩ :=
    Solve_agrees_with_layers (fun _ less l => insertionSortLessFunc less l)
  exact ⟨h1 NewTable 8 (by decide) (by decide) ⟨5, 0, 0, 0, 0⟩ (by decide) 1 (Or.inl rfl),
    t, ht, h2 8 (by decide) (by decide)⟩

/-! ## Parsing dice -/

theorem mem_TrimSpace (s : List Char) (c : Char) (h : c ∈ strings.TrimSpace s) : c ∈ s :=
  (List.dropWhile_suffix _).subset ((List.rdropWhile_prefix _ _).subset h)

theorem isAllLetters_ascii (t1 t2 : Char → Bool) (s : List Char)
    (h : ∀ c ∈ s, c.toNat < 128) : isAllLetters t1 s = isAllLetters t2 s := by
  unfold isAllLetters
  induction s with
  | nil => rfl
  | cons c s ih =>
    have hc : c.toNat < 128 := h c (List.mem_cons_self _ _)
    simp only [List.all_cons, unicode.IsLetter, if_pos hc]
    rw [ih fun x hx => h x (List.mem_cons_of_mem _ hx)]

/-- On an input of ASCII characters `ParseDice` does not consult the letter tables. -/
theorem ParseDice_ascii (t1 t2 : Char → Bool) (input : String)
    (h : ∀ c ∈ input.data, c.toNat < 128) : ParseDice t1 input = ParseDice t2 input := by
  unfold ParseDice
  simp only
  rw [isAllLetters_ascii t1 t2 _ fun c hc => h c (mem_TrimSpace _ c hc)]

theorem ToLower_ascii (t1 t2 : Char → Char) (s : List Char) (h : ∀ c ∈ s, c.toNat < 128) :
    strings.ToLower t1 s = strings.ToLower t2 s := by
  unfold strings.ToLower
  apply List.map_congr_left
  intro c hc
  simp only [unicode.ToLower, if_pos (h c hc)]

/-- On an input of ASCII characters `ParseCategories` does not consult the case tables. -/
theorem ParseCategories_ascii (t1 t2 : Char → Char) (input : String)
    (h : ∀ c ∈ input.data, c.toNat < 128) :
    ParseCategories t1 input = ParseCategories t2 input := by
  unfold ParseCategories
  rw [ToLower_ascii t1 t2 _ h]

theorem Dice.size_set (d : Dice) (b : Berry) (v : Nat) :
    (d.set b v).size + d.get b = d.size + v := by
  unfold Dice.set Dice.get Dice.size
  split <;> simp only <;> omega

theorem Dice.get_le_size (d : Dice) (b : Berry) : d.get b ≤ d.size := by
  unfold Dice.get Dice.size
  split <;> omega

/-- The loop of `parseDiceSequence` adds one die per byte. -/
theorem parseDiceSequence_fold :
    ∀ (bs : List Nat) (d0 d : Dice), d0.size + bs.length ≤ 255 →
      bs.foldlM
        (fun d byte =>
          match berryLetters byte with
          | none => (Except.error "unknown die face" : Except String Dice)
          | some b => Except.ok (d.set b ((d.get b + 1) % 256)))
        d0 = Except.ok d →
      d.size = d0.size + bs.length
  | [], d0, d, _, h => by
    cases h
    rfl
  | byte :: bs, d0, d, hle, h => by
    rw [List.foldlM_cons] at h
    cases hb : berryLetters byte with
    | none =>
      rw [hb] at h
      cases h
    | some b =>
      rw [hb] at h
      have hlen : (byte :: bs).length = bs.length + 1 := rfl
      have hg := Dice.get_le_size d0 b
      have hmod : (d0.get b + 1) % 256 = d0.get b + 1 := Nat.mod_eq_of_lt (by omega)
      have hs := Dice.size_set d0 b (d0.get b + 1)
      have h2 := parseDiceSequence_fold bs (d0.set b ((d0.get b + 1) % 256)) d
        (by rw [hmod]; omega) h
      rw [h2, hmod]
      omega

theorem len_TrimSpace_le (s : List Char) : (strings.TrimSpace s).length ≤ s.length :=
  le_trans (List.rdropWhile_prefix _ _).length_le (List.dropWhile_suffix _).length_le

/-- What `ParseDice` returns without an error has five dice. -/
theorem ParseDice_size (letterTable : Char → Bool) (input : String) (d : Dice)
    (h : ParseDice letterTable input = Except.ok d) : d.size = 5 := by
  unfold ParseDice at h
  simp only at h
  split at h
  · cases h
  · split at h
    · rename_i hseq
      have h2 := parseDiceSequence_fold _ Dice.zero d
        (by
          have h5 : (bytes (strings.TrimSpace input.data)).length = NumDice := hseq.1
          rw [h5]
          decide) h
      have h5 : (bytes (strings.TrimSpace input.data)).length = 5 := hseq.1
      rw [h2, h5]
      rfl
    · unfold parseDiceCounts at h
      split at h
      · cases h
      · split at h
        · cases h
        · rename_i d2 _ htot
          cases h
          have ht : d.Total = ((5 : Nat) : Int) := not_not.1 htot
          rw [Dice.Total_eq] at ht
          exact Int.ofNat.inj ht

set_option maxRecDepth 100000 in
theorem FormatKeep_ParseDice_table :
    ∀ d ∈ AllDice, (∀ c ∈ (FormatKeep d).data, c.toNat < 128) ∧
      ParseDice (fun _ => false) (FormatKeep d) = Except.ok d := by decide!

/-- C31: `ParseDice` only ever yields a valid outcome: for every input string, if it
returns no error then the counts of the returned Dice sum to exactly 5, so every count is
at most 5. -/
theorem ParseDice_valid_outcome (letterTable : Char → Bool) (input : String) (d : Dice)
    (h : ParseDice letterTable input = Except.ok d) :
    d.J + d.S + d.P + d.M + d.X = 5 ∧
      d.J ≤ 5 ∧ d.S ≤ 5 ∧ d.P ≤ 5 ∧ d.M ≤ 5 ∧ d.X ≤ 5 := by
  have hs : d.J + d.S + d.P + d.M + d.X = 5 := ParseDice_size letterTable input d h
  omega

theorem ParseDice_valid_outcome_witness :
    ParseDice (fun _ => false) "3M 2x" = Except.ok ⟨0, 0, 0, 3, 2⟩ ∧
      (0 + 0 + 0 + 3 + 2 = 5 ∧ 0 ≤ 5 ∧ 0 ≤ 5 ∧ 0 ≤ 5 ∧ 3 ≤ 5 ∧ 2 ≤ 5) :=
  ⟨by decide, ParseDice_valid_outcome (fun _ => false) "3M 2x" ⟨0, 0, 0, 3, 2⟩ (by decide)⟩

/-- C33 fails on the count format input 261J: the written counts sum to 261, yet
`uint8(count)` keeps 261 modulo 256 and `ParseDice` returns five Jumbleberries with no
error. The same happens on 256J 5S, where the first token adds nothing. -/
theorem ParseDice_count_truncated (letterTable : Char → Bool) :
    ParseDice letterTable "261J" = Except.ok ⟨5, 0, 0, 0, 0⟩ ∧
      ParseDice letterTable "256J 5S" = Except.ok ⟨0, 5, 0, 0, 0⟩ :=
  ⟨(ParseDice_ascii letterTable (fun _ => false) "261J" (by decide)).trans (by decide),
    (ParseDice_ascii letterTable (fun _ => false) "256J 5S" (by decide)).trans (by decide)⟩

/-- C35 fails on the input all-j-s-p-m-3k-4k-5k-mix-fr: every category is removed from
AllCategories and `ParseCategories` returns the empty set with no error, where the
comma-separated branch rejects an empty set. -/
theorem ParseCategories_all_removed (lowerTable : Char → Char) :
    ParseCategories lowerTable "all-j-s-p-m-3k-4k-5k-mix-fr" = Except.ok 0 ∧
      ParseCategories lowerTable ",," = Except.error "no valid categories specified" :=
  ⟨(ParseCategories_ascii lowerTable (fun c => c) "all-j-s-p-m-3k-4k-5k-mix-fr"
      (by decide)).trans (by decide),
    (ParseCategories_ascii lowerTable (fun c => c) ",," (by decide)).trans (by decide)⟩

/-- C40: keep notation round-trips through the dice parser: for every outcome `d` with
counts summing to 5, `ParseDice(FormatKeep(d))` returns `d` with no error. -/
theorem FormatKeep_round_trip (letterTable : Char → Bool) (d : Dice)
    (hd : d.J + d.S + d.P + d.M + d.X = 5) :
    ParseDice letterTable (FormatKeep d) = Except.ok d := by
  have hmem : d ∈ AllDice := (mem_EnumerateAllDice d).2 hd
  obtain ⟨hascii, hparse⟩ := FormatKeep_ParseDice_table d hmem
  exact (ParseDice_ascii letterTable (fun _ => false) (FormatKeep d) hascii).trans hparse

theorem FormatKeep_round_trip_witness :
    (2 + 1 + 0 + 1 + 1 = 5) ∧ FormatKeep ⟨2, 1, 0, 1, 1⟩ = "2J 1S 1M 1X" ∧
      ParseDice (fun _ => false) (FormatKeep ⟨2, 1, 0, 1, 1⟩) = Except.ok ⟨2, 1, 0, 1, 1⟩ :=
  ⟨by decide, by decide, FormatKeep_round_trip (fun _ => false) ⟨2, 1, 0, 1, 1⟩ (by decide)⟩

/-! ## The sequence format -/

theorem utf8Bytes_ascii (c : Char) (h : c.toNat < 128) : utf8Bytes c = [c.toNat] := by
  simp only [utf8Bytes, if_pos h]

theorem utf8Bytes_beyond_ascii (c : Char) (h : ¬ c.toNat < 128) :
    ∃ b0 rest, utf8Bytes c = b0 :: rest ∧ 192 ≤ b0 := by
  unfold utf8Bytes
  rw [if_neg h]
  split
  · exact ⟨_, _, rfl, Nat.le_add_right _ _⟩
  · split
    · exact ⟨_, _, rfl, le_trans (by decide) (Nat.le_add_right _ _)⟩
    · exact ⟨_, _, rfl, le_trans (by decide) (Nat.le_add_right _ _)⟩

theorem bytes_cons (c : Char) (s : List Char) : bytes (c :: s) = utf8Bytes c ++ bytes s := by
  simp [bytes]

theorem bytes_ascii : ∀ (s : List Char), (∀ c ∈ s, c.toNat < 128) → bytes s = s.map Char.toNat
  | [], _ => rfl
  | c :: s, h => by
    rw [bytes_cons, utf8Bytes_ascii c (h c (List.mem_cons_self _ _)),
      bytes_ascii s fun x hx => h x (List.mem_cons_of_mem _ hx)]
    rfl

theorem berryLetters_none_of_ge (b : Nat) (h : 123 ≤ b) : berryLetters b = none := by
  unfold berryLetters
  split <;> first | rfl | omega

theorem berryLetters_some_mem (c : Char) (k : Berry) (h : berryLetters c.toNat = some k) :
    c ∈ ['J', 'S', 'P', 'M', 'X', 'j', 's', 'p', 'm', 'x'] := by
  have hc : Char.ofNat c.toNat = c := Char.ofNat_toNat c
  unfold berryLetters at h
  split at h <;> first
    | (rename_i e; rw [e] at hc; rw [← hc]; decide)
    | cases h

theorem parseDiceSequence_error :
    ∀ (bs : List Nat) (d0 : Dice), (∃ b ∈ bs, berryLetters b = none) →
      ∃ err, bs.foldlM
        (fun d byte =>
          match berryLetters byte with
          | none => (Except.error "unknown die face" : Except String Dice)
          | some b => Except.ok (d.set b ((d.get b + 1) % 256)))
        d0 = Except.error err
  | [], _, h => by
    obtain ⟨b, hb, _⟩ := h
    cases hb
  | byte :: bs, d0, h => by
    rw [List.foldlM_cons]
    cases hb : berryLetters byte with
    | none => exact ⟨_, rfl⟩
    | some k =>
      obtain ⟨b, hmem, hnone⟩ := h
      rcases List.mem_cons.1 hmem with e | hmem2
      · rw [e, hb] at hnone
        cases hnone
      · exact parseDiceSequence_error bs _ ⟨b, hmem2, hnone⟩

theorem FieldsFrom_first :
    ∀ (s cur : List Char), cur ≠ [] →
      ∃ pre rest, strings.FieldsFrom s cur = (cur.reverse ++ pre) :: rest
  | [], cur, h => ⟨[], [], by simp [strings.FieldsFrom, h]⟩
  | r :: s, cur, h => by
    unfold strings.FieldsFrom
    by_cases hr : unicode.IsSpace r = true
    · rw [if_pos hr, if_neg h]
      exact ⟨[], strings.FieldsFrom s [], by simp⟩
    · obtain ⟨pre, rest, e⟩ := FieldsFrom_first s (r :: cur) (by simp)
      rw [if_neg hr, e]
      exact ⟨r :: pre, rest, by simp⟩

theorem Fields_first (c : Char) (s : List Char) (hc : unicode.IsSpace c = false) :
    ∃ pre rest, strings.Fields (c :: s) = (c :: pre) :: rest := by
  obtain ⟨pre, rest, e⟩ := FieldsFrom_first s [c] (by simp)
  refine ⟨pre, rest, ?_⟩
  unfold strings.Fields strings.FieldsFrom
  rw [if_neg (by simp [hc]), e]
  rfl

/-- A token whose first byte is not a digit is refused. -/
theorem parseDiceCounts_token_error (d : Dice) (c : Char) (pre : List Char)
    (hb : ∃ b0 rest, utf8Bytes c = b0 :: rest ∧ ¬ (48 ≤ b0 ∧ b0 ≤ 57)) :
    ∃ err, parseDiceCounts_token d (c :: pre) = Except.error err := by
  obtain ⟨b0, rest, e, hnd⟩ := hb
  have hidx : letterIdx (bytes (c :: pre)) = 0 := by
    rw [bytes_cons, e]
    unfold letterIdx
    rw [List.cons_append, List.takeWhile_cons, if_neg (by simpa using hnd)]
    rfl
  unfold parseDiceCounts_token
  simp only [hidx]
  split
  · exact ⟨_, rfl⟩
  · exact ⟨_, rfl⟩

theorem parseDiceCounts_error (input : List Char) (tok : List Char) (rest : List (List Char))
    (hf : strings.Fields input = tok :: rest)
    (ht : ∃ err, parseDiceCounts_token Dice.zero tok = Except.error err) :
    ∃ err, parseDiceCounts input = Except.error err := by
  obtain ⟨err, he⟩ := ht
  unfold parseDiceCounts
  rw [hf, List.foldlM_cons, he]
  exact ⟨err, rfl⟩

theorem TrimSpace_head (s : List Char) :
    strings.TrimSpace s = [] ∨
      ∃ c t, strings.TrimSpace s = c :: t ∧ unicode.IsSpace c = false := by
  unfold strings.TrimSpace
  cases hu : s.dropWhile unicode.IsSpace with
  | nil => exact Or.inl rfl
  | cons c u =>
    right
    have hc : ¬ unicode.IsSpace c = true := by
      have h := List.head_dropWhile_not unicode.IsSpace s
        (by rw [hu]; exact List.cons_ne_nil _ _)
      simpa [hu] using h
    have hne : (c :: u).rdropWhile unicode.IsSpace ≠ [] := by
      intro hnil
      rw [List.rdropWhile_eq_nil_iff] at hnil
      exact hc (hnil c (List.mem_cons_self _ _))
    have hpre := List.rdropWhile_prefix unicode.IsSpace (c :: u)
    cases ht : (c :: u).rdropWhile unicode.IsSpace with
    | nil => exact absurd ht hne
    | cons x t =>
      rw [ht] at hpre
      obtain ⟨w, hw⟩ := hpre
      have hx : x = c := by
        have := List.head_eq_of_cons_eq hw
        exact this
      subst hx
      exact ⟨x, t, rfl, by simpa using hc⟩

theorem TrimSpace_eq_of_length (s : List Char)
    (h : (strings.TrimSpace s).length = s.length) : strings.TrimSpace s = s := by
  have h1 := List.rdropWhile_prefix unicode.IsSpace (s.dropWhile unicode.IsSpace)
  have h2 := List.dropWhile_suffix (l := s) unicode.IsSpace
  have hl1 := h1.length_le
  have hl2 := h2.length_le
  have e2 : s.dropWhile unicode.IsSpace = s := h2.eq_of_length (by
    unfold strings.TrimSpace at h
    omega)
  unfold strings.TrimSpace at h ⊢
  exact (h1.eq_of_length (by rw [h, e2])).trans e2

/-- The loop of `parseDiceSequence` on berry letters counts the occurrences of each
letter. -/
theorem parseDiceSequence_letters :
    ∀ (s : List Char) (d0 : Dice),
      (∀ c ∈ s, c ∈ ['J', 'S', 'P', 'M', 'X', 'j', 's', 'p', 'm', 'x']) →
      d0.size + s.length ≤ 255 →
      (bytes s).foldlM
        (fun d byte =>
          match berryLetters byte with
          | none => (Except.error "unknown die face" : Except String Dice)
          | some b => Except.ok (d.set b ((d.get b + 1) % 256)))
        d0 = Except.ok ⟨d0.J + (s.count 'J' + s.count 'j'), d0.S + (s.count 'S' + s.count 's'),
          d0.P + (s.count 'P' + s.count 'p'), d0.M + (s.count 'M' + s.count 'm'),
          d0.X + (s.count 'X' + s.count 'x')⟩
  | [], d0, _, _ => by
    cases d0
    rfl
  | c :: s, d0, h, hle => by
    have hc := h c (List.mem_cons_self _ _)
    have hs : ∀ x ∈ s, x ∈ ['J', 'S', 'P', 'M', 'X', 'j', 's', 'p', 'm', 'x'] :=
      fun x hx => h x (List.mem_cons_of_mem _ hx)
    have hlen : (c :: s).length = s.length + 1 := rfl
    have hsz : d0.size = d0.J + d0.S + d0.P + d0.M + d0.X := rfl
    have hm : ∀ n : Nat, n ≤ d0.size → (n + 1) % 256 = n + 1 := fun n hn =>
      Nat.mod_eq_of_lt (by omega)
    simp only [List.mem_cons, List.mem_singleton, List.not_mem_nil, or_false] at hc
    rcases hc with e | e | e | e | e | e | e | e | e | e <;> subst e <;>
      rw [bytes_cons, utf8Bytes_ascii _ (by decide), List.singleton_append, List.foldlM_cons] <;>
      simp only [Char.reduceToNat, berryLetters, Jumbleberry, Sugarberry, Pickleberry,
        Moonberry, Pest, Dice.set, Dice.get] <;>
      (first
        | rw [hm d0.J (by omega)]
        | rw [hm d0.S (by omega)]
        | rw [hm d0.P (by omega)]
        | rw [hm d0.M (by omega)]
        | rw [hm d0.X (by omega)]) <;>
      (refine (parseDiceSequence_letters s _ hs (by simp only [Dice.size]; omega)).trans ?_) <;>
      simp only [List.count_cons, beq_iff_eq, Char.reduceEq, if_true, if_false,
        Nat.add_zero] <;>
      (congr 2; omega)

theorem TrimSpace_of_no_space (s : List Char) (h : ∀ c ∈ s, unicode.IsSpace c = false) :
    strings.TrimSpace s = s := by
  have e1 : s.dropWhile unicode.IsSpace = s := by
    rw [List.dropWhile_eq_self_iff]
    intro hl
    rw [h _ (List.get_mem _ _ _)]
    simp
  unfold strings.TrimSpace
  rw [e1, List.rdropWhile_eq_self_iff]
  intro hl
  rw [h _ (List.getLast_mem hl)]
  simp

theorem berry_letter_facts :
    ∀ c ∈ ['J', 'S', 'P', 'M', 'X', 'j', 's', 'p', 'm', 'x'],
      unicode.IsSpace c = false ∧ c.toNat < 128 := by decide

theorem isAllLetters_iff (letterTable : Char → Bool) (s : List Char) :
    isAllLetters letterTable s = true ↔ ∀ c ∈ s, unicode.IsLetter letterTable c = true := by
  unfold isAllLetters
  exact List.all_eq_true

/-- The first byte of a letter is not a digit. -/
theorem letter_first_byte (letterTable : Char → Bool) (c : Char)
    (h : unicode.IsLetter letterTable c = true) :
    ∃ b0 rest, utf8Bytes c = b0 :: rest ∧ ¬ (48 ≤ b0 ∧ b0 ≤ 57) := by
  by_cases hc : c.toNat < 128
  · refine ⟨c.toNat, [], utf8Bytes_ascii c hc, ?_⟩
    unfold unicode.IsLetter at h
    rw [if_pos hc] at h
    simp only [Bool.or_eq_true, Bool.and_eq_true, decide_eq_true_eq] at h
    omega
  · obtain ⟨b0, rest, e, hb⟩ := utf8Bytes_beyond_ascii c hc
    exact ⟨b0, rest, e, by omega⟩

/-- C32: the sequence format. For every string of exactly 5 characters drawn from J, S, P,
M, X in either case, `ParseDice` returns no error and the Dice whose count for each face
is the number of occurrences of that face's letter; a string of 5 letters holding any
other letter is rejected with an error. -/
theorem ParseDice_sequence_format (letterTable : Char → Bool) (s : List Char)
    (hlen : s.length = 5) :
    ((∀ c ∈ s, c ∈ ['J', 'S', 'P', 'M', 'X', 'j', 's', 'p', 'm', 'x']) →
      ParseDice letterTable (String.mk s) =
        Except.ok ⟨s.count 'J' + s.count 'j', s.count 'S' + s.count 's',
          s.count 'P' + s.count 'p', s.count 'M' + s.count 'm',
          s.count 'X' + s.count 'x'⟩) ∧
    ((∀ c ∈ s, unicode.IsLetter letterTable c = true) →
      (∃ c ∈ s, c ∉ ['J', 'S', 'P', 'M', 'X', 'j', 's', 'p', 'm', 'x']) →
      ∃ err, ParseDice letterTable (String.mk s) = Except.error err) := by
  constructor
  · intro h
    have htrim : strings.TrimSpace s = s :=
      TrimSpace_of_no_space s fun c hc => (berry_letter_facts c (h c hc)).1
    have hbytes : bytes s = s.map Char.toNat :=
      bytes_ascii s fun c hc => (berry_letter_facts c (h c hc)).2
    have hl : len s = 5 := by
      unfold len
      rw [hbytes, List.length_map, hlen]
    have hall : isAllLetters letterTable s = true := by
      rw [isAllLetters_iff]
      intro c hc
      have hm := h c hc
      simp only [List.mem_cons, List.mem_singleton, List.not_mem_nil, or_false] at hm
      rcases hm with e | e | e | e | e | e | e | e | e | e <;> subst e <;> rfl
    unfold ParseDice
    simp only [htrim]
    rw [if_neg (by rw [hl]; decide), if_pos ⟨hl, hall⟩]
    unfold parseDiceSequence
    refine (parseDiceSequence_letters s Dice.zero h (by rw [hlen]; decide)).trans ?_
    simp only [Dice.zero, Nat.zero_add]
  · intro hlet ⟨c0, hc0, hbad⟩
    unfold ParseDice
    simp only
    split
    · exact ⟨_, rfl⟩
    · rename_i hne
      split
      · rename_i hseq
        unfold parseDiceSequence
        apply parseDiceSequence_error
        by_cases hascii : ∀ c ∈ strings.TrimSpace s, c.toNat < 128
        · have hb := bytes_ascii _ hascii
          have h5 : (bytes (strings.TrimSpace s)).length = 5 := hseq.1
          rw [hb, List.length_map] at h5
          have hts := TrimSpace_eq_of_length s (by rw [h5, hlen])
          rw [hts] at hb hascii
          refine ⟨c0.toNat, ?_, ?_⟩
          · rw [hts, hb]
            exact List.mem_map_of_mem _ hc0
          · cases hk : berryLetters c0.toNat with
            | none => rfl
            | some k => exact absurd (berryLetters_some_mem c0 k hk) hbad
        · push_neg at hascii
          obtain ⟨c, hc, hge⟩ := hascii
          obtain ⟨b0, rest, e, hb0⟩ := utf8Bytes_beyond_ascii c (not_lt.2 hge)
          refine ⟨b0, ?_, berryLetters_none_of_ge b0 (by omega)⟩
          unfold bytes
          rw [List.mem_flatMap]
          exact ⟨c, hc, by rw [e]; exact List.mem_cons_self _ _⟩
      · rcases TrimSpace_head s with hnil | ⟨c, t, ht, hsp⟩
        · exfalso
          apply hne
          rw [hnil]
          rfl
        · obtain ⟨pre, rest, hf⟩ := Fields_first c t hsp
          rw [ht]
          have hcs : c ∈ s := mem_TrimSpace s c (by rw [ht]; exact List.mem_cons_self _ _)
          exact parseDiceCounts_error _ _ _ hf
            (parseDiceCounts_token_error _ c pre (letter_first_byte letterTable c (hlet c hcs)))

theorem ParseDice_sequence_format_witness :
    ((∀ c ∈ ['J', 'j', 's', 'P', 'M'], c ∈ ['J', 'S', 'P', 'M', 'X', 'j', 's', 'p', 'm', 'x']) ∧
      ParseDice (fun _ => false) (String.mk ['J', 'j', 's', 'P', 'M']) =
        Except.ok ⟨['J', 'j', 's', 'P', 'M'].count 'J' + ['J', 'j', 's', 'P', 'M'].count 'j',
          ['J', 'j', 's', 'P', 'M'].count 'S' + ['J', 'j', 's', 'P', 'M'].count 's',
          ['J', 'j', 's', 'P', 'M'].count 'P' + ['J', 'j', 's', 'P', 'M'].count 'p',
          ['J', 'j', 's', 'P', 'M'].count 'M' + ['J', 'j', 's', 'P', 'M'].count 'm',
          ['J', 'j', 's', 'P', 'M'].count 'X' + ['J', 'j', 's', 'P', 'M'].count 'x'⟩) ∧
    ((∀ c ∈ ['J', 'J', 'S', 'P', 'Q'], unicode.IsLetter (fun _ => false) c = true) ∧
      (∃ c ∈ ['J', 'J', 'S', 'P', 'Q'], c ∉ ['J', 'S', 'P', 'M', 'X', 'j', 's', 'p', 'm', 'x']) ∧
      ∃ err, ParseDice (fun _ => false) (String.mk ['J', 'J', 'S', 'P', 'Q']) =
        Except.error err) :=
  ⟨⟨by decide,
      (ParseDice_sequence_format (fun _ => false) ['J', 'j', 's', 'P', 'M'] rfl).1 (by decide)⟩,
    by decide, by decide,
    (ParseDice_sequence_format (fun _ => false) ['J', 'J', 'S', 'P', 'Q'] rfl).2 (by decide)
      (by decide)⟩

/-! ## Parsing categories -/

theorem categoryAliases_lt (e : List Char) (c : Category) (h : categoryAliases e = some c) :
    c < 9 := by
  unfold categoryAliases at h
  split at h <;> first
    | (cases h; decide)
    | cases h

/-- The loops of `ParseCategories` on parts that are blank or known: the set operation
applied for each named element in turn. -/
theorem ParseCategories_parts_known (op : CategorySet → Category → CategorySet) :
    ∀ (parts : List (List Char)) (cs : CategorySet),
      (∀ e ∈ (parts.map strings.TrimSpace).filter (fun e => e ≠ []),
        (categoryAliases e).isSome = true) →
      ParseCategories_parts op parts cs =
        Except.ok (((parts.map strings.TrimSpace).filter fun e => e ≠ []).foldl
          (fun cs e => op cs ((categoryAliases e).getD 0)) cs)
  | [], cs, _ => rfl
  | part :: parts, cs, h => by
    unfold ParseCategories_parts
    rw [List.foldlM_cons]
    by_cases hb : strings.TrimSpace part = []
    · have hf : ((part :: parts).map strings.TrimSpace).filter (fun e => e ≠ []) =
          (parts.map strings.TrimSpace).filter (fun e => e ≠ []) := by
        rw [List.map_cons, List.filter_cons_of_neg (by simpa using hb)]
      rw [hf] at h ⊢
      simp only [hb, if_true]
      exact ParseCategories_parts_known op parts cs h
    · have hf : ((part :: parts).map strings.TrimSpace).filter (fun e => e ≠ []) =
          strings.TrimSpace part :: (parts.map strings.TrimSpace).filter (fun e => e ≠ []) := by
        rw [List.map_cons, List.filter_cons_of_pos (by simpa using hb)]
      rw [hf] at h ⊢
      have hk := h _ (List.mem_cons_self _ _)
      obtain ⟨c, hc⟩ := Option.isSome_iff_exists.1 hk
      simp only [hb, if_false, hc]
      rw [List.foldl_cons, hc, Option.getD_some]
      exact ParseCategories_parts_known op parts (op cs c)
        fun e he => h e (List.mem_cons_of_mem _ he)

/-- The loops of `ParseCategories` on parts one of which is not a known name. -/
theorem ParseCategories_parts_unknown (op : CategorySet → Category → CategorySet) :
    ∀ (parts : List (List Char)) (cs : CategorySet),
      (∃ e ∈ (parts.map strings.TrimSpace).filter (fun e => e ≠ []),
        categoryAliases e = none) →
      ∃ err, ParseCategories_parts op parts cs = Except.error err
  | [], _, h => by
    obtain ⟨e, he, _⟩ := h
    cases he
  | part :: parts, cs, h => by
    unfold ParseCategories_parts
    rw [List.foldlM_cons]
    by_cases hb : strings.TrimSpace part = []
    · have hf : ((part :: parts).map strings.TrimSpace).filter (fun e => e ≠ []) =
          (parts.map strings.TrimSpace).filter (fun e => e ≠ []) := by
        rw [List.map_cons, List.filter_cons_of_neg (by simpa using hb)]
      rw [hf] at h
      simp only [hb, if_true]
      exact ParseCategories_parts_unknown op parts cs h
    · have hf : ((part :: parts).map strings.TrimSpace).filter (fun e => e ≠ []) =
          strings.TrimSpace part :: (parts.map strings.TrimSpace).filter (fun e => e ≠ []) := by
        rw [List.map_cons, List.filter_cons_of_pos (by simpa using hb)]
      rw [hf] at h
      cases hc : categoryAliases (strings.TrimSpace part) with
      | none =>
        simp only [hb, if_false, hc]
        exact ⟨_, rfl⟩
      | some c =>
        simp only [hb, if_false, hc]
        obtain ⟨e, he, hn⟩ := h
        rcases List.mem_cons.1 he with e1 | he2
        · rw [e1, hc] at hn
          cases hn
        · exact ParseCategories_parts_unknown op parts (op cs c) ⟨e, he2, hn⟩

/-- Removing the categories named by `l` from a set within the 9 categories. -/
theorem foldl_Remove_testBit :
    ∀ (l : List (List Char)) (cs : Nat), cs < 512 →
      (∀ e ∈ l, (categoryAliases e).isSome = true) →
      l.foldl (fun cs e => CategorySet.Remove cs ((categoryAliases e).getD 0)) cs < 512 ∧
      ∀ i, ((l.foldl (fun cs e => CategorySet.Remove cs ((categoryAliases e).getD 0))
        cs).testBit i = true ↔ cs.testBit i = true ∧ ∀ e ∈ l, categoryAliases e ≠ some i)
  | [], cs, hcs, _ => ⟨hcs, fun i => by simp⟩
  | e :: l, cs, hcs, h => by
    obtain ⟨c, hc⟩ := Option.isSome_iff_exists.1 (h e (List.mem_cons_self _ _))
    have hc9 : c < 9 := categoryAliases_lt e c hc
    have hc16 : c < 16 := Nat.lt_of_lt_of_le hc9 (by decide)
    have hrem : CategorySet.Remove cs c < 512 := by
      rw [lt_512_iff] at hcs ⊢
      intro i hi
      rw [testBit_Remove cs c hc16 i, hcs i hi]
      rfl
    obtain ⟨hlt, hbit⟩ := foldl_Remove_testBit l (CategorySet.Remove cs c) hrem
      fun x hx => h x (List.mem_cons_of_mem _ hx)
    rw [List.foldl_cons, hc, Option.getD_some]
    refine ⟨hlt, fun i => ?_⟩
    rw [hbit i, testBit_Remove cs c hc16 i]
    have hi16 : cs.testBit i = true → i < 16 := by
      intro ht
      by_contra hge
      rw [(lt_512_iff cs).1 hcs i
        (Nat.le_of_lt (Nat.lt_of_lt_of_le (by decide : 9 < 16) (Nat.le_of_not_lt hge)))] at ht
      cases ht
    constructor
    · rintro ⟨h1, h2⟩
      simp only [Bool.and_eq_true, decide_eq_true_eq, Bool.not_eq_true', decide_eq_false_iff_not]
        at h1
      refine ⟨h1.1.1, fun x hx => ?_⟩
      rcases List.mem_cons.1 hx with e1 | hx2
      · rw [e1, hc]
        intro he
        exact h1.2 (Option.some.inj he)
      · exact h2 x hx2
    · rintro ⟨h1, h2⟩
      refine ⟨?_, fun x hx => h2 x (List.mem_cons_of_mem _ hx)⟩
      have hne : ¬ c = i := fun he => h2 e (List.mem_cons_self _ _) (by rw [hc, he])
      simp only [Bool.and_eq_true, decide_eq_true_eq, Bool.not_eq_true', decide_eq_false_iff_not]
      exact ⟨⟨h1, hi16 h1⟩, hne⟩

/-- Adding the categories named by `l` to a set. -/
theorem foldl_Add_testBit :
    ∀ (l : List (List Char)) (cs : Nat),
      (∀ e ∈ l, (categoryAliases e).isSome = true) →
      ∀ i, ((l.foldl (fun cs e => CategorySet.Add cs ((categoryAliases e).getD 0))
        cs).testBit i = true ↔ cs.testBit i = true ∨ ∃ e ∈ l, categoryAliases e = some i)
  | [], cs, _ => fun i => by simp
  | e :: l, cs, h => by
    obtain ⟨c, hc⟩ := Option.isSome_iff_exists.1 (h e (List.mem_cons_self _ _))
    have hc9 : c < 9 := categoryAliases_lt e c hc
    have hc16 : c < 16 := Nat.lt_of_lt_of_le hc9 (by decide)
    have hbit := foldl_Add_testBit l (CategorySet.Add cs c)
      fun x hx => h x (List.mem_cons_of_mem _ hx)
    rw [List.foldl_cons, hc, Option.getD_some]
    intro i
    rw [hbit i, testBit_Add cs c hc16 i]
    simp only [Bool.or_eq_true, decide_eq_true_eq, List.mem_cons, exists_eq_or_imp, hc,
      Option.some.injEq]
    tauto

theorem ParseCategories_eq (lowerTable : Char → Char) (input : String) :
    ParseCategories lowerTable input =
      if strings.TrimSpace (strings.ToLower lowerTable input.data) = [] then
        Except.error "empty categories input"
      else if ['a', 'l', 'l'].isPrefixOf
          (strings.TrimSpace (strings.ToLower lowerTable input.data)) = true then
        if (strings.TrimSpace (strings.ToLower lowerTable input.data)).drop 3 = [] then
          Except.ok AllCategories
        else ParseCategories_parts CategorySet.Remove
          (strings.Split ((strings.TrimSpace (strings.ToLower lowerTable input.data)).drop 3)
            '-') AllCategories
      else
        match ParseCategories_parts CategorySet.Add
          (strings.Split (strings.TrimSpace (strings.ToLower lowerTable input.data)) ',')
          0 with
        | Except.error err => Except.error err
        | Except.ok cs =>
          if cs = 0 then Except.error "no valid categories specified" else Except.ok cs :=
  rfl

/-- The branch of `ParseCategories` for an input that starts with all. -/
theorem ParseCategories_all (lowerTable : Char → Char) (input : String) (rest : List Char)
    (hs : strings.TrimSpace (strings.ToLower lowerTable input.data) =
      'a' :: 'l' :: 'l' :: rest) :
    ParseCategories lowerTable input =
      ParseCategories_parts CategorySet.Remove (strings.Split rest '-') AllCategories := by
  rw [ParseCategories_eq, hs, if_neg (List.cons_ne_nil _ _), if_pos (by simp [List.isPrefixOf])]
  by_cases hr : rest = []
  · subst hr
    rfl
  · rw [if_neg (by simpa using hr)]
    rfl

/-- The branch of `ParseCategories` for a comma-separated list. -/
theorem ParseCategories_list (lowerTable : Char → Char) (input : String) (s : List Char)
    (hs : strings.TrimSpace (strings.ToLower lowerTable input.data) = s) (hne : s ≠ [])
    (hp : ['a', 'l', 'l'].isPrefixOf s = false) :
    ParseCategories lowerTable input =
      match ParseCategories_parts CategorySet.Add (strings.Split s ',') 0 with
      | Except.error err => Except.error err
      | Except.ok cs =>
        if cs = 0 then Except.error "no valid categories specified" else Except.ok cs := by
  rw [ParseCategories_eq, hs, if_neg hne, if_neg (by rw [hp]; decide)]

theorem testBit_AllCategories (i : Nat) : AllCategories.testBit i = decide (i < 9) := by
  have h : AllCategories = 2 ^ 9 - 1 := rfl
  rw [h, Nat.testBit_two_pow_sub_one]

/-- C34: `ParseCategories` implements its three documented formats on the input with its
letters lowered and the spaces around it taken off. The word all gives AllCategories. The
word all followed by names separated by minus signs gives AllCategories with exactly
the named categories removed. A comma-separated list that names at least one category,
blank elements ignored, gives exactly the set of the named categories, and one that
names none is refused. In both lists an element that is not a known name gives an
error. -/
theorem ParseCategories_formats (lowerTable : Char → Char) (input : String) (s : List Char)
    (hs : strings.TrimSpace (strings.ToLower lowerTable input.data) = s) :
    (s = ['a', 'l', 'l'] → ParseCategories lowerTable input = Except.ok AllCategories) ∧
    (∀ rest, s = 'a' :: 'l' :: 'l' :: rest →
      ((∀ e ∈ namedElements rest '-', (categoryAliases e).isSome = true) →
        ∃ cs, ParseCategories lowerTable input = Except.ok cs ∧ cs ≤ AllCategories ∧
          ∀ c, c < NumCategories →
            (CategorySet.Has cs c = true ↔
              ∀ e ∈ namedElements rest '-', categoryAliases e ≠ some c)) ∧
      ((∃ e ∈ namedElements rest '-', categoryAliases e = none) →
        ∃ err, ParseCategories lowerTable input = Except.error err)) ∧
    (s ≠ [] → ['a', 'l', 'l'].isPrefixOf s = false →
      ((∀ e ∈ namedElements s ',', (categoryAliases e).isSome = true) →
        namedElements s ',' ≠ [] →
        ∃ cs, ParseCategories lowerTable input = Except.ok cs ∧ cs ≤ AllCategories ∧
          ∀ c, c < NumCategories →
            (CategorySet.Has cs c = true ↔
              ∃ e ∈ namedElements s ',', categoryAliases e = some c)) ∧
      ((∃ e ∈ namedElements s ',', categoryAliases e = none) →
        ∃ err, ParseCategories lowerTable input = Except.error err) ∧
      (namedElements s ',' = [] →
        ∃ err, ParseCategories lowerTable input = Except.error err)) := by
  refine ⟨?_, ?_, ?_⟩
  · intro h
    rw [ParseCategories_all lowerTable input [] (by rw [hs, h])]
    rfl
  · intro rest h
    have hall := ParseCategories_all lowerTable input rest (by rw [hs, h])
    constructor
    · intro hk
      have hp := ParseCategories_parts_known CategorySet.Remove (strings.Split rest '-')
        AllCategories hk
      obtain ⟨hlt, hbit⟩ := foldl_Remove_testBit (namedElements rest '-') AllCategories
        (by decide) hk
      refine ⟨_, hall.trans hp, Nat.le_of_lt_succ hlt, ?_⟩
      intro c hc
      have hc9 : c < 9 := hc
      have hc16 : c < 16 := Nat.lt_of_lt_of_le hc9 (by decide)
      rw [Has_eq_testBit _ c hc16]
      have hb := hbit c
      rw [testBit_AllCategories] at hb
      constructor
      · intro ht
        exact (hb.1 ht).2
      · intro hr
        exact hb.2 ⟨by simpa using hc9, hr⟩
    · intro hu
      obtain ⟨err, he⟩ := ParseCategories_parts_unknown CategorySet.Remove
        (strings.Split rest '-') AllCategories hu
      exact ⟨err, hall.trans he⟩
  · intro hne hpre
    have hlist := ParseCategories_list lowerTable input s hs hne hpre
    refine ⟨?_, ?_, ?_⟩
    · intro hk hnn
      have hp := ParseCategories_parts_known CategorySet.Add (strings.Split s ',') 0 hk
      have hbit := foldl_Add_testBit (namedElements s ',') 0 hk
      have hnz : (namedElements s ',').foldl
          (fun cs e => CategorySet.Add cs ((categoryAliases e).getD 0)) 0 ≠ 0 := by
        intro hz
        obtain ⟨e, he⟩ := List.exists_mem_of_ne_nil _ hnn
        obtain ⟨c, hc⟩ := Option.isSome_iff_exists.1 (hk e he)
        have h1 := (hbit c).2 (Or.inr ⟨e, he, hc⟩)
        rw [hz, Nat.zero_testBit] at h1
        cases h1
      have hlt : (namedElements s ',').foldl
          (fun cs e => CategorySet.Add cs ((categoryAliases e).getD 0)) 0 < 512 := by
        rw [lt_512_iff]
        intro i hi
        by_contra ht
        rw [Bool.not_eq_false] at ht
        rcases (hbit i).1 ht with h0 | ⟨e, _, hc⟩
        · rw [Nat.zero_testBit] at h0
          cases h0
        · have := categoryAliases_lt e i hc
          exact absurd hi (Nat.not_le_of_lt this)
      refine ⟨_, ?_, Nat.le_of_lt_succ hlt, ?_⟩
      · rw [hlist, hp]
        exact if_neg hnz
      · intro c hc
        have hc9 : c < 9 := hc
        have hc16 : c < 16 := Nat.lt_of_lt_of_le hc9 (by decide)
        rw [Has_eq_testBit _ c hc16, hbit c]
        constructor
        · rintro (h0 | h1)
          · rw [Nat.zero_testBit] at h0
            cases h0
          · exact h1
        · exact Or.inr
    · intro hu
      obtain ⟨err, he⟩ := ParseCategories_parts_unknown CategorySet.Add
        (strings.Split s ',') 0 hu
      exact ⟨err, by rw [hlist, he]⟩
    · intro hnil
      have hk : ∀ e ∈ namedElements s ',', (categoryAliases e).isSome = true := by
        intro e he
        rw [hnil] at he
        cases he
      have hp := ParseCategories_parts_known CategorySet.Add (strings.Split s ',') 0 hk
      have hnil2 : ((strings.Split s ',').map strings.TrimSpace).filter (fun e => e ≠ []) = [] :=
        hnil
      rw [hnil2] at hp
      exact ⟨_, by rw [hlist, hp]; rfl⟩

theorem ParseCategories_formats_witness :
    (strings.TrimSpace (strings.ToLower (fun c => c) " ALL".data) = ['a', 'l', 'l'] ∧
      ParseCategories (fun c => c) " ALL" = Except.ok AllCategories) ∧
    (strings.TrimSpace (strings.ToLower (fun c => c) "All-J-mix".data) =
        'a' :: 'l' :: 'l' :: "-j-mix".data ∧
      (∀ e ∈ namedElements "-j-mix".data '-', (categoryAliases e).isSome = true) ∧
      ∃ cs, ParseCategories (fun c => c) "All-J-mix" = Except.ok cs ∧ cs ≤ AllCategories ∧
        ∀ c, c < NumCategories →
          (CategorySet.Has cs c = true ↔
            ∀ e ∈ namedElements "-j-mix".data '-', categoryAliases e ≠ some c)) ∧
    ((∃ e ∈ namedElements "-j-zz".data '-', categoryAliases e = none) ∧
      ∃ err, ParseCategories (fun c => c) "all-j-zz" = Except.error err) ∧
    ("j, fr,,3k".data ≠ [] ∧ ['a', 'l', 'l'].isPrefixOf "j, fr,,3k".data = false ∧
      (∀ e ∈ namedElements "j, fr,,3k".data ',', (categoryAliases e).isSome = true) ∧
      namedElements "j, fr,,3k".data ',' ≠ [] ∧
      ∃ cs, ParseCategories (fun c => c) "j, FR,,3k" = Except.ok cs ∧ cs ≤ AllCategories ∧
        ∀ c, c < NumCategories →
          (CategorySet.Has cs c = true ↔
            ∃ e ∈ namedElements "j, fr,,3k".data ',', categoryAliases e = some c)) ∧
    ((∃ e ∈ namedElements "j,zz".data ',', categoryAliases e = none) ∧
      ∃ err, ParseCategories (fun c => c) "j,zz" = Except.error err) ∧
    (namedElements ",,".data ',' = [] ∧
      ∃ err, ParseCategories (fun c => c) ",," = Except.error err) :=
  ⟨⟨by decide,
      (ParseCategories_formats (fun c => c) " ALL" ['a', 'l', 'l'] (by decide)).1 rfl⟩,
    ⟨by decide, by decide,
      ((ParseCategories_formats (fun c => c) "All-J-mix" "all-j-mix".data (by decide)).2.1
        "-j-mix".data (by decide)).1 (by decide)⟩,
    ⟨by decide,
      ((ParseCategories_formats (fun c => c) "all-j-zz" "all-j-zz".data (by decide)).2.1
        "-j-zz".data (by decide)).2 (by decide)⟩,
    ⟨by decide, by decide, by decide, by decide,
      ((ParseCategories_formats (fun c => c) "j, FR,,3k" "j, fr,,3k".data (by decide)).2.2
        (by decide) (by decide)).1 (by decide) (by decide)⟩,
    ⟨by decide,
      ((ParseCategories_formats (fun c => c) "j,zz" "j,zz".data (by decide)).2.2
        (by decide) (by decide)).2.1 (by decide)⟩,
    ⟨by decide,
      ((ParseCategories_formats (fun c => c) ",," ",,".data (by decide)).2.2
        (by decide) (by decide)).2.2 (by decide)⟩⟩

end JBFields
